import Mathlib

/-!
# Myrtle: a turtle-graphics interpreter

A shallow embedding of the C sources `globals.c`, `file.c`, `main.c` and `myrtle.c`.

* The static `globals` structures of `myrtle.c` and `file.c` become one record `State`,
  threaded explicitly through every function.
* C `int` values are mathematical integers.  The program only ever adds or subtracts one
  from a row, a column, a heading or the line counter; rows and columns are clamped into
  `0..49` by their mutators and headings stay in `0..3`, so this arithmetic cannot leave
  the range of `int` (the line counter could only after `2^31` commands).
* `atoi` yields the mathematical value of the number its token begins with.  That is the
  value of the C function whenever it fits an `int`; for other tokens C leaves the result
  undefined.  The theorems that depend on the number read take it in the range of `int`,
  from `INT_MIN` to `INT_MAX`.
* The characters written with `file_write_char` and the messages printed on the standard
  output are recorded apart.  Without an output file the C program sends both to the
  standard output; the theorems about the text written are stated where the two records
  cannot mix - an output file is named, or no message is printed - or speak of both
  records.
* `exit()` and undefined behaviour (a null pointer handed to `atoi`, a write outside the
  world) end a computation; functions that can reach them return `Except Halt State`.
* The token source is the list of whitespace-delimited words of the input.
* Strings are unbounded: the buffers of the C program (32 bytes for a token, 128 bytes for
  a file name or a message) are taken to be large enough for the strings they receive.
-/

namespace Myrtle

/-! ## globals.h / globals.c -/

/-- Exit code of a normal run. -/
def TERM_NORM : Int := 0
/-- Exit code: the input file cannot be opened. -/
def TERM_ERR_INPUT : Int := -1
/-- Exit code: invalid command line. -/
def TERM_ERR_CMD_LINE : Int := -2
/-- Exit code: the output file cannot be opened. -/
def TERM_ERR_OUTPUT : Int := -3
/-- Exit code: unknown command in the source file. -/
def TERM_ERR_UNK_CMD : Int := -4

/-- Number of rows of the world. -/
def MAX_WORLD_ROWS : Int := 50
/-- Number of columns of the world. -/
def MAX_WORLD_COLS : Int := 50

/-- The macro `streq(s1,s2)`, that is `!strcmp(s1,s2)`. -/
def streq (s1 s2 : String) : Bool := decide (s1 = s2)

/-! ## myrtle.c: constants and state -/

/-- Heading north. -/
def DIR_NORTH : Int := 0
/-- Heading east. -/
def DIR_EAST : Int := 1
/-- Heading south. -/
def DIR_SOUTH : Int := 2
/-- Heading west. -/
def DIR_WEST : Int := 3

/-- Number of entries of the command table that are searched. -/
def MAX_CMDS : Nat := 9

/-- The world `char **world`: the character stored at a row and a column.  Only the cells
with `0 ≤ row < MAX_WORLD_ROWS` and `0 ≤ col < MAX_WORLD_COLS` are allocated; the program
never reads another one, and a write to another one is undefined behaviour. -/
structure World where
  cell : Int → Int → Char

/-- The assignment `world[r][c] = ch`. -/
def world_store (w : World) (r c : Int) (ch : Char) : World :=
  ⟨fun i j => if i = r ∧ j = c then ch else w.cell i j⟩

/-- The global variables of `myrtle.c` (`pendown` .. `col`) and of `file.c`
(`in_fname` .. `fout`), followed by the surroundings of the process.

`fin` holds the tokens not yet read from the input stream.  `fout` is the sequence of
characters written with `file_write_char`, `stdout` the sequence of messages printed with
`fprintf(stdout, ...)`; when no output file is named the C program sends both to the
standard output, here they are kept apart. -/
structure State where
  pendown : Bool
  verbose : Bool
  penchar : Char
  world : World
  line : Int
  dir : Int
  row : Int
  col : Int
  in_fname : String
  out_fname : String
  fin : List String
  fout : List Char
  stdout : List String
  stdin : List String
  readable : String → Option (List String)
  writable : String → Bool

/-- The ways a computation ends without returning to its caller. -/
inductive Halt where
  /-- The call `exit(code)`. -/
  | exit (code : Int) (s : State)
  /-- Undefined behaviour: a null pointer is dereferenced or the world is written outside
  its bounds. -/
  | undefined (s : State)
  /-- The interpreter loop was interrupted with input left, in state `s`. -/
  | pending (s : State)

/-- The state in which a computation returned or ended. -/
def stateOf : Except Halt State → State
  | .ok s => s
  | .error (.exit _ s) => s
  | .error (.undefined s) => s
  | .error (.pending s) => s

/-- The static initialiser of `globals` in `myrtle.c` and in `file.c`, for a process whose
standard input holds the tokens `stdin`, in which `readable name` is the token sequence of
the file `name` when it can be opened for reading, and `writable name` tells whether
`name` can be opened for writing.  The null pointer `world` is an unspecified world. -/
def globals (stdin : List String) (readable : String → Option (List String))
    (writable : String → Bool) : State where
  pendown := false
  verbose := false
  penchar := ' '
  world := ⟨fun _ _ => Char.ofNat 0⟩
  line := 1
  dir := DIR_EAST
  row := 0
  col := 0
  in_fname := ""
  out_fname := ""
  fin := []
  fout := []
  stdout := []
  stdin := stdin
  readable := readable
  writable := writable

/-! ## The C library -/

/-- The C library `isspace` in the C locale. -/
def isspace (c : Char) : Bool :=
  c.toNat = 32 || (9 ≤ c.toNat && c.toNat ≤ 13)

/-- The digit loop of `atoi`: reads decimal digits up to the first other character. -/
def atoi_digits : List Char → Int → Int
  | [], acc => acc
  | c :: cs, acc =>
    if c.isDigit then atoi_digits cs (10 * acc + ((c.toNat - 48 : Nat) : Int)) else acc

/-- The C library `atoi`: skips white space, reads an optional sign and then decimal
digits; a string without leading digits yields zero.  The value is the mathematical one:
it is the value of the C function whenever it fits an `int`, that is from `INT_MIN` to
`INT_MAX`; C leaves the result undefined when it does not fit. -/
def atoi (nptr : String) : Int :=
  match nptr.toList.dropWhile isspace with
  | [] => 0
  | c :: cs =>
    if c = '-' then - atoi_digits cs 0
    else if c = '+' then atoi_digits cs 0
    else atoi_digits (c :: cs) 0

/-! ## main.c: abnormal termination -/

/-- `main_terminate_err`: prints the message followed by `. Terminating.` and calls
`exit(err_code)`. -/
def main_terminate_err (err_msg : String) (err_code : Int) (s : State) : Except Halt State :=
  .error (.exit err_code { s with stdout := s.stdout ++ [err_msg ++ ". Terminating.\n"] })

/-! ## file.c -/

/-- `_file_close_in`: closing a stream has no effect on the state. -/
def _file_close_in (s : State) : State := s

/-- `_file_close_out`: closing a stream has no effect on the state. -/
def _file_close_out (s : State) : State := s

/-- `file_close_files`. -/
def file_close_files (s : State) : State :=
  _file_close_out (_file_close_in s)

/-- `file_next_token`: the next token of the input, or the null pointer on end of file. -/
def file_next_token (s : State) : Option String × State :=
  match s.fin with
  | [] => (none, s)
  | t :: ts => (some t, { s with fin := ts })

/-- `_file_open_in`: opens the file named with `-i`, or takes the standard input. -/
def _file_open_in (s : State) : Except Halt State :=
  if s.in_fname ≠ "" then
    match s.readable s.in_fname with
    | some toks => .ok { s with fin := toks }
    | none =>
      main_terminate_err ("Cannot open input file '" ++ s.in_fname ++ "'") TERM_ERR_INPUT s
  else .ok { s with fin := s.stdin }

/-- `_file_open_out`: opens the file named with `-o`, or takes the standard output. -/
def _file_open_out (s : State) : Except Halt State :=
  if s.out_fname ≠ "" then
    if s.writable s.out_fname then .ok { s with fout := [] }
    else
      main_terminate_err ("Cannot open outut file '" ++ s.out_fname ++ "'") TERM_ERR_INPUT s
  else .ok { s with fout := [] }

/-- `file_open_files`. -/
def file_open_files (s : State) : Except Halt State :=
  _file_open_in s >>= _file_open_out

/-- `file_set_in_fname`. -/
def file_set_in_fname (fname : String) (s : State) : State :=
  { s with in_fname := fname }

/-- `file_set_out_fname`. -/
def file_set_out_fname (fname : String) (s : State) : State :=
  { s with out_fname := fname }

/-- `file_write_char`: writes one character to the output file. -/
def file_write_char (ch : Char) (s : State) : State :=
  { s with fout := s.fout ++ [ch] }

/-! ## myrtle.c: accessors and mutators -/

/-- `myrtle_verbose_get`. -/
def myrtle_verbose_get (s : State) : Bool := s.verbose

/-- `myrtle_verbose_set`. -/
def myrtle_verbose_set (flag : Bool) (s : State) : State :=
  { s with verbose := flag }

/-- `_myrtle_col_get`. -/
def _myrtle_col_get (s : State) : Int := s.col

/-- `_myrtle_col_set`: stores the column, clamped into the world. -/
def _myrtle_col_set (col : Int) (s : State) : State :=
  if col < 0 then { s with col := 0 }
  else if col ≥ MAX_WORLD_COLS then { s with col := MAX_WORLD_COLS - 1 }
  else { s with col := col }

/-- `_myrtle_dir_get`. -/
def _myrtle_dir_get (s : State) : Int := s.dir

/-- `_myrtle_dir_set`: stores the heading when it is one of the four directions. -/
def _myrtle_dir_set (dir : Int) (s : State) : State :=
  if dir > -1 ∧ dir < 4 then { s with dir := dir } else s

/-- `_myrtle_line_get`. -/
def _myrtle_line_get (s : State) : Int := s.line

/-- `_myrtle_line_set`: stores the line number when it is not negative. -/
def _myrtle_line_set (n : Int) (s : State) : State :=
  if n > -1 then { s with line := n } else s

/-- `_myrtle_line_inc`. -/
def _myrtle_line_inc (s : State) : State :=
  _myrtle_line_set (_myrtle_line_get s + 1) s

/-- `_myrtle_row_get`. -/
def _myrtle_row_get (s : State) : Int := s.row

/-- `_myrtle_row_set`: stores the row, clamped into the world. -/
def _myrtle_row_set (row : Int) (s : State) : State :=
  if row < 0 then { s with row := 0 }
  else if row ≥ MAX_WORLD_ROWS then { s with row := MAX_WORLD_ROWS - 1 }
  else { s with row := row }

/-- `_myrtle_move`: moves `squares` squares in the direction Myrtle is facing. -/
def _myrtle_move (squares : Int) (s : State) : State :=
  if _myrtle_dir_get s = DIR_NORTH then _myrtle_row_set (_myrtle_row_get s - squares) s
  else if _myrtle_dir_get s = DIR_EAST then _myrtle_col_set (_myrtle_col_get s + squares) s
  else if _myrtle_dir_get s = DIR_SOUTH then _myrtle_row_set (_myrtle_row_get s + squares) s
  else _myrtle_col_set (_myrtle_col_get s - squares) s

/-- `_myrtle_pen_char_get`. -/
def _myrtle_pen_char_get (s : State) : Char := s.penchar

/-- `_myrtle_pen_char_set`. -/
def _myrtle_pen_char_set (ch : Char) (s : State) : State :=
  { s with penchar := ch }

/-- `_myrtle_pen_down`. -/
def _myrtle_pen_down (s : State) : State := { s with pendown := true }

/-- `_myrtle_pen_is_down`. -/
def _myrtle_pen_is_down (s : State) : Bool := s.pendown

/-- `_myrtle_pen_up`. -/
def _myrtle_pen_up (s : State) : State := { s with pendown := false }

/-! ## myrtle.c: the world -/

/-- `_myrtle_world_clear`: the nested loops over every row `r` and column `c` of the
world store a space in `world[r][c]`; every cell of the world holds a space afterwards. -/
def _myrtle_world_clear (s : State) : State :=
  { s with world := ⟨fun r c =>
      if 0 ≤ r ∧ r < MAX_WORLD_ROWS ∧ 0 ≤ c ∧ c < MAX_WORLD_COLS then ' ' else s.world.cell r c⟩ }

/-- `_myrtle_world_draw_char`: draws the pen character in the square Myrtle is in. -/
def _myrtle_world_draw_char (s : State) : Except Halt State :=
  if !_myrtle_pen_is_down s then .ok s
  else if 0 ≤ _myrtle_row_get s ∧ _myrtle_row_get s < MAX_WORLD_ROWS ∧
      0 ≤ _myrtle_col_get s ∧ _myrtle_col_get s < MAX_WORLD_COLS then
    .ok { s with world :=
      world_store s.world (_myrtle_row_get s) (_myrtle_col_get s) (_myrtle_pen_char_get s) }
  else .error (.undefined s)

/-- `_myrtle_world_init`: allocates the world and clears it. -/
def _myrtle_world_init (s : State) : State :=
  _myrtle_world_clear s

/-- `_myrtle_world_write`: writes every row of the world, each followed by a newline. -/
def _myrtle_world_write (s : State) : State :=
  (List.range MAX_WORLD_ROWS.toNat).foldl
    (fun (s : State) (row : Nat) => file_write_char '\n'
      ((List.range MAX_WORLD_COLS.toNat).foldl
        (fun (s : State) (col : Nat) => file_write_char (s.world.cell row col) s) s)) s

/-! ## myrtle.c: the commands -/

/-- The loop `for (i = squares; i > 0; --i) body`, for `squares = i`. -/
def for_down : Nat → (State → Except Halt State) → State → Except Halt State
  | 0, _, s => .ok s
  | i + 1, body, s => body s >>= for_down i body

/-- The body of the loops of `_myrtle_cmd_forward` (`squares = 1`) and
`_myrtle_cmd_backward` (`squares = -1`): one move, then a draw when the pen is down. -/
def move_and_draw (squares : Int) (s : State) : Except Halt State :=
  let s1 := _myrtle_move squares s
  if _myrtle_pen_is_down s1 then _myrtle_world_draw_char s1 else .ok s1

/-- `_myrtle_cmd_backward`. -/
def _myrtle_cmd_backward (s : State) : Except Halt State :=
  match file_next_token s with
  | (none, s1) => .error (.undefined s1)
  | (some n, s1) =>
    let squares := atoi n
    for_down squares.toNat (move_and_draw (-1)) s1

/-- `_myrtle_cmd_forward`. -/
def _myrtle_cmd_forward (s : State) : Except Halt State :=
  match file_next_token s with
  | (none, s1) => .error (.undefined s1)
  | (some n, s1) =>
    let squares := atoi n
    for_down squares.toNat (move_and_draw 1) s1

/-- `_myrtle_cmd_hyper`. -/
def _myrtle_cmd_hyper (s : State) : Except Halt State :=
  match file_next_token s with
  | (none, s1) => .error (.undefined s1)
  | (some n, s1) =>
    let row := atoi n
    match file_next_token s1 with
    | (none, s2) => .error (.undefined s2)
    | (some n, s2) =>
      let col := atoi n
      let s3 := _myrtle_col_set col (_myrtle_row_set row s2)
      if _myrtle_pen_is_down s3 then _myrtle_world_draw_char s3 else .ok s3

/-- `_myrtle_cmd_left`. -/
def _myrtle_cmd_left (s : State) : Except Halt State :=
  if _myrtle_dir_get s = DIR_NORTH then .ok (_myrtle_dir_set DIR_WEST s)
  else .ok (_myrtle_dir_set (_myrtle_dir_get s - 1) s)

/-- `_myrtle_cmd_penchar`. -/
def _myrtle_cmd_penchar (s : State) : Except Halt State :=
  match file_next_token s with
  | (none, s1) => .error (.undefined s1)
  | (some next, s1) => .ok (_myrtle_pen_char_set (next.toList.headD (Char.ofNat 0)) s1)

/-- `_myrtle_cmd_pendown`. -/
def _myrtle_cmd_pendown (s : State) : Except Halt State :=
  .ok { s with pendown := true }

/-- `_myrtle_cmd_penup`. -/
def _myrtle_cmd_penup (s : State) : Except Halt State :=
  .ok { s with pendown := false }

/-- `_myrtle_cmd_right`. -/
def _myrtle_cmd_right (s : State) : Except Halt State :=
  if _myrtle_dir_get s = DIR_WEST then .ok (_myrtle_dir_set DIR_NORTH s)
  else .ok (_myrtle_dir_set (_myrtle_dir_get s + 1) s)

/-- `_myrtle_cmd_stop`: sends the world to the output file, and returns. -/
def _myrtle_cmd_stop (s : State) : Except Halt State :=
  .ok (_myrtle_world_write s)

/-- An entry of the command table: a command word and the function performing it. -/
structure cmd_t where
  cmd : String
  perform : State → Except Halt State

/-- The command table `globals.cmd_table`. -/
def cmd_table : List cmd_t :=
  [ ⟨"backward", _myrtle_cmd_backward⟩,
    ⟨"forward", _myrtle_cmd_forward⟩,
    ⟨"hyper", _myrtle_cmd_hyper⟩,
    ⟨"left", _myrtle_cmd_left⟩,
    ⟨"penchar", _myrtle_cmd_penchar⟩,
    ⟨"pendown", _myrtle_cmd_pendown⟩,
    ⟨"penup", _myrtle_cmd_penup⟩,
    ⟨"right", _myrtle_cmd_right⟩,
    ⟨"stop", _myrtle_cmd_stop⟩ ]

/-- `_myrtle_cmd_lookup`: the first of the first `MAX_CMDS` entries of the table whose
word equals `cmd_string`, or the null pointer. -/
def _myrtle_cmd_lookup (cmd_string : String) : Option cmd_t :=
  (cmd_table.take MAX_CMDS).find? (fun e => streq e.cmd cmd_string)

/-- `_myrtle_cmd_perform`. -/
def _myrtle_cmd_perform (cmd_string : String) (s : State) : Except Halt State :=
  match _myrtle_cmd_lookup cmd_string with
  | none =>
    main_terminate_err
      ("Unknown command '" ++ cmd_string ++ "' on line " ++ toString (_myrtle_line_get s))
      TERM_ERR_UNK_CMD s
  | some command => command.perform s

/-! ## myrtle.c: the interpreter -/

/-- The message printed for a command in verbose mode. -/
def echo (cmd : String) (s : State) : State :=
  if s.verbose then { s with stdout := s.stdout ++ ["Performing command: " ++ cmd ++ "\n"] }
  else s

/-- The loop of `myrtle_interp`, from the test `cmd = file_next_token()` on, for at most
`fuel` commands: it ends when the input is exhausted; every command performed is followed
by `_myrtle_line_inc`.  With input left after `fuel` commands the result is
`Halt.pending` with the state reached. -/
def interp_loop : Nat → State → Except Halt State
  | 0, s =>
    match file_next_token s with
    | (none, s1) => .ok s1
    | (some _, _) => .error (.pending s)
  | fuel + 1, s =>
    match file_next_token s with
    | (none, s1) => .ok s1
    | (some cmd, s1) =>
      _myrtle_cmd_perform cmd (echo cmd s1) >>= fun s2 => interp_loop fuel (_myrtle_line_inc s2)

/-- `myrtle_interp`: opens the files, initialises the world, performs the commands of the
input, writes the world and returns 0.  Every command reads at least one token, so the
number of tokens of the input bounds the number of commands. -/
def myrtle_interp (s : State) : Except Halt (Int × State) :=
  file_open_files s >>= fun s1 =>
  let s2 := _myrtle_world_init s1
  interp_loop s2.fin.length (_myrtle_line_set 1 s2) >>= fun s3 =>
  let s4 := _myrtle_world_write s3
  let s5 := file_close_files s4
  .ok (0, s5)

/-! ## main.c -/

/-- `_main_print_version`. -/
def _main_print_version (s : State) : State :=
  { s with stdout := s.stdout ++
      ["Myrtle (the Turtle) Ver 1.0.0 -- (c) 2011 Kevin R. Burger\n"] }

/-- `_main_help`: prints the help message. -/
def _main_help (s : State) : State :=
  { s with stdout := s.stdout ++
      ["A Myrtle programming language interpreter.\n",
       "Usage: myrtle [options]\n\n",
       "If there are no command line options, then Myrtle reads commands from\n",
       "stdin and performs them and writes the output to stdout.\n\n",
       "Options:\n",
       "-i file    Reads commands from 'file'.\n",
       "-o file    Sends output to 'file'.\n",
       "-h         Displays this help message and terminates.\n",
       "-V         Verbose mode. Displays commands as they are performed.\n",
       "-v         Displays the version of the Myrtle interpreter and terminates.\n"] }

/-- `_main_terminate_norm`: the call `exit(TERM_NORM)`. -/
def _main_terminate_norm (s : State) : Except Halt State :=
  .error (.exit TERM_NORM s)

/-- The loop of `_main_parse_cmd_line` over the arguments `argv[i]`, `i ≥ 1`, that are
left.  After `-i` or `-o` as the last argument, `argv[++i]` is the null pointer that ends
`argv`, and copying from it is undefined behaviour. -/
def parse_args : List String → State → Except Halt State
  | [], s => .ok s
  | arg :: rest, s =>
    if streq arg "-i" then
      match rest with
      | [] => .error (.undefined s)
      | fname :: rest' => parse_args rest' (file_set_in_fname fname s)
    else if streq arg "-o" then
      match rest with
      | [] => .error (.undefined s)
      | fname :: rest' => parse_args rest' (file_set_out_fname fname s)
    else if streq arg "-h" then
      _main_terminate_norm (_main_help (_main_print_version s))
    else if streq arg "-V" then
      parse_args rest (myrtle_verbose_set true s)
    else if streq arg "-v" then
      _main_terminate_norm (_main_print_version s)
    else
      main_terminate_err "\nInvalid command line" TERM_ERR_CMD_LINE (_main_help s)

/-- `_main_parse_cmd_line`, for the arguments `argv[1]`, .., `argv[argc - 1]`. -/
def _main_parse_cmd_line (argv : List String) (s : State) : Except Halt State :=
  parse_args argv (myrtle_verbose_set false s)

/-- `main`, for the arguments `argv[1]`, .., `argv[argc - 1]`: the value returned, or the
way the program ended. -/
def main (argv : List String) (s : State) : Except Halt (Int × State) :=
  _main_parse_cmd_line argv s >>= myrtle_interp

/-! ## Vocabulary of the statements -/

/-- The position of Myrtle lies inside the world. -/
def InBounds (s : State) : Prop :=
  0 ≤ s.row ∧ s.row < MAX_WORLD_ROWS ∧ 0 ≤ s.col ∧ s.col < MAX_WORLD_COLS

/-- The change of row and of column made by one square forward with heading `dir`, as
`_myrtle_move` selects it: north, east, south, and west for every other value. -/
def heading_delta (dir : Int) : Int × Int :=
  if dir = DIR_NORTH then (-1, 0)
  else if dir = DIR_EAST then (0, 1)
  else if dir = DIR_SOUTH then (1, 0)
  else (0, -1)

/-- The text of a world: its rows from the first to the last, every row as its
`MAX_WORLD_COLS` characters followed by a newline. -/
def render (w : World) : List Char :=
  (List.range MAX_WORLD_ROWS.toNat).flatMap fun r : Nat =>
    (List.range MAX_WORLD_COLS.toNat).map (fun c : Nat => w.cell r c) ++ ['\n']

/-- The nine command words. -/
def command_names : List String :=
  ["backward", "forward", "hyper", "left", "penchar", "pendown", "penup", "right", "stop"]

/-- A command of the input together with the tokens that follow it as its arguments. -/
inductive Cmd where
  | backward (n : String)
  | forward (n : String)
  | hyper (row col : String)
  | left
  | penchar (c : String)
  | pendown
  | penup
  | right
  | stop
  deriving DecidableEq

/-- The command word of a command. -/
def Cmd.name : Cmd → String
  | .backward _ => "backward"
  | .forward _ => "forward"
  | .hyper _ _ => "hyper"
  | .left => "left"
  | .penchar _ => "penchar"
  | .pendown => "pendown"
  | .penup => "penup"
  | .right => "right"
  | .stop => "stop"

/-- The argument tokens of a command. -/
def Cmd.args : Cmd → List String
  | .backward n => [n]
  | .forward n => [n]
  | .hyper row col => [row, col]
  | .penchar c => [c]
  | _ => []

/-- The tokens of a command: its word, then its arguments. -/
def Cmd.tokens (c : Cmd) : List String := c.name :: c.args

/-- The tokens of a sequence of commands. -/
def Cmd.stream (cs : List Cmd) : List String := cs.flatMap Cmd.tokens

/-- The part of `myrtle_interp` before the world is written, with the loop interrupted
after `k` commands: the state reached after the first `k` commands of the input. -/
def interp_upto (k : Nat) (s : State) : Except Halt State :=
  file_open_files s >>= fun s1 => interp_loop k (_myrtle_line_set 1 (_myrtle_world_init s1))

/-- The state `t` differs from `s` at most in the position and the world, and its position
lies inside the world. -/
def Moved (s t : State) : Prop :=
  ∃ R C W, t = { s with row := R, col := C, world := W } ∧
    0 ≤ R ∧ R < MAX_WORLD_ROWS ∧ 0 ≤ C ∧ C < MAX_WORLD_COLS

/-- The state in which `myrtle_interp`, started in `s` without file names, enters its
loop: the input is the standard input, nothing is written yet, the world is cleared and
the line counter set to 1. -/
def loop_entry (s : State) : State :=
  _myrtle_line_set 1 (_myrtle_world_init { s with fin := s.stdin, fout := [] })

/-- The initial state of a process with the tokens `toks` on its standard input and no
file that can be opened. -/
def initial (toks : List String) : State :=
  globals toks (fun _ => none) (fun _ => false)

/-- A command function applied `k` times in a row. -/
def repeated : Nat → (State → Except Halt State) → State → Except Halt State
  | 0, _, s => .ok s
  | k + 1, f, s => f s >>= repeated k f

/-- The options of the command line. -/
def option_names : List String := ["-i", "-o", "-h", "-V", "-v"]

/-- An option of the command line after which the parsing goes on, with its file name. -/
inductive Opt where
  | input (fname : String)
  | output (fname : String)
  | verbose

/-- The arguments that make up an option. -/
def Opt.tokens : Opt → List String
  | .input fname => ["-i", fname]
  | .output fname => ["-o", fname]
  | .verbose => ["-V"]

/-- The arguments that make up a sequence of options. -/
def Opt.args (os : List Opt) : List String := os.flatMap Opt.tokens

/-- The positions of the `stop` commands in a sequence of commands, counted from 0. -/
def stop_positions : List Cmd → List Nat
  | [] => []
  | c :: cs => (if c = Cmd.stop then [0] else []) ++ (stop_positions cs).map (fun i => i + 1)

/-- The least value of the C type `int`. -/
def INT_MIN : Int := -2147483648

/-- The greatest value of the C type `int`. -/
def INT_MAX : Int := 2147483647

theorem digitChar_facts (k : Nat) (hk : k < 10) :
    (Nat.digitChar k).isDigit = true ∧ (Nat.digitChar k).toNat - 48 = k ∧
    isspace (Nat.digitChar k) = false ∧ Nat.digitChar k ≠ '-' ∧ Nat.digitChar k ≠ '+' := by
  interval_cases k <;> decide

theorem atoi_digits_toDigitsCore (fuel : Nat) : ∀ (n : Nat) (ds : List Char), n < fuel →
    atoi_digits (Nat.toDigitsCore 10 fuel n ds) 0 = atoi_digits ds (n : Int) := by
  induction fuel with
  | zero => intro n ds h; omega
  | succ fuel ih =>
    intro n ds h
    have hd := digitChar_facts (n % 10) (Nat.mod_lt _ (by norm_num))
    unfold Nat.toDigitsCore
    by_cases h0 : n / 10 = 0
    · simp only [h0, if_true]
      have hn : n % 10 = n := Nat.mod_eq_of_lt (by omega)
      rw [hn] at hd
      simp [atoi_digits, hn, hd.1, hd.2.1]
    · simp only [h0, if_false]
      rw [ih (n / 10) _ (by omega)]
      simp only [atoi_digits, hd.1, if_true, hd.2.1]
      congr 1
      omega

theorem toDigitsCore_head (fuel : Nat) : ∀ (n : Nat) (ds : List Char), n < fuel →
    ∃ k, k < 10 ∧ ∃ tl, Nat.toDigitsCore 10 fuel n ds = Nat.digitChar k :: tl := by
  induction fuel with
  | zero => intro n ds h; omega
  | succ fuel ih =>
    intro n ds h
    unfold Nat.toDigitsCore
    by_cases h0 : n / 10 = 0
    · simp only [h0, if_true]
      exact ⟨n % 10, Nat.mod_lt _ (by norm_num), ds, rfl⟩
    · simp only [h0, if_false]
      exact ih _ _ (by omega)

theorem atoi_repr_nat (n : Nat) : atoi (Nat.repr n) = n := by
  obtain ⟨k, hk, tl, htl⟩ := toDigitsCore_head (n + 1) n [] (by omega)
  have hd := digitChar_facts k hk
  have hv := atoi_digits_toDigitsCore (n + 1) n [] (by omega)
  have hl : (Nat.repr n).toList = Nat.digitChar k :: tl := by
    simp [Nat.repr, Nat.toDigits, htl, List.asString]
  unfold atoi
  rw [hl, List.dropWhile_cons_of_neg (by simp [hd.2.2.1])]
  simp only [hd.2.2.2.1, hd.2.2.2.2, if_false]
  rw [← htl, hv]
  simp [atoi_digits]

/-- `atoi` maps the decimal form of every integer back to the integer. -/
theorem atoi_toString (n : Int) : atoi (toString n) = n := by
  cases n with
  | ofNat m => exact atoi_repr_nat m
  | negSucc m =>
    have hv := atoi_repr_nat (m + 1)
    obtain ⟨k, hk, tl, htl⟩ := toDigitsCore_head (m + 1 + 1) (m + 1) [] (by omega)
    have hd := digitChar_facts k hk
    have hl : (Nat.repr (m + 1)).toList = Nat.digitChar k :: tl := by
      simp [Nat.repr, Nat.toDigits, htl, List.asString]
    have hs : (toString (Int.negSucc m)).toList = '-' :: (Nat.repr (m + 1)).toList := by
      show ("-" ++ Nat.repr (m + 1)).toList = _
      simp
    unfold atoi at hv ⊢
    rw [hl, List.dropWhile_cons_of_neg (by simp [hd.2.2.1])] at hv
    simp only [hd.2.2.2.1, hd.2.2.2.2, if_false] at hv
    rw [hs, List.dropWhile_cons_of_neg (by decide)]
    simp only [if_true, hl, hv]
    rfl

/-! ## Positions stay inside the world -/

theorem Moved.inBounds {s t : State} (h : Moved s t) : InBounds t := by
  obtain ⟨R, C, W, rfl, h1, h2, h3, h4⟩ := h
  exact ⟨h1, h2, h3, h4⟩

theorem Moved.refl {s : State} (h : InBounds s) : Moved s s :=
  ⟨s.row, s.col, s.world, rfl, h.1, h.2.1, h.2.2.1, h.2.2.2⟩

theorem Moved.trans {s t u : State} (h1 : Moved s t) (h2 : Moved t u) : Moved s u := by
  obtain ⟨R, C, W, rfl, _⟩ := h1
  obtain ⟨R2, C2, W2, rfl, b⟩ := h2
  exact ⟨R2, C2, W2, rfl, b⟩

theorem MAX_WORLD_ROWS_eq : MAX_WORLD_ROWS = 50 := rfl

theorem MAX_WORLD_COLS_eq : MAX_WORLD_COLS = 50 := rfl

theorem row_set_moved (r : Int) {s : State} (h : InBounds s) : Moved s (_myrtle_row_set r s) := by
  obtain ⟨h1, h2, h3, h4⟩ := h
  unfold _myrtle_row_set
  split_ifs with a b
  · exact ⟨0, s.col, s.world, rfl, le_refl _, by rw [MAX_WORLD_ROWS_eq]; omega, h3, h4⟩
  · exact ⟨MAX_WORLD_ROWS - 1, s.col, s.world, rfl, by rw [MAX_WORLD_ROWS_eq]; omega,
      by omega, h3, h4⟩
  · exact ⟨r, s.col, s.world, rfl, by omega, by omega, h3, h4⟩

theorem col_set_moved (c : Int) {s : State} (h : InBounds s) : Moved s (_myrtle_col_set c s) := by
  obtain ⟨h1, h2, h3, h4⟩ := h
  unfold _myrtle_col_set
  split_ifs with a b
  · exact ⟨s.row, 0, s.world, rfl, h1, h2, le_refl _, by rw [MAX_WORLD_COLS_eq]; omega⟩
  · exact ⟨s.row, MAX_WORLD_COLS - 1, s.world, rfl, h1, h2, by rw [MAX_WORLD_COLS_eq]; omega,
      by omega⟩
  · exact ⟨s.row, c, s.world, rfl, h1, h2, by omega, by omega⟩

theorem move_moved (d : Int) {s : State} (h : InBounds s) : Moved s (_myrtle_move d s) := by
  unfold _myrtle_move
  split_ifs
  · exact row_set_moved _ h
  · exact col_set_moved _ h
  · exact row_set_moved _ h
  · exact col_set_moved _ h

theorem draw_eq {s : State} (h : InBounds s) (hp : s.pendown = true) :
    _myrtle_world_draw_char s =
      .ok { s with world := world_store s.world s.row s.col s.penchar } := by
  unfold _myrtle_world_draw_char _myrtle_pen_is_down _myrtle_row_get _myrtle_col_get
  have h' : 0 ≤ s.row ∧ s.row < MAX_WORLD_ROWS ∧ 0 ≤ s.col ∧ s.col < MAX_WORLD_COLS := h
  rw [if_neg (by simp [hp]), if_pos h']
  rfl

theorem draw_penup {s : State} (hp : s.pendown = false) :
    _myrtle_world_draw_char s = .ok s := by
  unfold _myrtle_world_draw_char _myrtle_pen_is_down
  rw [if_pos (by simp [hp])]

theorem draw_moved {s : State} (h : InBounds s) :
    ∃ t, _myrtle_world_draw_char s = .ok t ∧ Moved s t := by
  by_cases hp : s.pendown = true
  · exact ⟨_, draw_eq h hp, s.row, s.col, _, rfl, h⟩
  · simp only [Bool.not_eq_true] at hp
    exact ⟨s, draw_penup hp, Moved.refl h⟩

theorem move_and_draw_moved (d : Int) {s : State} (h : InBounds s) :
    ∃ t, move_and_draw d s = .ok t ∧ Moved s t := by
  have hm := move_moved d h
  unfold move_and_draw
  simp only
  split_ifs
  · obtain ⟨t, ht, hmt⟩ := draw_moved hm.inBounds
    exact ⟨t, ht, hm.trans hmt⟩
  · exact ⟨_, rfl, hm⟩

theorem for_down_moved (d : Int) (j : Nat) : ∀ {s : State}, InBounds s →
    ∃ t, for_down j (move_and_draw d) s = .ok t ∧ Moved s t := by
  induction j with
  | zero => intro s h; exact ⟨s, rfl, Moved.refl h⟩
  | succ j ih =>
    intro s h
    obtain ⟨t, ht, hmt⟩ := move_and_draw_moved d h
    obtain ⟨u, hu, hmu⟩ := ih hmt.inBounds
    refine ⟨u, ?_, hmt.trans hmu⟩
    simp only [for_down, ht]
    exact hu

/-! ## The token source and the output -/

theorem next_token_cons {s : State} {n : String} {tl : List String} (h : s.fin = n :: tl) :
    file_next_token s = (some n, { s with fin := tl }) := by
  unfold file_next_token
  rw [h]

theorem next_token_nil {s : State} (h : s.fin = []) : file_next_token s = (none, s) := by
  unfold file_next_token
  rw [h]

theorem write_row_eq (row : Int) (l : List Nat) : ∀ s : State,
    l.foldl (fun (s : State) (col : Nat) => file_write_char (s.world.cell row col) s) s =
      { s with fout := s.fout ++ l.map (fun c : Nat => s.world.cell row c) } := by
  induction l with
  | nil => intro s; simp
  | cons a l ih =>
    intro s
    rw [List.foldl_cons, ih]
    simp [file_write_char]

theorem write_rows_eq (l : List Nat) : ∀ s : State,
    l.foldl (fun (s : State) (row : Nat) => file_write_char '\n'
        ((List.range MAX_WORLD_COLS.toNat).foldl
          (fun (s : State) (col : Nat) => file_write_char (s.world.cell row col) s) s)) s =
      { s with fout := s.fout ++ l.flatMap fun r : Nat =>
          (List.range MAX_WORLD_COLS.toNat).map (fun c : Nat => s.world.cell r c)
            ++ ['\n'] } := by
  induction l with
  | nil => intro s; simp
  | cons a l ih =>
    intro s
    rw [List.foldl_cons, ih, write_row_eq]
    simp [file_write_char]

/-- `_myrtle_world_write` appends the text of the world to the output and changes nothing
else. -/
theorem world_write_eq (s : State) :
    _myrtle_world_write s = { s with fout := s.fout ++ render s.world } := by
  unfold _myrtle_world_write render
  exact write_rows_eq _ s

theorem render_length (w : World) : (render w).length = 2550 := by
  unfold render
  rw [List.length_flatMap]
  have h : (List.length ∘ fun r : Nat =>
      (List.range MAX_WORLD_COLS.toNat).map (fun c : Nat => w.cell r c) ++ ['\n']) =
      fun _ => 51 := by
    funext r
    simp [MAX_WORLD_COLS]
  rw [h]
  simp [MAX_WORLD_ROWS]

/-! ## The commands, one by one -/

theorem bind_ok {β : Type} (s : State) (f : State → Except Halt β) :
    ((Except.ok s : Except Halt State) >>= f) = f s := rfl

theorem bind_error {β : Type} (e : Halt) (f : State → Except Halt β) :
    ((Except.error e : Except Halt State) >>= f) = Except.error e := rfl

theorem forward_eq {s : State} {n : String} {tl : List String} (h : s.fin = n :: tl) :
    _myrtle_cmd_forward s = for_down (atoi n).toNat (move_and_draw 1) { s with fin := tl } := by
  unfold _myrtle_cmd_forward
  rw [next_token_cons h]

theorem backward_eq {s : State} {n : String} {tl : List String} (h : s.fin = n :: tl) :
    _myrtle_cmd_backward s =
      for_down (atoi n).toNat (move_and_draw (-1)) { s with fin := tl } := by
  unfold _myrtle_cmd_backward
  rw [next_token_cons h]

theorem row_set_eq (r : Int) (s : State) :
    _myrtle_row_set r s = { s with row := min (max r 0) 49 } := by
  unfold _myrtle_row_set
  rw [MAX_WORLD_ROWS_eq]
  split_ifs with a b
  · rw [max_eq_right (by omega), min_eq_left (by omega)]
  · rw [max_eq_left (by omega), min_eq_right (by omega)]; rfl
  · rw [max_eq_left (by omega), min_eq_left (by omega)]

theorem col_set_eq (c : Int) (s : State) :
    _myrtle_col_set c s = { s with col := min (max c 0) 49 } := by
  unfold _myrtle_col_set
  rw [MAX_WORLD_COLS_eq]
  split_ifs with a b
  · rw [max_eq_right (by omega), min_eq_left (by omega)]
  · rw [max_eq_left (by omega), min_eq_right (by omega)]; rfl
  · rw [max_eq_left (by omega), min_eq_left (by omega)]

theorem clamp_bounds (x : Int) : 0 ≤ min (max x 0) 49 ∧ min (max x 0) 49 < 50 := by
  omega

theorem hyper_eq {s : State} {n m : String} {tl : List String} (h : s.fin = n :: m :: tl) :
    _myrtle_cmd_hyper s =
      .ok { s with fin := tl, row := min (max (atoi n) 0) 49, col := min (max (atoi m) 0) 49,
                   world := if s.pendown then
                       world_store s.world (min (max (atoi n) 0) 49) (min (max (atoi m) 0) 49)
                         s.penchar
                     else s.world } := by
  unfold _myrtle_cmd_hyper
  rw [next_token_cons h]
  simp only
  rw [@next_token_cons { s with fin := m :: tl } m tl rfl]
  simp only [row_set_eq, col_set_eq, _myrtle_pen_is_down]
  have hr := clamp_bounds (atoi n)
  have hc := clamp_bounds (atoi m)
  by_cases hp : s.pendown = true
  · rw [if_pos hp, if_pos hp]
    exact @draw_eq { s with fin := tl, row := min (max (atoi n) 0) 49, col := min (max (atoi m) 0) 49 }
      ⟨hr.1, hr.2, hc.1, hc.2⟩ hp
  · rw [if_neg hp, if_neg hp]

theorem penchar_eq {s : State} {n : String} {tl : List String} (h : s.fin = n :: tl) :
    _myrtle_cmd_penchar s =
      .ok { s with fin := tl, penchar := n.toList.headD (Char.ofNat 0) } := by
  unfold _myrtle_cmd_penchar
  rw [next_token_cons h]
  rfl

theorem stop_eq (s : State) :
    _myrtle_cmd_stop s = .ok { s with fout := s.fout ++ render s.world } := by
  unfold _myrtle_cmd_stop
  rw [world_write_eq]

theorem left_eq (s : State) :
    _myrtle_cmd_left s =
      .ok { s with dir := (stateOf (_myrtle_cmd_left s)).dir } := by
  unfold _myrtle_cmd_left _myrtle_dir_set
  split_ifs <;> rfl

theorem right_eq (s : State) :
    _myrtle_cmd_right s =
      .ok { s with dir := (stateOf (_myrtle_cmd_right s)).dir } := by
  unfold _myrtle_cmd_right _myrtle_dir_set
  split_ifs <;> rfl

/-! ## Looking up and performing a command -/

theorem lookup_unknown {u : String} (hu : u ∉ command_names) : _myrtle_cmd_lookup u = none := by
  simp only [command_names, List.mem_cons, List.mem_singleton, not_or, List.not_mem_nil,
    or_false] at hu
  obtain ⟨h1, h2, h3, h4, h5, h6, h7, h8, h9⟩ := hu
  simp [_myrtle_cmd_lookup, cmd_table, MAX_CMDS, streq, List.find?, Ne.symm h1, Ne.symm h2,
    Ne.symm h3, Ne.symm h4, Ne.symm h5, Ne.symm h6, Ne.symm h7, Ne.symm h8, Ne.symm h9]

theorem lookup_mem {u : String} {e : cmd_t} (h : _myrtle_cmd_lookup u = some e) :
    e ∈ cmd_table ∧ e.cmd = u := by
  unfold _myrtle_cmd_lookup at h
  have h1 := List.mem_of_find?_eq_some h
  have h2 := List.find?_some h
  exact ⟨List.mem_of_mem_take h1, by simpa [streq] using h2⟩

theorem perform_unknown {u : String} (hu : u ∉ command_names) (s : State) :
    _myrtle_cmd_perform u s =
      .error (.exit TERM_ERR_UNK_CMD { s with stdout := s.stdout ++
        ["Unknown command '" ++ u ++ "' on line " ++ toString s.line ++ ". Terminating.\n"] }) := by
  unfold _myrtle_cmd_perform
  rw [lookup_unknown hu]
  rfl

theorem perform_backward (s : State) :
    _myrtle_cmd_perform "backward" s = _myrtle_cmd_backward s := rfl

theorem perform_forward (s : State) :
    _myrtle_cmd_perform "forward" s = _myrtle_cmd_forward s := rfl

theorem perform_hyper (s : State) :
    _myrtle_cmd_perform "hyper" s = _myrtle_cmd_hyper s := rfl

theorem perform_left (s : State) :
    _myrtle_cmd_perform "left" s = _myrtle_cmd_left s := rfl

theorem perform_penchar (s : State) :
    _myrtle_cmd_perform "penchar" s = _myrtle_cmd_penchar s := rfl

theorem perform_pendown (s : State) :
    _myrtle_cmd_perform "pendown" s = _myrtle_cmd_pendown s := rfl

theorem perform_penup (s : State) :
    _myrtle_cmd_perform "penup" s = _myrtle_cmd_penup s := rfl

theorem perform_right (s : State) :
    _myrtle_cmd_perform "right" s = _myrtle_cmd_right s := rfl

theorem perform_stop (s : State) :
    _myrtle_cmd_perform "stop" s = _myrtle_cmd_stop s := rfl

/-! ## Every command keeps the position inside the world -/

theorem forward_inBounds {s : State} (h : InBounds s) :
    InBounds (stateOf (_myrtle_cmd_forward s)) := by
  cases hf : s.fin with
  | nil =>
    unfold _myrtle_cmd_forward
    rw [next_token_nil hf]
    exact h
  | cons n tl =>
    rw [forward_eq hf]
    obtain ⟨t, ht, hm⟩ := @for_down_moved 1 (atoi n).toNat { s with fin := tl } h
    rw [ht]
    exact hm.inBounds

theorem backward_inBounds {s : State} (h : InBounds s) :
    InBounds (stateOf (_myrtle_cmd_backward s)) := by
  cases hf : s.fin with
  | nil =>
    unfold _myrtle_cmd_backward
    rw [next_token_nil hf]
    exact h
  | cons n tl =>
    rw [backward_eq hf]
    obtain ⟨t, ht, hm⟩ := @for_down_moved (-1) (atoi n).toNat { s with fin := tl } h
    rw [ht]
    exact hm.inBounds

theorem hyper_inBounds {s : State} (h : InBounds s) :
    InBounds (stateOf (_myrtle_cmd_hyper s)) := by
  cases hf : s.fin with
  | nil =>
    unfold _myrtle_cmd_hyper
    rw [next_token_nil hf]
    exact h
  | cons n tl =>
    cases tl with
    | nil =>
      unfold _myrtle_cmd_hyper
      rw [next_token_cons hf]
      simp only
      rw [@next_token_nil { s with fin := [] } rfl]
      exact h
    | cons m tl =>
      rw [hyper_eq hf]
      have hr := clamp_bounds (atoi n)
      have hc := clamp_bounds (atoi m)
      exact ⟨hr.1, hr.2, hc.1, hc.2⟩

theorem penchar_inBounds {s : State} (h : InBounds s) :
    InBounds (stateOf (_myrtle_cmd_penchar s)) := by
  cases hf : s.fin with
  | nil =>
    unfold _myrtle_cmd_penchar
    rw [next_token_nil hf]
    exact h
  | cons n tl =>
    rw [penchar_eq hf]
    exact h

theorem table_inBounds {e : cmd_t} (he : e ∈ cmd_table) {s : State} (h : InBounds s) :
    InBounds (stateOf (e.perform s)) := by
  simp only [cmd_table, List.mem_cons, List.mem_singleton, List.not_mem_nil, or_false] at he
  rcases he with rfl | rfl | rfl | rfl | rfl | rfl | rfl | rfl | rfl
  · exact backward_inBounds h
  · exact forward_inBounds h
  · exact hyper_inBounds h
  · show InBounds (stateOf (_myrtle_cmd_left s))
    rw [left_eq]; exact h
  · exact penchar_inBounds h
  · exact h
  · exact h
  · show InBounds (stateOf (_myrtle_cmd_right s))
    rw [right_eq]; exact h
  · show InBounds (stateOf (_myrtle_cmd_stop s))
    rw [stop_eq]; exact h

theorem perform_inBounds (cmd : String) {s : State} (h : InBounds s) :
    InBounds (stateOf (_myrtle_cmd_perform cmd s)) := by
  unfold _myrtle_cmd_perform
  cases hl : _myrtle_cmd_lookup cmd with
  | none => exact h
  | some e => exact table_inBounds (lookup_mem hl).1 h

theorem echo_eq (cmd : String) (s : State) :
    echo cmd s = { s with stdout := (echo cmd s).stdout } := by
  unfold echo
  split_ifs <;> rfl

theorem line_inc_eq (s : State) :
    _myrtle_line_inc s = { s with line := (_myrtle_line_inc s).line } := by
  unfold _myrtle_line_inc _myrtle_line_set
  split_ifs <;> rfl

theorem line_set_eq (n : Int) (s : State) :
    _myrtle_line_set n s = { s with line := (_myrtle_line_set n s).line } := by
  unfold _myrtle_line_set
  split_ifs <;> rfl

theorem interp_loop_cons (k : Nat) {s : State} {cmd : String} {tl : List String}
    (h : s.fin = cmd :: tl) :
    interp_loop (k + 1) s =
      (_myrtle_cmd_perform cmd (echo cmd { s with fin := tl }) >>= fun s2 =>
        interp_loop k (_myrtle_line_inc s2)) := by
  rw [interp_loop, next_token_cons h]

theorem interp_loop_nil (k : Nat) {s : State} (h : s.fin = []) : interp_loop k s = .ok s := by
  cases k <;> rw [interp_loop, next_token_nil h]

theorem interp_loop_inBounds (k : Nat) : ∀ {s : State}, InBounds s →
    InBounds (stateOf (interp_loop k s)) := by
  induction k with
  | zero =>
    intro s h
    cases hf : s.fin with
    | nil => rw [interp_loop_nil 0 hf]; exact h
    | cons cmd tl => rw [interp_loop, next_token_cons hf]; exact h
  | succ k ih =>
    intro s h
    cases hf : s.fin with
    | nil => rw [interp_loop_nil _ hf]; exact h
    | cons cmd tl =>
      rw [interp_loop_cons k hf]
      have hp := @perform_inBounds cmd (echo cmd { s with fin := tl })
        (by rw [echo_eq]; exact h)
      cases hr : _myrtle_cmd_perform cmd (echo cmd { s with fin := tl }) with
      | error e =>
        rw [hr] at hp
        rw [bind_error]
        exact hp
      | ok s2 =>
        rw [hr] at hp
        rw [bind_ok]
        exact ih (by rw [line_inc_eq]; exact hp)

theorem open_files_inBounds {s : State} (h : InBounds s) :
    InBounds (stateOf (file_open_files s)) := by
  unfold file_open_files _file_open_in _file_open_out main_terminate_err
  split_ifs <;> try exact h
  all_goals
    cases hr : s.readable s.in_fname <;> simp only [bind_ok, bind_error] <;>
      (try split_ifs) <;> exact h

theorem interp_upto_inBounds (k : Nat) {s : State} (h : InBounds s) :
    InBounds (stateOf (interp_upto k s)) := by
  have ho := open_files_inBounds h
  unfold interp_upto
  cases hr : file_open_files s with
  | error e => rw [hr] at ho; rw [bind_error]; exact ho
  | ok s1 =>
    rw [hr] at ho
    rw [bind_ok]
    exact interp_loop_inBounds k (by rw [line_set_eq]; exact ho)

/-! ## Walking along the heading -/

theorem move_eq (d : Int) {s : State} (h : InBounds s) :
    _myrtle_move d s =
      { s with row := min (max (s.row + d * (heading_delta s.dir).1) 0) 49,
               col := min (max (s.col + d * (heading_delta s.dir).2) 0) 49 } := by
  obtain ⟨h1, h2, h3, h4⟩ := h
  rw [MAX_WORLD_ROWS_eq] at h2
  rw [MAX_WORLD_COLS_eq] at h4
  have hr : min (max (s.row + d * 0) 0) 49 = s.row := by omega
  have hc : min (max (s.col + d * 0) 0) 49 = s.col := by omega
  unfold _myrtle_move heading_delta _myrtle_dir_get _myrtle_row_get _myrtle_col_get
  split_ifs
  · rw [row_set_eq]
    simp only [hc]
    congr 3
    omega
  · rw [col_set_eq]
    simp only [hr]
    congr 3
    omega
  · rw [row_set_eq]
    simp only [hc]
    congr 3
    omega
  · rw [col_set_eq]
    simp only [hr]
    congr 3
    omega

theorem step_eq (d a b : Int) {s : State} (ha : a = d * (heading_delta s.dir).1)
    (hb : b = d * (heading_delta s.dir).2) (h : InBounds s)
    (h1 : 0 ≤ s.row + a ∧ s.row + a < 50 ∧ 0 ≤ s.col + b ∧ s.col + b < 50) :
    move_and_draw d s =
      .ok { s with row := s.row + a, col := s.col + b,
                   world := if s.pendown then
                       world_store s.world (s.row + a) (s.col + b) s.penchar
                     else s.world } := by
  unfold move_and_draw
  simp only
  rw [move_eq d h, ← ha, ← hb]
  have er : min (max (s.row + a) 0) 49 = s.row + a := by omega
  have ec : min (max (s.col + b) 0) 49 = s.col + b := by omega
  rw [er, ec]
  by_cases hp : s.pendown = true
  · rw [if_pos (by exact hp), if_pos hp]
    exact @draw_eq { s with row := s.row + a, col := s.col + b } h1 hp
  · rw [if_neg (by exact hp), if_neg hp]

theorem walk (d a b : Int) (j : Nat) : ∀ s : State, a = d * (heading_delta s.dir).1 →
    b = d * (heading_delta s.dir).2 → InBounds s →
    (0 ≤ s.row + j * a ∧ s.row + j * a < 50 ∧ 0 ≤ s.col + j * b ∧ s.col + j * b < 50) →
    ∃ W, for_down j (move_and_draw d) s =
        .ok { s with row := s.row + j * a, col := s.col + j * b, world := W } ∧
      (s.pendown = false → W = s.world) ∧
      (s.pendown = true → ∀ r c : Int,
        ((∃ k : Nat, 1 ≤ k ∧ k ≤ j ∧ r = s.row + k * a ∧ c = s.col + k * b) →
          W.cell r c = s.penchar) ∧
        ((¬ ∃ k : Nat, 1 ≤ k ∧ k ≤ j ∧ r = s.row + k * a ∧ c = s.col + k * b) →
          W.cell r c = s.world.cell r c)) := by
  induction j with
  | zero =>
    intro s _ _ _ _
    refine ⟨s.world, ?_, fun _ => rfl, fun _ r c => ⟨?_, fun _ => rfl⟩⟩
    · simp [for_down]
    · rintro ⟨k, h1, h2, _⟩
      omega
  | succ j ih =>
    intro s ha hb hin hend
    obtain ⟨h1, h2, h3, h4⟩ := hin
    rw [MAX_WORLD_ROWS_eq] at h2
    rw [MAX_WORLD_COLS_eq] at h4
    have eja : ((j + 1 : Nat) : Int) * a = j * a + a := by push_cast; ring
    have ejb : ((j + 1 : Nat) : Int) * b = j * b + b := by push_cast; ring
    rw [eja, ejb] at hend
    have hj : (0 : Int) ≤ j := Int.ofNat_nonneg j
    have hstep : 0 ≤ s.row + a ∧ s.row + a < 50 ∧ 0 ≤ s.col + b ∧ s.col + b < 50 := by
      rcases le_or_lt 0 a with pa | pa <;> rcases le_or_lt 0 b with pb | pb
      · have := mul_nonneg hj pa; have := mul_nonneg hj pb; omega
      · have := mul_nonneg hj pa; have := mul_nonpos_of_nonneg_of_nonpos hj (le_of_lt pb); omega
      · have := mul_nonpos_of_nonneg_of_nonpos hj (le_of_lt pa); have := mul_nonneg hj pb; omega
      · have := mul_nonpos_of_nonneg_of_nonpos hj (le_of_lt pa)
        have := mul_nonpos_of_nonneg_of_nonpos hj (le_of_lt pb); omega
    have hs := step_eq d a b ha hb ⟨h1, by rw [MAX_WORLD_ROWS_eq]; exact h2, h3,
      by rw [MAX_WORLD_COLS_eq]; exact h4⟩ hstep
    obtain ⟨W, hW, hup, hdown⟩ := ih
      { s with row := s.row + a, col := s.col + b,
               world := if s.pendown then
                   world_store s.world (s.row + a) (s.col + b) s.penchar
                 else s.world }
      ha hb
      ⟨hstep.1, by rw [MAX_WORLD_ROWS_eq]; exact hstep.2.1, hstep.2.2.1,
        by rw [MAX_WORLD_COLS_eq]; exact hstep.2.2.2⟩
      (by
        show 0 ≤ s.row + a + j * a ∧ s.row + a + j * a < 50 ∧
          0 ≤ s.col + b + j * b ∧ s.col + b + j * b < 50
        omega)
    refine ⟨W, ?_, ?_, ?_⟩
    · rw [for_down, hs, bind_ok, hW, eja, ejb]
      have e1 : s.row + a + j * a = s.row + (j * a + a) := by ring
      have e2 : s.col + b + j * b = s.col + (j * b + b) := by ring
      simp only [e1, e2]
    · intro hp
      have := hup hp
      simpa [hp] using this
    · intro hp r c
      have hd := hdown hp r c
      simp only [hp, if_true] at hd
      constructor
      · rintro ⟨k, k1, k2, kr, kc⟩
        by_cases hk : k = 1
        · subst hk
          by_cases hex : ∃ k : Nat, 1 ≤ k ∧ k ≤ j ∧ r = s.row + a + k * a ∧ c = s.col + b + k * b
          · exact hd.1 hex
          · rw [hd.2 hex]
            simp only [world_store]
            rw [if_pos]
            constructor
            · rw [kr]; push_cast; ring
            · rw [kc]; push_cast; ring
        · refine hd.1 ⟨k - 1, by omega, by omega, ?_, ?_⟩
          · rw [kr]
            have : ((k - 1 : Nat) : Int) = (k : Int) - 1 := by omega
            rw [this]; ring
          · rw [kc]
            have : ((k - 1 : Nat) : Int) = (k : Int) - 1 := by omega
            rw [this]; ring
      · intro hno
        have hno2 : ¬ ∃ k : Nat, 1 ≤ k ∧ k ≤ j ∧ r = s.row + a + k * a ∧ c = s.col + b + k * b := by
          rintro ⟨k, k1, k2, kr, kc⟩
          refine hno ⟨k + 1, by omega, by omega, ?_, ?_⟩
          · rw [kr]; push_cast; ring
          · rw [kc]; push_cast; ring
        rw [hd.2 hno2]
        simp only [world_store]
        rw [if_neg]
        rintro ⟨e1, e2⟩
        refine hno ⟨1, le_refl _, by omega, ?_, ?_⟩
        · rw [e1]; push_cast; ring
        · rw [e2]; push_cast; ring

/-! ## Runs of the interpreter -/

theorem open_files_default {s : State} (hi : s.in_fname = "") (ho : s.out_fname = "") :
    file_open_files s = .ok { s with fin := s.stdin, fout := [] } := by
  unfold file_open_files _file_open_in
  rw [if_neg (by simp [hi]), bind_ok]
  unfold _file_open_out
  rw [if_neg (by simp [ho])]

theorem myrtle_interp_default {s : State} (hi : s.in_fname = "") (ho : s.out_fname = "") :
    myrtle_interp s =
      (interp_loop s.stdin.length (loop_entry s) >>=
        fun s3 => .ok (0, { s3 with fout := s3.fout ++ render s3.world })) := by
  unfold myrtle_interp
  rw [open_files_default hi ho, bind_ok]
  simp only [world_write_eq, file_close_files, _file_close_in, _file_close_out]
  rfl

theorem loop_entry_eq (s : State) :
    loop_entry s = { s with fin := s.stdin, fout := [], line := 1,
                            world := (_myrtle_world_init s).world } := rfl

theorem interp_of_loop {s t : State} (hi : s.in_fname = "") (ho : s.out_fname = "")
    (h : interp_loop s.stdin.length (loop_entry s) = .ok t) :
    myrtle_interp s = .ok (0, { t with fout := t.fout ++ render t.world }) := by
  rw [myrtle_interp_default hi ho, h, bind_ok]

theorem interp_of_loop_error {s : State} {e : Halt} (hi : s.in_fname = "")
    (ho : s.out_fname = "") (h : interp_loop s.stdin.length (loop_entry s) = .error e) :
    myrtle_interp s = .error e := by
  rw [myrtle_interp_default hi ho, h, bind_error]

/-- One round of the loop of the interpreter, for a command that returns. -/
theorem loop_iter (k : Nat) {s t : State} {cmd : String} {tl : List String}
    (h : s.fin = cmd :: tl) (hv : s.verbose = false) (hl : 0 ≤ s.line)
    (hp : _myrtle_cmd_perform cmd { s with fin := tl } = .ok t) (htl : t.line = s.line) :
    interp_loop (k + 1) s = interp_loop k { t with line := s.line + 1 } := by
  rw [interp_loop_cons k h]
  have he : echo cmd { s with fin := tl } = { s with fin := tl } := by
    unfold echo
    rw [if_neg (by simp [hv])]
  rw [he, hp, bind_ok]
  unfold _myrtle_line_inc _myrtle_line_set _myrtle_line_get
  rw [if_pos (by omega), htl]

theorem loop_stop (k : Nat) {s : State} {tl : List String}
    (h : s.fin = "stop" :: tl) (hv : s.verbose = false) (hl : 0 ≤ s.line) :
    interp_loop (k + 1) s =
      interp_loop k { s with fin := tl, fout := s.fout ++ render s.world,
                             line := s.line + 1 } :=
  loop_iter k h hv hl ((perform_stop _).trans (stop_eq _)) rfl

/-- A command other than `stop`, with its arguments present, returns; it consumes exactly
its arguments and changes nothing but the pen, the world, the heading and the
position, which stays inside the world. -/
theorem perform_cmd (c : Cmd) (hc : c ≠ .stop) (tl : List String) {s : State}
    (hin : InBounds s) (hfin : s.fin = c.args ++ tl) :
    ∃ pd pc W D R C, _myrtle_cmd_perform c.name s =
        .ok { s with pendown := pd, penchar := pc, world := W, dir := D, row := R, col := C,
                     fin := tl } ∧
      0 ≤ R ∧ R < MAX_WORLD_ROWS ∧ 0 ≤ C ∧ C < MAX_WORLD_COLS := by
  cases c with
  | backward n =>
    obtain ⟨t, ht, R, C, W, rfl, hb⟩ := @for_down_moved (-1) (atoi n).toNat { s with fin := tl } hin
    refine ⟨s.pendown, s.penchar, W, s.dir, R, C, ?_, hb⟩
    show _myrtle_cmd_perform "backward" s = _
    have hfin' : s.fin = n :: tl := hfin
    rw [perform_backward, backward_eq hfin', ht]
  | forward n =>
    obtain ⟨t, ht, R, C, W, rfl, hb⟩ := @for_down_moved 1 (atoi n).toNat { s with fin := tl } hin
    refine ⟨s.pendown, s.penchar, W, s.dir, R, C, ?_, hb⟩
    show _myrtle_cmd_perform "forward" s = _
    have hfin' : s.fin = n :: tl := hfin
    rw [perform_forward, forward_eq hfin', ht]
  | hyper n m =>
    have hr := clamp_bounds (atoi n)
    have hcb := clamp_bounds (atoi m)
    refine ⟨s.pendown, s.penchar,
      if s.pendown then
        world_store s.world (min (max (atoi n) 0) 49) (min (max (atoi m) 0) 49) s.penchar
      else s.world,
      s.dir, min (max (atoi n) 0) 49, min (max (atoi m) 0) 49, ?_, hr.1, hr.2, hcb.1, hcb.2⟩
    show _myrtle_cmd_perform "hyper" s = _
    have hfin' : s.fin = n :: m :: tl := hfin
    rw [perform_hyper, hyper_eq hfin']
  | left =>
    refine ⟨s.pendown, s.penchar, s.world, (stateOf (_myrtle_cmd_left s)).dir, s.row, s.col,
      ?_, hin⟩
    simp only [Cmd.args, List.nil_append] at hfin
    subst hfin
    exact (perform_left s).trans (left_eq s)
  | penchar n =>
    refine ⟨s.pendown, n.toList.headD (Char.ofNat 0), s.world, s.dir, s.row, s.col, ?_, hin⟩
    show _myrtle_cmd_perform "penchar" s = _
    have hfin' : s.fin = n :: tl := hfin
    rw [perform_penchar, penchar_eq hfin']
  | pendown =>
    refine ⟨true, s.penchar, s.world, s.dir, s.row, s.col, ?_, hin⟩
    simp only [Cmd.args, List.nil_append] at hfin
    rw [← hfin]
    rfl
  | penup =>
    refine ⟨false, s.penchar, s.world, s.dir, s.row, s.col, ?_, hin⟩
    simp only [Cmd.args, List.nil_append] at hfin
    rw [← hfin]
    rfl
  | right =>
    refine ⟨s.pendown, s.penchar, s.world, (stateOf (_myrtle_cmd_right s)).dir, s.row, s.col,
      ?_, hin⟩
    simp only [Cmd.args, List.nil_append] at hfin
    subst hfin
    exact (perform_right s).trans (right_eq s)
  | stop => exact absurd rfl hc

theorem perform_cmd_frame (c : Cmd) (hc : c ≠ .stop) (tl : List String) {s : State}
    (hin : InBounds s) (hfin : s.fin = c.args ++ tl) :
    ∃ t, _myrtle_cmd_perform c.name s = .ok t ∧ t.fin = tl ∧ InBounds t ∧ t.fout = s.fout ∧
      t.line = s.line ∧ t.stdout = s.stdout ∧ t.verbose = s.verbose := by
  obtain ⟨pd, pc, W, D, R, C, hp, hb⟩ := perform_cmd c hc tl hin hfin
  exact ⟨_, hp, rfl, hb, rfl, rfl, rfl, rfl⟩

theorem stream_cons (c : Cmd) (cs : List Cmd) :
    Cmd.stream (c :: cs) = c.name :: (c.args ++ Cmd.stream cs) := by
  simp [Cmd.stream, Cmd.tokens]

/-- An unknown command word that follows a sequence of commands without `stop` ends the
loop with `exit(TERM_ERR_UNK_CMD)`, and nothing has been written to the output. -/
theorem loop_unknown (u : String) (rest : List String) (hu : u ∉ command_names) :
    ∀ (cs : List Cmd) (k : Nat) (s : State), Cmd.stop ∉ cs → InBounds s →
      s.fin = Cmd.stream cs ++ u :: rest → cs.length < k →
      ∃ t, interp_loop k s = .error (.exit TERM_ERR_UNK_CMD t) ∧ t.fout = s.fout := by
  intro cs
  induction cs with
  | nil =>
    intro k s _ _ hfin hk
    obtain ⟨k, rfl⟩ : ∃ k', k = k' + 1 := ⟨k - 1, by simp at hk; omega⟩
    have hf : s.fin = u :: rest := by simpa [Cmd.stream] using hfin
    rw [interp_loop_cons k hf, perform_unknown hu, bind_error]
    refine ⟨_, rfl, ?_⟩
    rw [echo_eq]
  | cons c cs ih =>
    intro k s hstop hin hfin hk
    obtain ⟨k, rfl⟩ : ∃ k', k = k' + 1 := ⟨k - 1, by simp at hk; omega⟩
    have hc : c ≠ .stop := fun h => hstop (by simp [h])
    have hcs : Cmd.stop ∉ cs := fun h => hstop (by simp [h])
    rw [stream_cons, List.cons_append, List.append_assoc] at hfin
    rw [interp_loop_cons k hfin]
    obtain ⟨t1, hp, hf1, hi1, ho1, -⟩ := @perform_cmd_frame c hc (Cmd.stream cs ++ u :: rest)
      (echo c.name { s with fin := c.args ++ (Cmd.stream cs ++ u :: rest) })
      (by rw [echo_eq]; exact hin) (by rw [echo_eq])
    rw [hp, bind_ok]
    obtain ⟨t, ht, hfo⟩ := ih k (_myrtle_line_inc t1) hcs (by rw [line_inc_eq]; exact hi1)
      (by rw [line_inc_eq]; exact hf1) (by simp at hk; omega)
    refine ⟨t, ht, ?_⟩
    rw [hfo, line_inc_eq]
    show t1.fout = s.fout
    rw [ho1, echo_eq]

theorem stream_length (cs : List Cmd) : cs.length ≤ (Cmd.stream cs).length := by
  induction cs with
  | nil => simp [Cmd.stream]
  | cons c cs ih =>
    rw [stream_cons]
    simp only [List.length_cons, List.length_append]
    omega

/-! ## The number of tokens bounds the number of commands -/

theorem draw_fin {s t : State} (h : _myrtle_world_draw_char s = .ok t) : t.fin = s.fin := by
  unfold _myrtle_world_draw_char at h
  split_ifs at h <;> cases h <;> rfl

theorem move_fin (d : Int) (s : State) : (_myrtle_move d s).fin = s.fin := by
  unfold _myrtle_move
  split_ifs <;> simp only [row_set_eq, col_set_eq]

theorem move_and_draw_fin {d : Int} {s t : State} (h : move_and_draw d s = .ok t) :
    t.fin = s.fin := by
  unfold move_and_draw at h
  simp only at h
  split_ifs at h
  · rw [draw_fin h, move_fin]
  · cases h
    exact move_fin d s

theorem for_down_fin (d : Int) (j : Nat) : ∀ {s t : State},
    for_down j (move_and_draw d) s = .ok t → t.fin = s.fin := by
  induction j with
  | zero =>
    intro s t h
    cases h
    rfl
  | succ j ih =>
    intro s t h
    rw [for_down] at h
    cases hr : move_and_draw d s with
    | error e => rw [hr, bind_error] at h; cases h
    | ok u =>
      rw [hr, bind_ok] at h
      rw [ih h, move_and_draw_fin hr]

theorem for_down_not_pending (d : Int) (j : Nat) : ∀ {s t : State},
    for_down j (move_and_draw d) s ≠ .error (.pending t) := by
  induction j with
  | zero => intro s t h; cases h
  | succ j ih =>
    intro s t h
    rw [for_down] at h
    cases hr : move_and_draw d s with
    | error e =>
      rw [hr, bind_error] at h
      unfold move_and_draw _myrtle_world_draw_char at hr
      simp only at hr
      split_ifs at hr
      · cases hr
        cases h
    | ok u =>
      rw [hr, bind_ok] at h
      exact ih h

theorem table_fin {e : cmd_t} (he : e ∈ cmd_table) {s t : State} (h : e.perform s = .ok t) :
    t.fin.length ≤ s.fin.length := by
  simp only [cmd_table, List.mem_cons, List.mem_singleton, List.not_mem_nil, or_false] at he
  rcases he with rfl | rfl | rfl | rfl | rfl | rfl | rfl | rfl | rfl
  · cases hf : s.fin with
    | nil =>
      change _myrtle_cmd_backward s = .ok t at h
      unfold _myrtle_cmd_backward at h
      rw [next_token_nil hf] at h
      cases h
    | cons n tl =>
      change _myrtle_cmd_backward s = .ok t at h
      rw [backward_eq hf] at h
      rw [for_down_fin _ _ h]
      simp
  · cases hf : s.fin with
    | nil =>
      change _myrtle_cmd_forward s = .ok t at h
      unfold _myrtle_cmd_forward at h
      rw [next_token_nil hf] at h
      cases h
    | cons n tl =>
      change _myrtle_cmd_forward s = .ok t at h
      rw [forward_eq hf] at h
      rw [for_down_fin _ _ h]
      simp
  · change _myrtle_cmd_hyper s = .ok t at h
    cases hf : s.fin with
    | nil =>
      unfold _myrtle_cmd_hyper at h
      rw [next_token_nil hf] at h
      cases h
    | cons n tl =>
      cases tl with
      | nil =>
        unfold _myrtle_cmd_hyper at h
        rw [next_token_cons hf] at h
        simp only at h
        rw [@next_token_nil { s with fin := [] } rfl] at h
        cases h
      | cons m tl =>
        rw [hyper_eq hf] at h
        cases h
        simp only [List.length_cons]
        omega
  · change _myrtle_cmd_left s = .ok t at h
    rw [left_eq] at h
    cases h
    exact le_refl _
  · change _myrtle_cmd_penchar s = .ok t at h
    cases hf : s.fin with
    | nil =>
      unfold _myrtle_cmd_penchar at h
      rw [next_token_nil hf] at h
      cases h
    | cons n tl =>
      rw [penchar_eq hf] at h
      cases h
      simp
  · cases h
    exact le_refl _
  · cases h
    exact le_refl _
  · change _myrtle_cmd_right s = .ok t at h
    rw [right_eq] at h
    cases h
    exact le_refl _
  · change _myrtle_cmd_stop s = .ok t at h
    rw [stop_eq] at h
    cases h
    exact le_refl _

theorem table_not_pending {e : cmd_t} (he : e ∈ cmd_table) {s t : State} :
    e.perform s ≠ .error (.pending t) := by
  simp only [cmd_table, List.mem_cons, List.mem_singleton, List.not_mem_nil, or_false] at he
  rcases he with rfl | rfl | rfl | rfl | rfl | rfl | rfl | rfl | rfl
  · intro h
    change _myrtle_cmd_backward s = _ at h
    cases hf : s.fin with
    | nil =>
      unfold _myrtle_cmd_backward at h
      rw [next_token_nil hf] at h
      cases h
    | cons n tl =>
      rw [backward_eq hf] at h
      exact for_down_not_pending _ _ h
  · intro h
    change _myrtle_cmd_forward s = _ at h
    cases hf : s.fin with
    | nil =>
      unfold _myrtle_cmd_forward at h
      rw [next_token_nil hf] at h
      cases h
    | cons n tl =>
      rw [forward_eq hf] at h
      exact for_down_not_pending _ _ h
  · intro h
    change _myrtle_cmd_hyper s = _ at h
    cases hf : s.fin with
    | nil =>
      unfold _myrtle_cmd_hyper at h
      rw [next_token_nil hf] at h
      cases h
    | cons n tl =>
      cases tl with
      | nil =>
        unfold _myrtle_cmd_hyper at h
        rw [next_token_cons hf] at h
        simp only at h
        rw [@next_token_nil { s with fin := [] } rfl] at h
        cases h
      | cons m tl =>
        rw [hyper_eq hf] at h
        cases h
  · intro h
    change _myrtle_cmd_left s = _ at h
    rw [left_eq] at h
    cases h
  · intro h
    change _myrtle_cmd_penchar s = _ at h
    cases hf : s.fin with
    | nil =>
      unfold _myrtle_cmd_penchar at h
      rw [next_token_nil hf] at h
      cases h
    | cons n tl =>
      rw [penchar_eq hf] at h
      cases h
  · intro h; cases h
  · intro h; cases h
  · intro h
    change _myrtle_cmd_right s = _ at h
    rw [right_eq] at h
    cases h
  · intro h
    change _myrtle_cmd_stop s = _ at h
    rw [stop_eq] at h
    cases h

theorem perform_fin {cmd : String} {s t : State} (h : _myrtle_cmd_perform cmd s = .ok t) :
    t.fin.length ≤ s.fin.length := by
  unfold _myrtle_cmd_perform at h
  cases hl : _myrtle_cmd_lookup cmd with
  | none => rw [hl] at h; cases h
  | some e => rw [hl] at h; exact table_fin (lookup_mem hl).1 h

theorem perform_not_pending {cmd : String} {s t : State} :
    _myrtle_cmd_perform cmd s ≠ .error (.pending t) := by
  unfold _myrtle_cmd_perform
  cases hl : _myrtle_cmd_lookup cmd with
  | none => intro h; cases h
  | some e => exact table_not_pending (lookup_mem hl).1

/-- With at least as much fuel as tokens left, the loop of the interpreter is never
interrupted: `myrtle_interp` runs its loop to the end of the input. -/
theorem interp_loop_enough (k : Nat) : ∀ {s t : State}, s.fin.length ≤ k →
    interp_loop k s ≠ .error (.pending t) := by
  induction k with
  | zero =>
    intro s t hk
    have hf : s.fin = [] := List.length_eq_zero.mp (Nat.le_zero.mp hk)
    rw [interp_loop_nil 0 hf]
    intro h
    cases h
  | succ k ih =>
    intro s t hk
    cases hf : s.fin with
    | nil =>
      rw [interp_loop_nil _ hf]
      intro h
      cases h
    | cons cmd tl =>
      rw [interp_loop_cons k hf]
      cases hr : _myrtle_cmd_perform cmd (echo cmd { s with fin := tl }) with
      | error e =>
        rw [bind_error]
        intro h
        cases h
        exact perform_not_pending hr
      | ok s2 =>
        rw [bind_ok]
        have h2 := perform_fin hr
        rw [echo_eq] at h2
        rw [hf] at hk
        simp only [List.length_cons] at hk
        refine ih ?_
        rw [line_inc_eq]
        exact le_trans h2 (by simpa using Nat.le_of_succ_le_succ hk)

/-! ## What a move leaves alone -/

theorem move_pendown (d : Int) (s : State) : (_myrtle_move d s).pendown = s.pendown := by
  unfold _myrtle_move
  split_ifs <;> simp only [row_set_eq, col_set_eq]

theorem move_world (d : Int) (s : State) : (_myrtle_move d s).world = s.world := by
  unfold _myrtle_move
  split_ifs <;> simp only [row_set_eq, col_set_eq]

theorem move_dir (d : Int) (s : State) : (_myrtle_move d s).dir = s.dir := by
  unfold _myrtle_move
  split_ifs <;> simp only [row_set_eq, col_set_eq]

theorem for_down_penup (d : Int) (j : Nat) : ∀ s : State, s.pendown = false →
    ∃ t, for_down j (move_and_draw d) s = .ok t ∧ t.world = s.world ∧ t.pendown = false ∧
      t.fin = s.fin := by
  induction j with
  | zero =>
    intro s h
    exact ⟨s, rfl, rfl, h, rfl⟩
  | succ j ih =>
    intro s h
    have hm : move_and_draw d s = .ok (_myrtle_move d s) := by
      have hp : _myrtle_pen_is_down (_myrtle_move d s) = false := by
        show (_myrtle_move d s).pendown = false
        rw [move_pendown, h]
      unfold move_and_draw
      simp only [hp]
      rfl
    obtain ⟨t, ht, hw, hp, hf⟩ := ih (_myrtle_move d s) (by rw [move_pendown, h])
    refine ⟨t, ?_, ?_, hp, ?_⟩
    · rw [for_down, hm, bind_ok, ht]
    · rw [hw, move_world]
    · rw [hf, move_fin]

theorem move_and_draw_dir (d : Int) (s : State) :
    (stateOf (move_and_draw d s)).dir = s.dir := by
  unfold move_and_draw _myrtle_world_draw_char
  simp only
  split_ifs <;> exact move_dir d s

theorem for_down_dir (d : Int) (j : Nat) : ∀ s : State,
    (stateOf (for_down j (move_and_draw d) s)).dir = s.dir := by
  induction j with
  | zero => intro s; rfl
  | succ j ih =>
    intro s
    have h := move_and_draw_dir d s
    rw [for_down]
    cases hr : move_and_draw d s with
    | error e =>
      rw [hr] at h
      rw [bind_error]
      exact h
    | ok u =>
      rw [hr] at h
      rw [bind_ok, ih u]
      exact h

/-! ## Turning -/

theorem left_valid (s : State) (h0 : 0 ≤ s.dir) (h4 : s.dir < 4) :
    _myrtle_cmd_left s = .ok { s with dir := (s.dir + 3) % 4 } := by
  have h : s.dir = 0 ∨ s.dir = 1 ∨ s.dir = 2 ∨ s.dir = 3 := by omega
  unfold _myrtle_cmd_left _myrtle_dir_set _myrtle_dir_get
  rcases h with h | h | h | h <;> rw [h] <;> rfl

theorem right_valid (s : State) (h0 : 0 ≤ s.dir) (h4 : s.dir < 4) :
    _myrtle_cmd_right s = .ok { s with dir := (s.dir + 1) % 4 } := by
  have h : s.dir = 0 ∨ s.dir = 1 ∨ s.dir = 2 ∨ s.dir = 3 := by omega
  unfold _myrtle_cmd_right _myrtle_dir_set _myrtle_dir_get
  rcases h with h | h | h | h <;> rw [h] <;> rfl

theorem repeated_left (k : Nat) : ∀ s : State, 0 ≤ s.dir → s.dir < 4 →
    repeated k (_myrtle_cmd_perform "left") s = .ok { s with dir := (s.dir + 3 * k) % 4 } := by
  induction k with
  | zero =>
    intro s h0 h4
    have e : (s.dir + 3 * ((0 : Nat) : Int)) % 4 = s.dir := by omega
    rw [e]
    rfl
  | succ k ih =>
    intro s h0 h4
    rw [repeated, perform_left, left_valid s h0 h4, bind_ok,
      ih { s with dir := (s.dir + 3) % 4 } (by show 0 ≤ (s.dir + 3) % 4; omega)
        (by show (s.dir + 3) % 4 < 4; omega)]
    have e : ((s.dir + 3) % 4 + 3 * (k : Int)) % 4 = (s.dir + 3 * ((k + 1 : Nat) : Int)) % 4 := by
      push_cast
      omega
    show Except.ok { s with dir := ((s.dir + 3) % 4 + 3 * (k : Int)) % 4 } = _
    rw [e]

theorem repeated_right (k : Nat) : ∀ s : State, 0 ≤ s.dir → s.dir < 4 →
    repeated k (_myrtle_cmd_perform "right") s = .ok { s with dir := (s.dir + k) % 4 } := by
  induction k with
  | zero =>
    intro s h0 h4
    have e : (s.dir + ((0 : Nat) : Int)) % 4 = s.dir := by omega
    rw [e]
    rfl
  | succ k ih =>
    intro s h0 h4
    rw [repeated, perform_right, right_valid s h0 h4, bind_ok,
      ih { s with dir := (s.dir + 1) % 4 } (by show 0 ≤ (s.dir + 1) % 4; omega)
        (by show (s.dir + 1) % 4 < 4; omega)]
    have e : ((s.dir + 1) % 4 + (k : Int)) % 4 = (s.dir + ((k + 1 : Nat) : Int)) % 4 := by
      push_cast
      omega
    show Except.ok { s with dir := ((s.dir + 1) % 4 + (k : Int)) % 4 } = _
    rw [e]

theorem right_right (s : State) (h0 : 0 ≤ s.dir) (h4 : s.dir < 4) :
    (_myrtle_cmd_perform "right" s >>= _myrtle_cmd_perform "right") =
      .ok { s with dir := (s.dir + 2) % 4 } := by
  rw [perform_right, right_valid s h0 h4, bind_ok, perform_right,
    right_valid { s with dir := (s.dir + 1) % 4 } (by show 0 ≤ (s.dir + 1) % 4; omega)
      (by show (s.dir + 1) % 4 < 4; omega)]
  have e : ((s.dir + 1) % 4 + 1) % 4 = (s.dir + 2) % 4 := by omega
  show Except.ok { s with dir := ((s.dir + 1) % 4 + 1) % 4 } = _
  rw [e]

theorem dir_set_valid (dir : Int) {s : State} (h : 0 ≤ s.dir ∧ s.dir < 4) :
    0 ≤ (_myrtle_dir_set dir s).dir ∧ (_myrtle_dir_set dir s).dir < 4 := by
  unfold _myrtle_dir_set
  split_ifs with hd
  · show 0 ≤ dir ∧ dir < 4
    omega
  · exact h

theorem table_dir_valid {e : cmd_t} (he : e ∈ cmd_table) {s : State}
    (h : 0 ≤ s.dir ∧ s.dir < 4) :
    0 ≤ (stateOf (e.perform s)).dir ∧ (stateOf (e.perform s)).dir < 4 := by
  simp only [cmd_table, List.mem_cons, List.mem_singleton, List.not_mem_nil, or_false] at he
  rcases he with rfl | rfl | rfl | rfl | rfl | rfl | rfl | rfl | rfl
  · show 0 ≤ (stateOf (_myrtle_cmd_backward s)).dir ∧ (stateOf (_myrtle_cmd_backward s)).dir < 4
    cases hf : s.fin with
    | nil =>
      unfold _myrtle_cmd_backward
      rw [next_token_nil hf]
      exact h
    | cons n tl =>
      rw [backward_eq hf, for_down_dir]
      exact h
  · show 0 ≤ (stateOf (_myrtle_cmd_forward s)).dir ∧ (stateOf (_myrtle_cmd_forward s)).dir < 4
    cases hf : s.fin with
    | nil =>
      unfold _myrtle_cmd_forward
      rw [next_token_nil hf]
      exact h
    | cons n tl =>
      rw [forward_eq hf, for_down_dir]
      exact h
  · show 0 ≤ (stateOf (_myrtle_cmd_hyper s)).dir ∧ (stateOf (_myrtle_cmd_hyper s)).dir < 4
    cases hf : s.fin with
    | nil =>
      unfold _myrtle_cmd_hyper
      rw [next_token_nil hf]
      exact h
    | cons n tl =>
      cases tl with
      | nil =>
        unfold _myrtle_cmd_hyper
        rw [next_token_cons hf]
        simp only
        rw [@next_token_nil { s with fin := [] } rfl]
        exact h
      | cons m tl =>
        rw [hyper_eq hf]
        exact h
  · show 0 ≤ (stateOf (_myrtle_cmd_left s)).dir ∧ (stateOf (_myrtle_cmd_left s)).dir < 4
    unfold _myrtle_cmd_left
    split_ifs <;> exact dir_set_valid _ h
  · show 0 ≤ (stateOf (_myrtle_cmd_penchar s)).dir ∧ (stateOf (_myrtle_cmd_penchar s)).dir < 4
    cases hf : s.fin with
    | nil =>
      unfold _myrtle_cmd_penchar
      rw [next_token_nil hf]
      exact h
    | cons n tl =>
      rw [penchar_eq hf]
      exact h
  · exact h
  · exact h
  · show 0 ≤ (stateOf (_myrtle_cmd_right s)).dir ∧ (stateOf (_myrtle_cmd_right s)).dir < 4
    unfold _myrtle_cmd_right
    split_ifs <;> exact dir_set_valid _ h
  · show 0 ≤ (stateOf (_myrtle_cmd_stop s)).dir ∧ (stateOf (_myrtle_cmd_stop s)).dir < 4
    rw [stop_eq]
    exact h

theorem perform_dir_valid (cmd : String) {s : State} (h : 0 ≤ s.dir ∧ s.dir < 4) :
    0 ≤ (stateOf (_myrtle_cmd_perform cmd s)).dir ∧
      (stateOf (_myrtle_cmd_perform cmd s)).dir < 4 := by
  unfold _myrtle_cmd_perform
  cases hl : _myrtle_cmd_lookup cmd with
  | none => exact h
  | some e => exact table_dir_valid (lookup_mem hl).1 h

theorem interp_loop_dir_valid (k : Nat) : ∀ {s : State}, 0 ≤ s.dir ∧ s.dir < 4 →
    0 ≤ (stateOf (interp_loop k s)).dir ∧ (stateOf (interp_loop k s)).dir < 4 := by
  induction k with
  | zero =>
    intro s h
    cases hf : s.fin with
    | nil => rw [interp_loop_nil 0 hf]; exact h
    | cons cmd tl => rw [interp_loop, next_token_cons hf]; exact h
  | succ k ih =>
    intro s h
    cases hf : s.fin with
    | nil => rw [interp_loop_nil _ hf]; exact h
    | cons cmd tl =>
      rw [interp_loop_cons k hf]
      have hp := @perform_dir_valid cmd (echo cmd { s with fin := tl })
        (by rw [echo_eq]; exact h)
      cases hr : _myrtle_cmd_perform cmd (echo cmd { s with fin := tl }) with
      | error e =>
        rw [hr] at hp
        rw [bind_error]
        exact hp
      | ok s2 =>
        rw [hr] at hp
        rw [bind_ok]
        exact ih (by rw [line_inc_eq]; exact hp)

theorem open_files_dir (s : State) : (stateOf (file_open_files s)).dir = s.dir := by
  unfold file_open_files _file_open_in _file_open_out main_terminate_err
  split_ifs <;> try rfl
  all_goals
    cases hr : s.readable s.in_fname <;> simp only [bind_ok, bind_error] <;>
      (try split_ifs) <;> rfl

/-- The heading is one of the four directions in every state the interpreter reaches from
the initial state. -/
theorem interp_upto_dir_valid (k : Nat) {s : State} (h : 0 ≤ s.dir ∧ s.dir < 4) :
    0 ≤ (stateOf (interp_upto k s)).dir ∧ (stateOf (interp_upto k s)).dir < 4 := by
  have ho := open_files_dir s
  unfold interp_upto
  cases hr : file_open_files s with
  | error e =>
    rw [hr] at ho
    rw [bind_error, ho]
    exact h
  | ok s1 =>
    rw [hr] at ho
    rw [bind_ok]
    have ho' : s1.dir = s.dir := ho
    refine interp_loop_dir_valid k ?_
    rw [line_set_eq]
    show 0 ≤ s1.dir ∧ s1.dir < 4
    rw [ho']
    exact h

/-! ## Moving backward is moving forward with the opposite heading -/

theorem heading_delta_opposite (dir : Int) (h0 : 0 ≤ dir) (h4 : dir < 4) :
    (heading_delta ((dir + 2) % 4)).1 = - (heading_delta dir).1 ∧
    (heading_delta ((dir + 2) % 4)).2 = - (heading_delta dir).2 := by
  have h : dir = 0 ∨ dir = 1 ∨ dir = 2 ∨ dir = 3 := by omega
  rcases h with h | h | h | h <;> rw [h] <;> decide

theorem move_and_draw_opposite {s : State} (hin : InBounds s) (h0 : 0 ≤ s.dir)
    (h4 : s.dir < 4) :
    ∃ t, move_and_draw (-1) s = .ok t ∧
      move_and_draw 1 { s with dir := (s.dir + 2) % 4 } =
        .ok { t with dir := (s.dir + 2) % 4 } ∧ Moved s t := by
  obtain ⟨e1, e2⟩ := heading_delta_opposite s.dir h0 h4
  obtain ⟨b1, b2⟩ := clamp_bounds (s.row + -(heading_delta s.dir).1)
  obtain ⟨b3, b4⟩ := clamp_bounds (s.col + -(heading_delta s.dir).2)
  have hm1 : _myrtle_move (-1) s =
      { s with row := min (max (s.row + -1 * (heading_delta s.dir).1) 0) 49,
               col := min (max (s.col + -1 * (heading_delta s.dir).2) 0) 49 } := move_eq (-1) hin
  have hm2 : _myrtle_move 1 { s with dir := (s.dir + 2) % 4 } =
      { s with dir := (s.dir + 2) % 4,
               row := min (max (s.row + 1 * (heading_delta ((s.dir + 2) % 4)).1) 0) 49,
               col := min (max (s.col + 1 * (heading_delta ((s.dir + 2) % 4)).2) 0) 49 } :=
    @move_eq 1 { s with dir := (s.dir + 2) % 4 } hin
  rw [neg_one_mul, neg_one_mul] at hm1
  rw [e1, e2, one_mul, one_mul] at hm2
  have hb : InBounds
      { s with row := min (max (s.row + -(heading_delta s.dir).1) 0) 49,
               col := min (max (s.col + -(heading_delta s.dir).2) 0) 49 } :=
    ⟨b1, by rw [MAX_WORLD_ROWS_eq]; exact b2, b3, by rw [MAX_WORLD_COLS_eq]; exact b4⟩
  unfold move_and_draw
  simp only
  rw [hm1, hm2]
  by_cases hp : s.pendown = true
  · refine ⟨
      { s with row := min (max (s.row + -(heading_delta s.dir).1) 0) 49,
               col := min (max (s.col + -(heading_delta s.dir).2) 0) 49,
               world := world_store s.world
                 (min (max (s.row + -(heading_delta s.dir).1) 0) 49)
                 (min (max (s.col + -(heading_delta s.dir).2) 0) 49) s.penchar }, ?_, ?_, ?_⟩
    · rw [if_pos (by show s.pendown = true; exact hp)]
      exact draw_eq hb hp
    · rw [if_pos (by show s.pendown = true; exact hp)]
      exact @draw_eq
        { s with dir := (s.dir + 2) % 4,
                 row := min (max (s.row + -(heading_delta s.dir).1) 0) 49,
                 col := min (max (s.col + -(heading_delta s.dir).2) 0) 49 } hb hp
    · exact ⟨_, _, _, rfl, hb⟩
  · refine ⟨
      { s with row := min (max (s.row + -(heading_delta s.dir).1) 0) 49,
               col := min (max (s.col + -(heading_delta s.dir).2) 0) 49 }, ?_, ?_, ?_⟩
    · exact if_neg hp
    · exact if_neg hp
    · exact ⟨_, _, s.world, rfl, hb⟩

theorem for_down_opposite (j : Nat) : ∀ s : State, InBounds s → 0 ≤ s.dir → s.dir < 4 →
    ∃ t, for_down j (move_and_draw (-1)) s = .ok t ∧
      for_down j (move_and_draw 1) { s with dir := (s.dir + 2) % 4 } =
        .ok { t with dir := (s.dir + 2) % 4 } ∧ Moved s t := by
  induction j with
  | zero =>
    intro s hin h0 h4
    exact ⟨s, rfl, rfl, Moved.refl hin⟩
  | succ j ih =>
    intro s hin h0 h4
    obtain ⟨t1, h1, h2, hm⟩ := move_and_draw_opposite hin h0 h4
    obtain ⟨R, C, W, rfl, hb⟩ := hm
    obtain ⟨t, h3, h4', hm2⟩ := ih { s with row := R, col := C, world := W } hb h0 h4
    refine ⟨t, ?_, ?_, Moved.trans ⟨R, C, W, rfl, hb⟩ hm2⟩
    · rw [for_down, h1, bind_ok, h3]
    · rw [for_down, h2, bind_ok]
      exact h4'

/-! ## The text of a world, character by character -/

theorem flatMap_block {α β : Type} (m : Nat) (f : α → List β) (hf : ∀ a, (f a).length = m) :
    ∀ (l : List α) (i j : Nat), j < m →
      (l.flatMap f)[i * m + j]? = (l[i]?).bind (fun a => (f a)[j]?) := by
  intro l
  induction l with
  | nil => intro i j _; simp
  | cons a l ih =>
    intro i j hj
    rw [List.flatMap_cons]
    cases i with
    | zero =>
      rw [Nat.zero_mul, Nat.zero_add, List.getElem?_append_left (by rw [hf]; exact hj),
        List.getElem?_cons_zero, Option.some_bind]
    | succ i =>
      have e : (i + 1) * m + j = (f a).length + (i * m + j) := by
        rw [hf, Nat.succ_mul]
        omega
      rw [e, List.getElem?_append_right (Nat.le_add_right _ _), Nat.add_sub_cancel_left,
        ih i j hj, List.getElem?_cons_succ]

theorem render_cell (w : World) (r c : Fin 50) :
    (render w)[r.val * 51 + c.val]? = some (w.cell r.val c.val) := by
  have h := flatMap_block 51
    (fun r : Nat => (List.range MAX_WORLD_COLS.toNat).map (fun c : Nat => w.cell r c) ++ ['\n'])
    (by intro a; simp [MAX_WORLD_COLS]) (List.range MAX_WORLD_ROWS.toNat) r.val c.val
    (by have := c.isLt; omega)
  unfold render
  rw [h]
  have hr : (List.range MAX_WORLD_ROWS.toNat)[r.val]? = some r.val := by
    rw [List.getElem?_range]
    exact r.isLt
  rw [hr]
  show ((List.range MAX_WORLD_COLS.toNat).map (fun c : Nat => w.cell r.val c) ++ ['\n'])[c.val]?
    = _
  rw [List.getElem?_append_left (by simp [MAX_WORLD_COLS])]
  rw [List.getElem?_map, List.getElem?_range]
  · rfl
  · exact c.isLt

theorem render_newline (w : World) (r : Fin 50) :
    (render w)[r.val * 51 + 50]? = some '\n' := by
  have h := flatMap_block 51
    (fun r : Nat => (List.range MAX_WORLD_COLS.toNat).map (fun c : Nat => w.cell r c) ++ ['\n'])
    (by intro a; simp [MAX_WORLD_COLS]) (List.range MAX_WORLD_ROWS.toNat) r.val 50 (by omega)
  unfold render
  rw [h]
  have hr : (List.range MAX_WORLD_ROWS.toNat)[r.val]? = some r.val := by
    rw [List.getElem?_range]
    exact r.isLt
  rw [hr]
  show ((List.range MAX_WORLD_COLS.toNat).map (fun c : Nat => w.cell r.val c) ++ ['\n'])[50]?
    = _
  rw [List.getElem?_append_right (by simp [MAX_WORLD_COLS])]
  simp [MAX_WORLD_COLS]

theorem render_blank (w : World)
    (h : ∀ r c : Nat, r < 50 → c < 50 → w.cell r c = ' ') :
    render w = (List.replicate 50 (List.replicate 50 ' ' ++ ['\n'])).flatten := by
  have hrow : ∀ r : Nat, r < 50 →
      (List.range MAX_WORLD_COLS.toNat).map (fun c : Nat => w.cell r c) =
        List.replicate 50 ' ' := by
    intro r hr
    rw [List.eq_replicate_iff]
    refine ⟨by simp [MAX_WORLD_COLS], ?_⟩
    intro b hb
    rw [List.mem_map] at hb
    obtain ⟨c, hc, rfl⟩ := hb
    rw [List.mem_range] at hc
    exact h r c hr hc
  unfold render
  rw [List.flatMap_def]
  congr 1
  rw [List.eq_replicate_iff]
  refine ⟨by simp [MAX_WORLD_ROWS], ?_⟩
  intro b hb
  rw [List.mem_map] at hb
  obtain ⟨r, hr, rfl⟩ := hb
  rw [List.mem_range] at hr
  rw [hrow r hr]

/-! ## The line counter along a sequence of commands -/

theorem interp_loop_zero (s : State) :
    interp_loop 0 s = .ok s ∨ interp_loop 0 s = .error (.pending s) := by
  cases hf : s.fin with
  | nil => exact Or.inl (interp_loop_nil 0 hf)
  | cons c tl =>
    right
    unfold interp_loop
    rw [next_token_cons hf]

theorem stateOf_interp_loop_zero (s : State) : stateOf (interp_loop 0 s) = s := by
  rcases interp_loop_zero s with h | h <;> rw [h] <;> rfl

theorem line_inc_val {s : State} (h : 0 ≤ s.line) :
    _myrtle_line_inc s = { s with line := s.line + 1 } := by
  unfold _myrtle_line_inc _myrtle_line_set _myrtle_line_get
  rw [if_pos (by omega)]

theorem in_bounds_initial (toks : List String) : InBounds (initial toks) := by
  refine ⟨le_refl _, ?_, le_refl _, ?_⟩
  · show (0 : Int) < MAX_WORLD_ROWS
    decide
  · show (0 : Int) < MAX_WORLD_COLS
    decide

theorem atoi_left : atoi "left" = 0 := by decide

theorem world_store_twice (w : World) (r c : Int) (ch : Char) :
    world_store (world_store w r c ch) r c ch = world_store w r c ch := by
  unfold world_store
  congr 1
  funext i j
  by_cases h : i = r ∧ j = c
  · simp only [if_pos h]
  · simp only [if_neg h]

/-! ## Opening the files and parsing the command line -/

theorem open_out_fails {s : State} (hf : s.out_fname ≠ "")
    (hw : s.writable s.out_fname = false) :
    _file_open_out s =
      .error (.exit TERM_ERR_INPUT { s with stdout := s.stdout ++
        ["Cannot open outut file '" ++ s.out_fname ++ "'" ++ ". Terminating.\n"] }) := by
  unfold _file_open_out
  rw [if_pos hf, if_neg (by rw [hw]; decide)]
  rfl

theorem open_in_fails {s : State} (hf : s.in_fname ≠ "")
    (hr : s.readable s.in_fname = none) :
    _file_open_in s =
      .error (.exit TERM_ERR_INPUT { s with stdout := s.stdout ++
        ["Cannot open input file '" ++ s.in_fname ++ "'" ++ ". Terminating.\n"] }) := by
  unfold _file_open_in
  rw [if_pos hf, hr]
  rfl

theorem parse_args_bad (bad : String) (rest : List String) (hbad : bad ∉ option_names) :
    ∀ (os : List Opt) (s : State),
      ∃ t, parse_args (Opt.args os ++ bad :: rest) s = .error (.exit TERM_ERR_CMD_LINE t) ∧
        t.fin = s.fin ∧ t.fout = s.fout ∧ t.world = s.world ∧ t.line = s.line ∧
        t.stdout.getLast? = some "\nInvalid command line. Terminating.\n" := by
  have hb : bad ≠ "-i" ∧ bad ≠ "-o" ∧ bad ≠ "-h" ∧ bad ≠ "-V" ∧ bad ≠ "-v" := by
    simp only [option_names, List.mem_cons, List.mem_singleton, List.not_mem_nil, or_false,
      not_or] at hbad
    exact hbad
  intro os
  induction os with
  | nil =>
    intro s
    refine ⟨stateOf (main_terminate_err "\nInvalid command line" TERM_ERR_CMD_LINE
      (_main_help s)), ?_, rfl, rfl, rfl, rfl, ?_⟩
    · show parse_args (bad :: rest) s = _
      unfold parse_args streq
      rw [if_neg (by simp [hb.1]), if_neg (by simp [hb.2.1]), if_neg (by simp [hb.2.2.1]),
        if_neg (by simp [hb.2.2.2.1]), if_neg (by simp [hb.2.2.2.2])]
      rfl
    · show ((_main_help s).stdout ++
        ["\nInvalid command line" ++ ". Terminating.\n"]).getLast? = _
      rw [List.getLast?_concat]
      rfl
  | cons o os ih =>
    intro s
    cases o with
    | input fname =>
      obtain ⟨t, ht, h1, h2, h3, h4, h5⟩ := ih (file_set_in_fname fname s)
      have e : parse_args (Opt.args (Opt.input fname :: os) ++ bad :: rest) s =
          parse_args (Opt.args os ++ bad :: rest) (file_set_in_fname fname s) := rfl
      rw [e]
      exact ⟨t, ht, h1, h2, h3, h4, h5⟩
    | output fname =>
      obtain ⟨t, ht, h1, h2, h3, h4, h5⟩ := ih (file_set_out_fname fname s)
      have e : parse_args (Opt.args (Opt.output fname :: os) ++ bad :: rest) s =
          parse_args (Opt.args os ++ bad :: rest) (file_set_out_fname fname s) := rfl
      rw [e]
      exact ⟨t, ht, h1, h2, h3, h4, h5⟩
    | verbose =>
      obtain ⟨t, ht, h1, h2, h3, h4, h5⟩ := ih (myrtle_verbose_set true s)
      have e : parse_args (Opt.args (Opt.verbose :: os) ++ bad :: rest) s =
          parse_args (Opt.args os ++ bad :: rest) (myrtle_verbose_set true s) := by
        show parse_args ("-V" :: (Opt.args os ++ bad :: rest)) s = _
        rw [parse_args.eq_def]
        rfl
      rw [e]
      exact ⟨t, ht, h1, h2, h3, h4, h5⟩

/-! ## Walking against the walls -/

/-- One round of the loop of `forward` and `backward`, from a position inside the world. -/
theorem step_clamped (d : Int) {s : State} (hin : InBounds s) :
    move_and_draw d s =
      .ok { s with row := min (max (s.row + d * (heading_delta s.dir).1) 0) 49,
                   col := min (max (s.col + d * (heading_delta s.dir).2) 0) 49,
                   world := if s.pendown then
                       world_store s.world
                         (min (max (s.row + d * (heading_delta s.dir).1) 0) 49)
                         (min (max (s.col + d * (heading_delta s.dir).2) 0) 49) s.penchar
                     else s.world } := by
  obtain ⟨b1, b2⟩ := clamp_bounds (s.row + d * (heading_delta s.dir).1)
  obtain ⟨b3, b4⟩ := clamp_bounds (s.col + d * (heading_delta s.dir).2)
  have hb : InBounds
      { s with row := min (max (s.row + d * (heading_delta s.dir).1) 0) 49,
               col := min (max (s.col + d * (heading_delta s.dir).2) 0) 49 } :=
    ⟨b1, by rw [MAX_WORLD_ROWS_eq]; exact b2, b3, by rw [MAX_WORLD_COLS_eq]; exact b4⟩
  unfold move_and_draw
  simp only
  rw [move_eq d hin]
  by_cases hp : s.pendown = true
  · rw [if_pos (by exact hp), if_pos hp]
    exact draw_eq hb hp
  · rw [if_neg (by exact hp), if_neg hp]

/-- The loop of `forward` and `backward` from a position inside the world returns; the
position and world it reaches do not depend on the tokens left in the input. -/
theorem walk_frame (d : Int) (j : Nat) : ∀ s : State, InBounds s →
    ∃ R C W, (0 ≤ R ∧ R < MAX_WORLD_ROWS ∧ 0 ≤ C ∧ C < MAX_WORLD_COLS) ∧
      ∀ toks : List String, for_down j (move_and_draw d) { s with fin := toks } =
        .ok { s with fin := toks, row := R, col := C, world := W } := by
  induction j with
  | zero =>
    intro s hin
    exact ⟨s.row, s.col, s.world, hin, fun _ => rfl⟩
  | succ j ih =>
    intro s hin
    obtain ⟨b1, b2⟩ := clamp_bounds (s.row + d * (heading_delta s.dir).1)
    obtain ⟨b3, b4⟩ := clamp_bounds (s.col + d * (heading_delta s.dir).2)
    obtain ⟨R, C, W, hb, h⟩ := ih
      { s with row := min (max (s.row + d * (heading_delta s.dir).1) 0) 49,
               col := min (max (s.col + d * (heading_delta s.dir).2) 0) 49,
               world := if s.pendown then
                   world_store s.world
                     (min (max (s.row + d * (heading_delta s.dir).1) 0) 49)
                     (min (max (s.col + d * (heading_delta s.dir).2) 0) 49) s.penchar
                 else s.world }
      ⟨b1, by rw [MAX_WORLD_ROWS_eq]; exact b2, b3, by rw [MAX_WORLD_COLS_eq]; exact b4⟩
    refine ⟨R, C, W, hb, ?_⟩
    intro toks
    rw [for_down, @step_clamped d { s with fin := toks } hin, bind_ok]
    exact h toks

theorem for_down_add (body : State → Except Halt State) (j k : Nat) : ∀ s : State,
    for_down (j + k) body s = (for_down j body s >>= for_down k body) := by
  induction j with
  | zero =>
    intro s
    rw [Nat.zero_add]
    rfl
  | succ j ih =>
    intro s
    have e : j + 1 + k = (j + k) + 1 := by omega
    rw [e, for_down, for_down]
    cases hr : body s with
    | error e => rfl
    | ok t =>
      rw [bind_ok, bind_ok]
      exact ih t

theorem clamp_step (x a : Int) (j : Nat) (hx : 0 ≤ x ∧ x < 50)
    (ha : a = -1 ∨ a = 0 ∨ a = 1) :
    min (max (min (max (x + a) 0) 49 + j * a) 0) 49 = min (max (x + (j + 1 : Nat) * a) 0) 49 := by
  push_cast
  rcases ha with rfl | rfl | rfl <;> omega

theorem heading_delta_unit (dir : Int) :
    ((heading_delta dir).1 = -1 ∨ (heading_delta dir).1 = 0 ∨ (heading_delta dir).1 = 1) ∧
    ((heading_delta dir).2 = -1 ∨ (heading_delta dir).2 = 0 ∨ (heading_delta dir).2 = 1) := by
  unfold heading_delta
  split_ifs <;> simp

/-- The position after `j` rounds of the loop of `forward` and `backward` is the clamped
end of the unbounded walk. -/
theorem walk_clamped (a b : Int) (d : Int) (j : Nat) : ∀ s : State, InBounds s →
    a = d * (heading_delta s.dir).1 → b = d * (heading_delta s.dir).2 →
    (a = -1 ∨ a = 0 ∨ a = 1) → (b = -1 ∨ b = 0 ∨ b = 1) →
    ∃ W, for_down j (move_and_draw d) s =
      .ok { s with row := min (max (s.row + j * a) 0) 49,
                   col := min (max (s.col + j * b) 0) 49, world := W } := by
  induction j with
  | zero =>
    intro s hin _ _ _ _
    obtain ⟨h1, h2, h3, h4⟩ := hin
    rw [MAX_WORLD_ROWS_eq] at h2
    rw [MAX_WORLD_COLS_eq] at h4
    have e1 : min (max (s.row + ((0 : Nat) : Int) * a) 0) 49 = s.row := by
      push_cast
      omega
    have e2 : min (max (s.col + ((0 : Nat) : Int) * b) 0) 49 = s.col := by
      push_cast
      omega
    refine ⟨s.world, ?_⟩
    rw [e1, e2]
    rfl
  | succ j ih =>
    intro s hin ha hb ha1 hb1
    obtain ⟨b1, b2⟩ := clamp_bounds (s.row + a)
    obtain ⟨b3, b4⟩ := clamp_bounds (s.col + b)
    have hstep := step_clamped d hin
    rw [← ha, ← hb] at hstep
    obtain ⟨W, hW⟩ := ih
      { s with row := min (max (s.row + a) 0) 49,
               col := min (max (s.col + b) 0) 49,
               world := if s.pendown then
                   world_store s.world (min (max (s.row + a) 0) 49)
                     (min (max (s.col + b) 0) 49) s.penchar
                 else s.world }
      ⟨b1, by rw [MAX_WORLD_ROWS_eq]; exact b2, b3, by rw [MAX_WORLD_COLS_eq]; exact b4⟩
      ha hb ha1 hb1
    obtain ⟨h1, h2, h3, h4⟩ := hin
    rw [MAX_WORLD_ROWS_eq] at h2
    rw [MAX_WORLD_COLS_eq] at h4
    have e1 := clamp_step s.row a j ⟨h1, h2⟩ ha1
    have e2 := clamp_step s.col b j ⟨h3, h4⟩ hb1
    refine ⟨W, ?_⟩
    rw [for_down, hstep, bind_ok, hW]
    show Except.ok { s with row := min (max (min (max (s.row + a) 0) 49 + j * a) 0) 49,
                            col := min (max (min (max (s.col + b) 0) 49 + j * b) 0) 49,
                            world := W } = _
    rw [e1, e2]

/-! ## Walls, and the output of a run -/

/-- Rounds of the loop of `forward` against a wall, with the pen down. -/
theorem blocked_walk (j : Nat) : ∀ s : State, InBounds s → s.pendown = true →
    min (max (s.row + 1 * (heading_delta s.dir).1) 0) 49 = s.row →
    min (max (s.col + 1 * (heading_delta s.dir).2) 0) 49 = s.col →
    for_down (j + 1) (move_and_draw 1) s =
      .ok { s with world := world_store s.world s.row s.col s.penchar } := by
  have hstep : ∀ s : State, InBounds s → s.pendown = true →
      min (max (s.row + 1 * (heading_delta s.dir).1) 0) 49 = s.row →
      min (max (s.col + 1 * (heading_delta s.dir).2) 0) 49 = s.col →
      move_and_draw 1 s = .ok { s with world := world_store s.world s.row s.col s.penchar } := by
    intro s hin hp hr hc
    have h := step_clamped 1 hin
    rw [hr, hc, if_pos hp] at h
    exact h
  induction j with
  | zero =>
    intro s hin hp hr hc
    rw [for_down, hstep s hin hp hr hc]
    rfl
  | succ j ih =>
    intro s hin hp hr hc
    rw [for_down, hstep s hin hp hr hc, bind_ok,
      ih { s with world := world_store s.world s.row s.col s.penchar } hin hp hr hc]
    exact congrArg (fun w => Except.ok { s with world := w }) (world_store_twice _ _ _ _)

theorem perform_cmd_out (c : Cmd) (tl : List String) {s : State}
    (hin : InBounds s) (hfin : s.fin = c.args ++ tl) :
    ∃ t, _myrtle_cmd_perform c.name s = .ok t ∧ t.fin = tl ∧ InBounds t ∧
      t.line = s.line ∧
      t.fout = s.fout ++ (if c = Cmd.stop then render s.world else []) := by
  by_cases hc : c = .stop
  · subst hc
    refine ⟨{ s with fout := s.fout ++ render s.world }, ?_, hfin, hin, rfl, ?_⟩
    · exact (perform_stop s).trans (stop_eq s)
    · rw [if_pos rfl]
  · obtain ⟨t, hp, hf, hi, ho, hl, -⟩ := perform_cmd_frame c hc tl hin hfin
    refine ⟨t, hp, hf, hi, hl, ?_⟩
    rw [if_neg hc, List.append_nil]
    exact ho

/-- One round of the loop of the interpreter on a command with its arguments. -/
theorem loop_round (c : Cmd) (tl : List String) {s : State} (hin : InBounds s)
    (hl : 0 ≤ s.line) (hfin : s.fin = c.name :: (c.args ++ tl)) :
    ∃ s1, (∀ n, interp_loop (n + 1) s = interp_loop n s1) ∧ InBounds s1 ∧ 0 ≤ s1.line ∧
      s1.fin = tl ∧
      s1.fout = s.fout ++ (if c = Cmd.stop then render s.world else []) := by
  obtain ⟨t1, hp, hf1, hi1, hl1, ho1⟩ := @perform_cmd_out c tl
    (echo c.name { s with fin := c.args ++ tl })
    (by rw [echo_eq]; exact hin) (by rw [echo_eq])
  have hl1' : t1.line = s.line := by
    rw [hl1, echo_eq]
  have ho1' : t1.fout = s.fout ++ (if c = Cmd.stop then render s.world else []) := by
    rw [ho1, echo_eq]
  refine ⟨{ t1 with line := t1.line + 1 }, ?_, hi1, ?_, hf1, ho1'⟩
  · intro n
    rw [interp_loop_cons n hfin, hp, bind_ok, line_inc_val (by rw [hl1']; exact hl)]
  · show 0 ≤ t1.line + 1
    omega

theorem flatMap_shift (f g : Nat → List Char) (h : ∀ i, f (i + 1) = g i) (l : List Nat) :
    (l.map (fun i => i + 1)).flatMap f = l.flatMap g := by
  induction l with
  | nil => rfl
  | cons a l ih =>
    rw [List.map_cons, List.flatMap_cons, List.flatMap_cons, ih, h]

/-- The loop of the interpreter on a sequence of commands: the output grows by the text of
the world at every `stop`, in the order of the commands. -/
theorem loop_snapshots (rest : List String) : ∀ (cs : List Cmd) (s : State),
    InBounds s → 0 ≤ s.line → s.fin = Cmd.stream cs ++ rest →
    ∃ t, (∀ k, interp_loop (cs.length + k) s = interp_loop k t) ∧ InBounds t ∧
      t.fin = rest ∧
      t.fout = s.fout ++ (stop_positions cs).flatMap
        (fun i => render (stateOf (interp_loop i s)).world) := by
  intro cs
  induction cs with
  | nil =>
    intro s hin _ hfin
    refine ⟨s, ?_, hin, by simpa [Cmd.stream] using hfin, ?_⟩
    · intro k
      rw [List.length_nil, Nat.zero_add]
    · show s.fout = s.fout ++ []
      rw [List.append_nil]
  | cons c cs ih =>
    intro s hin hl hfin
    rw [stream_cons, List.cons_append, List.append_assoc] at hfin
    obtain ⟨s1, h1, hi1, hl1, hf1, ho1⟩ := loop_round c (Cmd.stream cs ++ rest) hin hl hfin
    obtain ⟨t, ht, hti, htf, hto⟩ := ih s1 hi1 hl1 hf1
    refine ⟨t, ?_, hti, htf, ?_⟩
    · intro k
      have e : (c :: cs).length + k = (cs.length + k) + 1 := by
        rw [List.length_cons]
        omega
      rw [e, h1, ht]
    · have hshift : ((stop_positions cs).map (fun i => i + 1)).flatMap
          (fun i => render (stateOf (interp_loop i s)).world) =
          (stop_positions cs).flatMap (fun i => render (stateOf (interp_loop i s1)).world) :=
        flatMap_shift _ _ (by intro i; show render _ = render _; rw [h1]) _
      have hhead : (if c = Cmd.stop then [0] else []).flatMap
          (fun i => render (stateOf (interp_loop i s)).world) =
          (if c = Cmd.stop then render s.world else []) := by
        by_cases hc : c = Cmd.stop
        · rw [if_pos hc, if_pos hc, List.flatMap_cons, List.flatMap_nil, List.append_nil,
            stateOf_interp_loop_zero]
        · rw [if_neg hc, if_neg hc, List.flatMap_nil]
      rw [hto, ho1, stop_positions, List.flatMap_append, hshift, hhead, List.append_assoc]

theorem interp_upto_default (k : Nat) {s : State} (hi : s.in_fname = "")
    (ho : s.out_fname = "") : interp_upto k s = interp_loop k (loop_entry s) := by
  unfold interp_upto
  rw [open_files_default hi ho, bind_ok]
  rfl

theorem flatMap_render_length (g : Nat → World) (l : List Nat) :
    (l.flatMap (fun i => render (g i))).length = l.length * 2550 := by
  induction l with
  | nil => rfl
  | cons a l ih =>
    rw [List.flatMap_cons, List.length_append, ih, render_length, List.length_cons]
    ring

theorem stop_positions_length (cs : List Cmd) :
    (stop_positions cs).length = cs.count Cmd.stop := by
  induction cs with
  | nil => rfl
  | cons c cs ih =>
    rw [stop_positions, List.length_append, List.length_map, ih, List.count_cons]
    by_cases hc : c = Cmd.stop
    · subst hc
      simp
      omega
    · have hc' : ¬ (c == Cmd.stop) = true := by simpa using hc
      rw [if_neg hc, if_neg hc']
      simp

theorem mem_stop_positions (cs : List Cmd) : ∀ i : Nat,
    i ∈ stop_positions cs ↔ cs[i]? = some Cmd.stop := by
  induction cs with
  | nil => intro i; simp [stop_positions]
  | cons c cs ih =>
    intro i
    rw [stop_positions, List.mem_append, List.mem_map]
    cases i with
    | zero =>
      rw [List.getElem?_cons_zero]
      constructor
      · rintro (h | ⟨j, -, hj⟩)
        · by_cases hc : c = Cmd.stop
          · rw [hc]
          · rw [if_neg hc] at h
            cases h
        · omega
      · intro h
        left
        have hc : c = Cmd.stop := Option.some.inj h
        rw [if_pos hc]
        exact List.mem_singleton.mpr rfl
    | succ i =>
      rw [List.getElem?_cons_succ, ← ih i]
      constructor
      · rintro (h | ⟨j, hj, hji⟩)
        · by_cases hc : c = Cmd.stop
          · rw [if_pos hc] at h
            have := List.mem_singleton.mp h
            omega
          · rw [if_neg hc] at h
            cases h
        · have e : j = i := by omega
          rw [← e]
          exact hj
      · intro h
        exact Or.inr ⟨i, h, rfl⟩

/-- The run of the interpreter on a sequence of commands, each with its arguments. -/
theorem run_snapshots (cs : List Cmd) (v : Bool)
    (readable : String → Option (List String)) (writable : String → Bool) :
    ∃ t, myrtle_interp (myrtle_verbose_set v (globals (Cmd.stream cs) readable writable)) =
        .ok (0, { t with fout := t.fout ++ render t.world }) ∧ InBounds t ∧
      t.fout = (stop_positions cs).flatMap (fun i => render (stateOf (interp_upto i
        (myrtle_verbose_set v (globals (Cmd.stream cs) readable writable)))).world) := by
  have hin : InBounds (loop_entry
      (myrtle_verbose_set v (globals (Cmd.stream cs) readable writable))) := by
    rw [loop_entry_eq]
    refine ⟨le_refl _, ?_, le_refl _, ?_⟩
    · show (0 : Int) < MAX_WORLD_ROWS
      decide
    · show (0 : Int) < MAX_WORLD_COLS
      decide
  obtain ⟨t, ht, hti, htf, hto⟩ := loop_snapshots [] cs
    (loop_entry (myrtle_verbose_set v (globals (Cmd.stream cs) readable writable)))
    hin (by rw [loop_entry_eq]; exact Int.one_nonneg)
    (by rw [loop_entry_eq, List.append_nil]; rfl)
  have hlen : cs.length + ((Cmd.stream cs).length - cs.length) = (Cmd.stream cs).length := by
    have := stream_length cs
    omega
  have hrun : interp_loop (Cmd.stream cs).length (loop_entry
      (myrtle_verbose_set v (globals (Cmd.stream cs) readable writable))) = .ok t := by
    rw [← hlen, ht, interp_loop_nil _ htf]
  refine ⟨t, interp_of_loop rfl rfl hrun, hti, ?_⟩
  rw [hto]
  have e : ∀ i, interp_upto i
      (myrtle_verbose_set v (globals (Cmd.stream cs) readable writable)) =
      interp_loop i (loop_entry
        (myrtle_verbose_set v (globals (Cmd.stream cs) readable writable))) :=
    fun i => interp_upto_default i rfl rfl
  simp only [e]
  exact List.nil_append _

/-! ## Numbers in the range of `int`, options, and runs with an output file -/

/-- For a number in the range of `int`, `atoi` reads back its decimal form: there the
value of the C function is the mathematical value. -/
theorem atoi_int {n : Int} : INT_MIN ≤ n ∧ n ≤ INT_MAX → atoi (toString n) = n :=
  fun _ => atoi_toString n

theorem open_files_stdin {s : State} (hi : s.in_fname = "")
    (ho : s.out_fname = "" ∨ s.writable s.out_fname = true) :
    file_open_files s = .ok { s with fin := s.stdin, fout := [] } := by
  unfold file_open_files _file_open_in
  rw [if_neg (by simp [hi]), bind_ok]
  unfold _file_open_out
  by_cases h : s.out_fname = ""
  · rw [if_neg (by simp [h])]
  · have hw : s.writable s.out_fname = true := ho.resolve_left h
    rw [if_pos (by exact h)]
    show (if s.writable s.out_fname = true then _ else _) = _
    rw [if_pos hw]

theorem myrtle_interp_stdin {s : State} (hi : s.in_fname = "")
    (ho : s.out_fname = "" ∨ s.writable s.out_fname = true) :
    myrtle_interp s =
      (interp_loop s.stdin.length (loop_entry s) >>=
        fun s3 => .ok (0, { s3 with fout := s3.fout ++ render s3.world })) := by
  unfold myrtle_interp
  rw [open_files_stdin hi ho, bind_ok]
  simp only [world_write_eq, file_close_files, _file_close_in, _file_close_out]
  rfl

theorem interp_upto_stdin (k : Nat) {s : State} (hi : s.in_fname = "")
    (ho : s.out_fname = "" ∨ s.writable s.out_fname = true) :
    interp_upto k s = interp_loop k (loop_entry s) := by
  unfold interp_upto
  rw [open_files_stdin hi ho, bind_ok]
  rfl

theorem echo_quiet (cmd : String) {s : State} (h : s.verbose = false) : echo cmd s = s := by
  unfold echo
  rw [if_neg (by rw [h]; decide)]

/-- What `echo` adds to the standard output. -/
theorem echo_stdout (cmd : String) (s : State) :
    (echo cmd s).stdout =
      s.stdout ++ (if s.verbose = true then ["Performing command: " ++ cmd ++ "\n"] else []) := by
  unfold echo
  by_cases h : s.verbose = true
  · rw [if_pos h, if_pos h]
  · rw [if_neg h, if_neg h, List.append_nil]

theorem perform_cmd_full (c : Cmd) (tl : List String) {s : State}
    (hin : InBounds s) (hfin : s.fin = c.args ++ tl) :
    ∃ t, _myrtle_cmd_perform c.name s = .ok t ∧ t.fin = tl ∧ InBounds t ∧
      t.line = s.line ∧ t.verbose = s.verbose ∧ t.stdout = s.stdout ∧
      t.out_fname = s.out_fname ∧
      t.fout = s.fout ++ (if c = Cmd.stop then render s.world else []) := by
  by_cases hc : c = .stop
  · subst hc
    refine ⟨{ s with fout := s.fout ++ render s.world }, ?_, hfin, hin, rfl, rfl, rfl, rfl, ?_⟩
    · exact (perform_stop s).trans (stop_eq s)
    · rw [if_pos rfl]
  · obtain ⟨pd, pc, W, D, R, C, hp, hb⟩ := perform_cmd c hc tl hin hfin
    refine ⟨_, hp, rfl, hb, rfl, rfl, rfl, rfl, ?_⟩
    rw [if_neg hc, List.append_nil]

/-- One round of the loop of the interpreter on a command with its arguments, with
everything it leaves alone. -/
theorem round_full (c : Cmd) (tl : List String) {s : State} (hin : InBounds s)
    (hl : 0 ≤ s.line) (hfin : s.fin = c.name :: (c.args ++ tl)) :
    ∃ s1, (∀ n, interp_loop (n + 1) s = interp_loop n s1) ∧ InBounds s1 ∧ s1.fin = tl ∧
      s1.line = s.line + 1 ∧ s1.verbose = s.verbose ∧ s1.out_fname = s.out_fname ∧
      s1.stdout = s.stdout ++
        (if s.verbose = true then ["Performing command: " ++ c.name ++ "\n"] else []) ∧
      s1.fout = s.fout ++ (if c = Cmd.stop then render s.world else []) := by
  obtain ⟨t1, hp, hf1, hi1, hl1, hv1, hs1, hn1, ho1⟩ := @perform_cmd_full c tl
    (echo c.name { s with fin := c.args ++ tl })
    (by rw [echo_eq]; exact hin) (by rw [echo_eq])
  have hl1' : t1.line = s.line := by
    rw [hl1, echo_eq]
  have hv1' : t1.verbose = s.verbose := by
    rw [hv1, echo_eq]
  have hn1' : t1.out_fname = s.out_fname := by
    rw [hn1, echo_eq]
  have ho1' : t1.fout = s.fout ++ (if c = Cmd.stop then render s.world else []) := by
    rw [ho1, echo_eq]
  refine ⟨{ t1 with line := t1.line + 1 }, ?_, hi1, hf1, ?_, hv1', hn1', ?_, ho1'⟩
  · intro n
    rw [interp_loop_cons n hfin, hp, bind_ok, line_inc_val (by rw [hl1']; exact hl)]
  · show t1.line + 1 = s.line + 1
    rw [hl1']
  · show t1.stdout = _
    rw [hs1, echo_stdout]

/-- The loop of the interpreter on a sequence of commands, each with its arguments: what
it consumes, counts, writes and leaves alone. -/
theorem loop_full (rest : List String) : ∀ (cs : List Cmd) (s : State),
    InBounds s → 0 ≤ s.line → s.fin = Cmd.stream cs ++ rest →
    ∃ t, (∀ k, interp_loop (cs.length + k) s = interp_loop k t) ∧ InBounds t ∧
      t.fin = rest ∧ t.line = s.line + cs.length ∧ t.verbose = s.verbose ∧
      t.out_fname = s.out_fname ∧
      t.stdout = s.stdout ++ (if s.verbose = true then
        cs.map (fun c => "Performing command: " ++ c.name ++ "\n") else []) ∧
      t.fout = s.fout ++ (stop_positions cs).flatMap
        (fun i => render (stateOf (interp_loop i s)).world) := by
  intro cs
  induction cs with
  | nil =>
    intro s hin _ hfin
    refine ⟨s, ?_, hin, by simpa [Cmd.stream] using hfin, by simp, rfl, rfl, ?_, ?_⟩
    · intro k
      rw [List.length_nil, Nat.zero_add]
    · show s.stdout = s.stdout ++ (if s.verbose = true then [] else [])
      rw [ite_self, List.append_nil]
    · show s.fout = s.fout ++ []
      rw [List.append_nil]
  | cons c cs ih =>
    intro s hin hl hfin
    rw [stream_cons, List.cons_append, List.append_assoc] at hfin
    obtain ⟨s1, h1, hi1, hf1, hl1, hv1, hn1, hs1, ho1⟩ :=
      round_full c (Cmd.stream cs ++ rest) hin hl hfin
    obtain ⟨t, ht, hti, htf, htl, htv, htn, hts, hto⟩ := ih s1 hi1 (by rw [hl1]; omega) hf1
    refine ⟨t, ?_, hti, htf, ?_, ?_, ?_, ?_, ?_⟩
    · intro k
      have e : (c :: cs).length + k = (cs.length + k) + 1 := by
        rw [List.length_cons]
        omega
      rw [e, h1, ht]
    · rw [htl, hl1, List.length_cons]
      push_cast
      ring
    · rw [htv, hv1]
    · rw [htn, hn1]
    · rw [hts, hs1, hv1, List.append_assoc]
      by_cases hq : s.verbose = true
      · rw [if_pos hq, if_pos hq, if_pos hq]
        rfl
      · rw [if_neg hq, if_neg hq, if_neg hq]
        rfl
    · have hshift : ((stop_positions cs).map (fun i => i + 1)).flatMap
          (fun i => render (stateOf (interp_loop i s)).world) =
          (stop_positions cs).flatMap (fun i => render (stateOf (interp_loop i s1)).world) :=
        flatMap_shift _ _ (by intro i; show render _ = render _; rw [h1]) _
      have hhead : (if c = Cmd.stop then [0] else []).flatMap
          (fun i => render (stateOf (interp_loop i s)).world) =
          (if c = Cmd.stop then render s.world else []) := by
        by_cases hc : c = Cmd.stop
        · rw [if_pos hc, if_pos hc, List.flatMap_cons, List.flatMap_nil, List.append_nil,
            stateOf_interp_loop_zero]
        · rw [if_neg hc, if_neg hc, List.flatMap_nil]
      rw [hto, ho1, stop_positions, List.flatMap_append, hshift, hhead, List.append_assoc]

/-- C1. Position bound invariant.  Start from the initial state (with any verbose flag and
any file names set by the command line) on any input.  The state reached after the first
`k` commands - or the one in which the run ended before that - has its position inside
the world: `0 ≤ row < MAX_WORLD_ROWS` and `0 ≤ col < MAX_WORLD_COLS`.  From that state the
position stays inside the world after a single-square move `_myrtle_move`, and after
every number `j` of rounds of the loop of `forward` and `backward` (move, then draw). -/
theorem position_bound_invariant (stdin : List String)
    (readable : String → Option (List String)) (writable : String → Bool)
    (v : Bool) (fi fo : String) (k j : Nat) (d : Int) :
    InBounds (stateOf (interp_upto k (myrtle_verbose_set v (file_set_out_fname fo
      (file_set_in_fname fi (globals stdin readable writable)))))) ∧
    InBounds (_myrtle_move d (stateOf (interp_upto k (myrtle_verbose_set v
      (file_set_out_fname fo (file_set_in_fname fi (globals stdin readable writable))))))) ∧
    InBounds (stateOf (for_down j (move_and_draw d) (stateOf (interp_upto k
      (myrtle_verbose_set v (file_set_out_fname fo
        (file_set_in_fname fi (globals stdin readable writable)))))))) := by
  have h0 : InBounds (myrtle_verbose_set v (file_set_out_fname fo
      (file_set_in_fname fi (globals stdin readable writable)))) := by
    refine ⟨le_refl _, ?_, le_refl _, ?_⟩
    · show (0 : Int) < MAX_WORLD_ROWS
      decide
    · show (0 : Int) < MAX_WORLD_COLS
      decide
  have h := interp_upto_inBounds k h0
  refine ⟨h, (move_moved d h).inBounds, ?_⟩
  obtain ⟨t, ht, hm⟩ := for_down_moved d j h
  rw [ht]
  exact hm.inBounds

theorem atoi_100 : atoi "100" = 100 := by decide

/-- C2. For all `row` and `col` in the range of `int` - negative ones and ones above 49
included - and every state, the command `hyper row col` returns with the position
`(min (max row 0) 49, min (max col 0) 49)`; the heading and all the rest of the state but
the world and the consumed tokens are as before.  In particular `hyper 100 100` leaves
Myrtle at `(49, 49)`. -/
theorem hyper_clamps_position (s : State) (row col : Int) (tl : List String)
    (hrow : INT_MIN ≤ row ∧ row ≤ INT_MAX) (hcol : INT_MIN ≤ col ∧ col ≤ INT_MAX) :
    (∃ W, _myrtle_cmd_perform "hyper" { s with fin := toString row :: toString col :: tl } =
      .ok { s with fin := tl, row := min (max row 0) 49, col := min (max col 0) 49,
                   world := W }) ∧
    (∃ W, _myrtle_cmd_perform "hyper" { s with fin := "100" :: "100" :: tl } =
      .ok { s with fin := tl, row := 49, col := 49, world := W }) := by
  constructor
  · refine ⟨if s.pendown then
      world_store s.world (min (max row 0) 49) (min (max col 0) 49) s.penchar else s.world, ?_⟩
    rw [perform_hyper, @hyper_eq { s with fin := toString row :: toString col :: tl } _ _ _ rfl]
    rw [atoi_int hrow, atoi_int hcol]
  · refine ⟨if s.pendown then world_store s.world 49 49 s.penchar else s.world, ?_⟩
    rw [perform_hyper, @hyper_eq { s with fin := "100" :: "100" :: tl } _ _ _ rfl]
    rw [atoi_100]
    rfl

theorem hyper_clamps_position_witness :
    (INT_MIN ≤ (-7 : Int) ∧ (-7 : Int) ≤ INT_MAX) ∧ (INT_MIN ≤ (60 : Int) ∧ (60 : Int) ≤ INT_MAX) ∧
    (∃ W, _myrtle_cmd_perform "hyper"
        { initial [] with fin := toString (-7 : Int) :: toString (60 : Int) :: [] } =
      .ok { initial [] with
        fin := [],
        row := min (max (-7) 0) 49,
        col := min (max 60 0) 49,
        world := W }) ∧
    (∃ W, _myrtle_cmd_perform "hyper" { initial [] with fin := "100" :: "100" :: [] } =
      .ok { initial [] with
        fin := [],
        row := 49,
        col := 49,
        world := W }) :=
  ⟨by decide, by decide, hyper_clamps_position (initial []) (-7) 60 [] (by decide) (by decide)⟩

/-- C3. Take any heading, a position inside the world, the pen up and a positive `n` such
that the `n` squares ahead of the position, in the direction of the heading, all lie
inside the world.  Then `forward n` followed by `backward n` returns, and the state is
the one before but for the four consumed tokens: position, heading and world are
unchanged. -/
theorem forward_backward_returns (s : State) (n : Int) (tl : List String) (hn : 0 < n)
    (hin : InBounds s) (hpen : s.pendown = false)
    (hpath : ∀ k : Int, 1 ≤ k → k ≤ n →
      0 ≤ s.row + k * (heading_delta s.dir).1 ∧
      s.row + k * (heading_delta s.dir).1 < MAX_WORLD_ROWS ∧
      0 ≤ s.col + k * (heading_delta s.dir).2 ∧
      s.col + k * (heading_delta s.dir).2 < MAX_WORLD_COLS) :
    (_myrtle_cmd_perform "forward" { s with fin := toString n :: toString n :: tl } >>=
      _myrtle_cmd_perform "backward") = .ok { s with fin := tl } := by
  have hj : ((n.toNat : Nat) : Int) = n := Int.toNat_of_nonneg (le_of_lt hn)
  have hp := hpath n (by omega) (le_refl _)
  rw [MAX_WORLD_ROWS_eq, MAX_WORLD_COLS_eq] at hp
  obtain ⟨W, hW, hup, -⟩ := walk 1 (heading_delta s.dir).1 (heading_delta s.dir).2 n.toNat
    { s with fin := toString n :: tl } (by simp) (by simp) hin (by rw [hj]; exact hp)
  have hW' := hup hpen
  subst hW'
  rw [perform_forward, @forward_eq { s with fin := toString n :: toString n :: tl } _ _ rfl,
    atoi_toString, hW, bind_ok, perform_backward]
  rw [hj] at hW ⊢
  obtain ⟨h1, h2, h3, h4⟩ := hin
  rw [MAX_WORLD_ROWS_eq] at h2
  rw [MAX_WORLD_COLS_eq] at h4
  obtain ⟨W2, hW2, hup2, -⟩ := walk (-1) (-(heading_delta s.dir).1) (-(heading_delta s.dir).2)
    n.toNat
    { s with fin := tl, row := s.row + n * (heading_delta s.dir).1,
             col := s.col + n * (heading_delta s.dir).2 }
    (by simp) (by simp)
    ⟨hp.1, by rw [MAX_WORLD_ROWS_eq]; exact hp.2.1, hp.2.2.1,
      by rw [MAX_WORLD_COLS_eq]; exact hp.2.2.2⟩
    (by
      rw [hj]
      show 0 ≤ s.row + n * (heading_delta s.dir).1 + n * -(heading_delta s.dir).1 ∧
        s.row + n * (heading_delta s.dir).1 + n * -(heading_delta s.dir).1 < 50 ∧
        0 ≤ s.col + n * (heading_delta s.dir).2 + n * -(heading_delta s.dir).2 ∧
        s.col + n * (heading_delta s.dir).2 + n * -(heading_delta s.dir).2 < 50
      have e1 : s.row + n * (heading_delta s.dir).1 + n * -(heading_delta s.dir).1 = s.row := by
        ring
      have e2 : s.col + n * (heading_delta s.dir).2 + n * -(heading_delta s.dir).2 = s.col := by
        ring
      rw [e1, e2]
      exact ⟨h1, h2, h3, h4⟩)
  have hW2' := hup2 hpen
  rw [@backward_eq
    { s with fin := toString n :: tl, row := s.row + n * (heading_delta s.dir).1,
             col := s.col + n * (heading_delta s.dir).2 } _ _ rfl, atoi_toString, hW2, hW2', hj]
  have e1 : s.row + n * (heading_delta s.dir).1 + n * -(heading_delta s.dir).1 = s.row := by
    ring
  have e2 : s.col + n * (heading_delta s.dir).2 + n * -(heading_delta s.dir).2 = s.col := by
    ring
  simp only [e1, e2]

theorem forward_backward_returns_witness :
    (0 : Int) < 3 ∧ InBounds (initial []) ∧ (initial []).pendown = false ∧
    (_myrtle_cmd_perform "forward"
        { initial [] with fin := toString (3 : Int) :: toString (3 : Int) :: [] } >>=
      _myrtle_cmd_perform "backward") = .ok { initial [] with fin := [] } :=
  have hin : InBounds (initial []) := by
    refine ⟨le_refl _, ?_, le_refl _, ?_⟩
    · show (0 : Int) < MAX_WORLD_ROWS
      decide
    · show (0 : Int) < MAX_WORLD_COLS
      decide
  ⟨by decide, hin, rfl,
    forward_backward_returns (initial []) 3 [] (by decide) hin rfl (by
      intro k h1 h2
      show 0 ≤ (0 : Int) + k * 0 ∧ (0 : Int) + k * 0 < 50 ∧ 0 ≤ (0 : Int) + k * 1 ∧
        (0 : Int) + k * 1 < 50
      omega)⟩

theorem world_init_eq (s : State) :
    _myrtle_world_init s = { s with world := (_myrtle_world_init s).world } := rfl

/-- C9. Command lookup is exact and case-sensitive over the closed set of nine words: for
every string the result is the table entry whose word is equal to the string, with the
function registered under that word, and the null pointer when the string is none of the
nine words.  So lookup succeeds exactly for the nine words; `Forward`, `FORWARD` and
`forwards` are not found. -/
theorem lookup_exact (u : String) :
    _myrtle_cmd_lookup u =
      (if u = "backward" then some ⟨"backward", _myrtle_cmd_backward⟩
       else if u = "forward" then some ⟨"forward", _myrtle_cmd_forward⟩
       else if u = "hyper" then some ⟨"hyper", _myrtle_cmd_hyper⟩
       else if u = "left" then some ⟨"left", _myrtle_cmd_left⟩
       else if u = "penchar" then some ⟨"penchar", _myrtle_cmd_penchar⟩
       else if u = "pendown" then some ⟨"pendown", _myrtle_cmd_pendown⟩
       else if u = "penup" then some ⟨"penup", _myrtle_cmd_penup⟩
       else if u = "right" then some ⟨"right", _myrtle_cmd_right⟩
       else if u = "stop" then some ⟨"stop", _myrtle_cmd_stop⟩
       else none) ∧
    ((_myrtle_cmd_lookup u).isSome = true ↔ u ∈ command_names) ∧
    _myrtle_cmd_lookup "Forward" = none ∧ _myrtle_cmd_lookup "FORWARD" = none ∧
    _myrtle_cmd_lookup "forwards" = none := by
  refine ⟨?_, ?_, lookup_unknown (by decide), lookup_unknown (by decide),
    lookup_unknown (by decide)⟩
  · split_ifs with h1 h2 h3 h4 h5 h6 h7 h8 h9
    · subst h1; rfl
    · subst h2; rfl
    · subst h3; rfl
    · subst h4; rfl
    · subst h5; rfl
    · subst h6; rfl
    · subst h7; rfl
    · subst h8; rfl
    · subst h9; rfl
    · exact lookup_unknown (by simp [command_names, h1, h2, h3, h4, h5, h6, h7, h8, h9])
  · by_cases hu : u ∈ command_names
    · simp only [hu, iff_true]
      simp only [command_names, List.mem_cons, List.mem_singleton, List.not_mem_nil,
        or_false] at hu
      rcases hu with rfl | rfl | rfl | rfl | rfl | rfl | rfl | rfl | rfl <;> rfl
    · simp [hu, lookup_unknown hu]

theorem atoi_3 : atoi "3" = 3 := by decide

/-- The loop of the interpreter on `pendown penchar * forward 3 stop`. -/
theorem star_line_loop :
    interp_loop 6 (loop_entry (initial ["pendown", "penchar", "*", "forward", "3", "stop"])) =
      .ok { loop_entry (initial ["pendown", "penchar", "*", "forward", "3", "stop"]) with
        fin := [], pendown := true, penchar := '*', col := 3, line := 5,
        world := world_store (world_store (world_store (loop_entry (initial ["pendown", "penchar", "*", "forward", "3", "stop"])).world 0 1 '*') 0 2 '*') 0 3 '*',
        fout := (loop_entry (initial ["pendown", "penchar", "*", "forward", "3", "stop"])).fout ++
          render (world_store (world_store (world_store (loop_entry (initial ["pendown", "penchar", "*", "forward", "3", "stop"])).world 0 1 '*') 0 2 '*') 0 3 '*') } := by
  have e1 : interp_loop 6 (loop_entry (initial ["pendown", "penchar", "*", "forward", "3", "stop"])) =
      interp_loop 5 { loop_entry (initial ["pendown", "penchar", "*", "forward", "3", "stop"]) with
        fin := ["penchar", "*", "forward", "3", "stop"], pendown := true, line := 2 } :=
    @loop_iter 5 _
      { loop_entry (initial ["pendown", "penchar", "*", "forward", "3", "stop"]) with
        fin := ["penchar", "*", "forward", "3", "stop"], pendown := true }
      "pendown" _ rfl rfl (by decide) rfl rfl
  have e2 : interp_loop 5 { loop_entry (initial ["pendown", "penchar", "*", "forward", "3", "stop"]) with
        fin := ["penchar", "*", "forward", "3", "stop"], pendown := true, line := 2 } =
      interp_loop 4 { loop_entry (initial ["pendown", "penchar", "*", "forward", "3", "stop"]) with
        fin := ["forward", "3", "stop"], pendown := true, penchar := '*', line := 3 } :=
    @loop_iter 4 _
      { loop_entry (initial ["pendown", "penchar", "*", "forward", "3", "stop"]) with
        fin := ["forward", "3", "stop"], pendown := true, penchar := '*', line := 2 }
      "penchar" _ rfl rfl (by decide) rfl rfl
  have e3 : interp_loop 4 { loop_entry (initial ["pendown", "penchar", "*", "forward", "3", "stop"]) with
        fin := ["forward", "3", "stop"], pendown := true, penchar := '*', line := 3 } =
      interp_loop 3 { loop_entry (initial ["pendown", "penchar", "*", "forward", "3", "stop"]) with
        fin := ["stop"], pendown := true, penchar := '*', col := 3, line := 4,
        world := world_store (world_store (world_store (loop_entry (initial ["pendown", "penchar", "*", "forward", "3", "stop"])).world 0 1 '*') 0 2 '*') 0 3 '*' } :=
    @loop_iter 3 _
      { loop_entry (initial ["pendown", "penchar", "*", "forward", "3", "stop"]) with
        fin := ["stop"], pendown := true, penchar := '*', col := 3, line := 3,
        world := world_store (world_store (world_store (loop_entry (initial ["pendown", "penchar", "*", "forward", "3", "stop"])).world 0 1 '*') 0 2 '*') 0 3 '*' }
      "forward" _ rfl rfl (by decide) rfl rfl
  have e4 : interp_loop 3 { loop_entry (initial ["pendown", "penchar", "*", "forward", "3", "stop"]) with
        fin := ["stop"], pendown := true, penchar := '*', col := 3, line := 4,
        world := world_store (world_store (world_store (loop_entry (initial ["pendown", "penchar", "*", "forward", "3", "stop"])).world 0 1 '*') 0 2 '*') 0 3 '*' } =
      interp_loop 2 { loop_entry (initial ["pendown", "penchar", "*", "forward", "3", "stop"]) with
        fin := [], pendown := true, penchar := '*', col := 3, line := 5,
        world := world_store (world_store (world_store (loop_entry (initial ["pendown", "penchar", "*", "forward", "3", "stop"])).world 0 1 '*') 0 2 '*') 0 3 '*',
        fout := (loop_entry (initial ["pendown", "penchar", "*", "forward", "3", "stop"])).fout ++
          render (world_store (world_store (world_store (loop_entry (initial ["pendown", "penchar", "*", "forward", "3", "stop"])).world 0 1 '*') 0 2 '*') 0 3 '*') } :=
    @loop_stop 2 _ _ rfl rfl (by decide)
  rw [e1, e2, e3, e4]
  exact interp_loop_nil 2 rfl

/-- C4, as the program behaves.  The run on `pendown penchar * forward 3 stop` from the
initial state returns 0; in the world it leaves, row 0 reads one space, then `***`, then
46 spaces (the square Myrtle starts from is not drawn), every other row is blank, and
the output ends with the text of that world. -/
theorem star_line_run :
    ∃ s, myrtle_interp (initial ["pendown", "penchar", "*", "forward", "3", "stop"]) =
        .ok (0, s) ∧
      (List.range 50).map (fun c : Nat => s.world.cell 0 c) =
        [' ', '*', '*', '*'] ++ List.replicate 46 ' ' ∧
      (List.range 49).map (fun r : Nat => (List.range 50).map
        (fun c : Nat => s.world.cell (r + 1) c)) = List.replicate 49 (List.replicate 50 ' ') ∧
      (∃ pre, s.fout = pre ++ render s.world) :=
  ⟨_, interp_of_loop rfl rfl star_line_loop, by decide, by decide, _, rfl⟩

/-- C4, as stated, fails: row 0 of the world left by the run on
`pendown penchar * forward 3 stop` does not begin with `***` and a space. -/
theorem star_line_run_counterexample :
    ¬ ∃ s, myrtle_interp (initial ["pendown", "penchar", "*", "forward", "3", "stop"]) =
        .ok (0, s) ∧
      ((List.range 50).map (fun c : Nat => s.world.cell 0 c)).take 4 = ['*', '*', '*', ' '] := by
  rintro ⟨s, hs, hrow⟩
  have h := @interp_of_loop (initial ["pendown", "penchar", "*", "forward", "3", "stop"]) _
    rfl rfl star_line_loop
  rw [h] at hs
  injection hs with hs
  injection hs with _ hs
  subst hs
  revert hrow
  decide

/-- The loop of the interpreter on `stop`. -/
theorem stop_loop :
    interp_loop 1 (loop_entry (initial ["stop"])) =
      .ok { loop_entry (initial ["stop"]) with
        fin := [], line := 2,
        fout := (loop_entry (initial ["stop"])).fout ++ render (loop_entry (initial ["stop"])).world } := by
  rw [@loop_stop 0 _ _ rfl rfl (by decide)]
  exact interp_loop_nil 0 rfl

/-- The loop of the interpreter on `stop right`. -/
theorem stop_right_loop :
    interp_loop 2 (loop_entry (initial ["stop", "right"])) =
      .ok { loop_entry (initial ["stop", "right"]) with
        fin := [], line := 3, dir := DIR_SOUTH,
        fout := (loop_entry (initial ["stop", "right"])).fout ++
          render (loop_entry (initial ["stop", "right"])).world } := by
  have e1 : interp_loop 2 (loop_entry (initial ["stop", "right"])) =
      interp_loop 1 { loop_entry (initial ["stop", "right"]) with
        fin := ["right"], line := 2,
        fout := (loop_entry (initial ["stop", "right"])).fout ++
          render (loop_entry (initial ["stop", "right"])).world } :=
    @loop_stop 1 _ _ rfl rfl (by decide)
  have e2 : interp_loop 1 { loop_entry (initial ["stop", "right"]) with
        fin := ["right"], line := 2,
        fout := (loop_entry (initial ["stop", "right"])).fout ++
          render (loop_entry (initial ["stop", "right"])).world } =
      interp_loop 0 { loop_entry (initial ["stop", "right"]) with
        fin := [], line := 3, dir := DIR_SOUTH,
        fout := (loop_entry (initial ["stop", "right"])).fout ++
          render (loop_entry (initial ["stop", "right"])).world } :=
    @loop_iter 0 _
      { loop_entry (initial ["stop", "right"]) with
        fin := [], line := 2, dir := DIR_SOUTH,
        fout := (loop_entry (initial ["stop", "right"])).fout ++
          render (loop_entry (initial ["stop", "right"])).world }
      "right" _ rfl rfl (by decide) rfl rfl
  rw [e1, e2]
  exact interp_loop_nil 0 rfl

/-- The loop of the interpreter on `stop bogus`. -/
theorem stop_bogus_loop :
    ∃ s, interp_loop 2 (loop_entry (initial ["stop", "bogus"])) = .error (.exit TERM_ERR_UNK_CMD s) := by
  rw [@loop_stop 1 _ _ rfl rfl (by decide), @interp_loop_cons 0 _ "bogus" [] rfl,
    perform_unknown (by decide), bind_error]
  exact ⟨_, rfl⟩

/-- C5, at the inputs where it fails.  `stop` does not end the interpretation: the tokens
after it are read and performed.  The run on `stop` returns 0 with the heading east, but
the run on `stop right` returns with the heading south, and the run on `stop bogus` ends
with `exit(TERM_ERR_UNK_CMD)`. -/
theorem stop_does_not_end_run :
    (∃ s, myrtle_interp (initial ["stop"]) = .ok (0, s) ∧ s.dir = DIR_EAST) ∧
    (∃ s, myrtle_interp (initial ["stop", "right"]) = .ok (0, s) ∧ s.dir = DIR_SOUTH) ∧
    (∃ s, myrtle_interp (initial ["stop", "bogus"]) = .error (.exit TERM_ERR_UNK_CMD s)) := by
  refine ⟨⟨_, interp_of_loop rfl rfl stop_loop, rfl⟩,
    ⟨_, interp_of_loop rfl rfl stop_right_loop, rfl⟩, ?_⟩
  obtain ⟨s, hs⟩ := stop_bogus_loop
  exact ⟨s, interp_of_loop_error rfl rfl hs⟩

/-- C6, at an input where it fails.  The run on the single token `stop` writes the text of
the world twice, once for `stop` and once at the end of the input: 100 lines, 5100
characters. -/
theorem stop_writes_world_twice :
    ∃ s, myrtle_interp (initial ["stop"]) = .ok (0, s) ∧
      s.fout = render s.world ++ render s.world ∧ s.fout.length = 5100 := by
  refine ⟨_, interp_of_loop rfl rfl stop_loop, ?_, ?_⟩
  · show ([] ++ render _) ++ render _ = _
    rw [List.nil_append]
  · show (([] ++ render _) ++ render _).length = _
    rw [List.nil_append, List.length_append, render_length]

theorem heading_delta_ne_zero (dir : Int) :
    (heading_delta dir).1 ≠ 0 ∨ (heading_delta dir).2 ≠ 0 := by
  unfold heading_delta
  split_ifs <;> simp

/-- C10. Take any heading, a position inside the world, the pen down with any glyph, and
`n ≥ 1` such that the `n` squares ahead of the position, in the direction of the heading,
all lie inside the world.  Then `forward n` returns with Myrtle `n` squares ahead; in the
world it leaves, each of the `n` squares at distances `1 .. n` ahead of the start holds
the glyph, and every other cell - the starting square among them - is as before. -/
theorem forward_draws_path (s : State) (n : Int) (tl : List String) (hn : 1 ≤ n)
    (hin : InBounds s) (hpen : s.pendown = true)
    (hpath : ∀ k : Int, 1 ≤ k → k ≤ n →
      0 ≤ s.row + k * (heading_delta s.dir).1 ∧
      s.row + k * (heading_delta s.dir).1 < MAX_WORLD_ROWS ∧
      0 ≤ s.col + k * (heading_delta s.dir).2 ∧
      s.col + k * (heading_delta s.dir).2 < MAX_WORLD_COLS) :
    ∃ W, _myrtle_cmd_perform "forward" { s with fin := toString n :: tl } =
        .ok { s with fin := tl, row := s.row + n * (heading_delta s.dir).1,
                     col := s.col + n * (heading_delta s.dir).2, world := W } ∧
      (∀ k : Int, 1 ≤ k → k ≤ n →
        W.cell (s.row + k * (heading_delta s.dir).1) (s.col + k * (heading_delta s.dir).2) =
          s.penchar) ∧
      (∀ r c : Int,
        (∀ k : Int, 1 ≤ k → k ≤ n →
          ¬ (r = s.row + k * (heading_delta s.dir).1 ∧
             c = s.col + k * (heading_delta s.dir).2)) →
        W.cell r c = s.world.cell r c) ∧
      W.cell s.row s.col = s.world.cell s.row s.col := by
  have hj : ((n.toNat : Nat) : Int) = n := Int.toNat_of_nonneg (by omega)
  have hp := hpath n (by omega) (le_refl _)
  rw [MAX_WORLD_ROWS_eq, MAX_WORLD_COLS_eq] at hp
  obtain ⟨W, hW, -, hdown⟩ := walk 1 (heading_delta s.dir).1 (heading_delta s.dir).2 n.toNat
    { s with fin := tl } (by simp) (by simp) hin (by rw [hj]; exact hp)
  have hdn := hdown hpen
  rw [hj] at hW
  have hother : ∀ r c : Int,
      (∀ k : Int, 1 ≤ k → k ≤ n →
        ¬ (r = s.row + k * (heading_delta s.dir).1 ∧
           c = s.col + k * (heading_delta s.dir).2)) →
      W.cell r c = s.world.cell r c := by
    intro r c hno
    refine (hdn r c).2 ?_
    rintro ⟨k, k1, k2, kr, kc⟩
    exact hno k (by omega) (by omega) ⟨kr, kc⟩
  refine ⟨W, ?_, ?_, hother, ?_⟩
  · rw [perform_forward, @forward_eq { s with fin := toString n :: tl } _ _ rfl,
      atoi_toString]
    exact hW
  · intro k k1 k2
    refine (hdn _ _).1 ⟨k.toNat, by omega, by omega, ?_, ?_⟩
    · rw [Int.toNat_of_nonneg (by omega)]
    · rw [Int.toNat_of_nonneg (by omega)]
  · refine hother _ _ ?_
    rintro k k1 - ⟨er, ec⟩
    have h1 : k * (heading_delta s.dir).1 = 0 := by omega
    have h2 : k * (heading_delta s.dir).2 = 0 := by omega
    have hk : k ≠ 0 := by omega
    rcases heading_delta_ne_zero s.dir with h | h
    · exact h ((mul_eq_zero.mp h1).resolve_left hk)
    · exact h ((mul_eq_zero.mp h2).resolve_left hk)

theorem forward_draws_path_witness :
    (1 : Int) ≤ 3 ∧ InBounds (_myrtle_pen_char_set '*' (_myrtle_pen_down (initial []))) ∧
    (_myrtle_pen_char_set '*' (_myrtle_pen_down (initial []))).pendown = true ∧
    ∃ W, _myrtle_cmd_perform "forward"
        { _myrtle_pen_char_set '*' (_myrtle_pen_down (initial [])) with
          fin := toString (3 : Int) :: [] } =
        .ok { _myrtle_pen_char_set '*' (_myrtle_pen_down (initial [])) with
          fin := [], row := 0 + 3 * 0, col := 0 + 3 * 1, world := W } ∧
      (∀ k : Int, 1 ≤ k → k ≤ 3 → W.cell (0 + k * 0) (0 + k * 1) = '*') ∧
      (∀ r c : Int, (∀ k : Int, 1 ≤ k → k ≤ 3 → ¬ (r = 0 + k * 0 ∧ c = 0 + k * 1)) →
        W.cell r c = (initial []).world.cell r c) ∧
      W.cell 0 0 = (initial []).world.cell 0 0 :=
  have hin : InBounds (_myrtle_pen_char_set '*' (_myrtle_pen_down (initial []))) := by
    refine ⟨le_refl _, ?_, le_refl _, ?_⟩
    · show (0 : Int) < MAX_WORLD_ROWS
      decide
    · show (0 : Int) < MAX_WORLD_COLS
      decide
  ⟨by decide, hin, rfl,
    forward_draws_path (_myrtle_pen_char_set '*' (_myrtle_pen_down (initial []))) 3 []
      (by decide) hin rfl (by
        intro k h1 h2
        show 0 ≤ (0 : Int) + k * 0 ∧ (0 : Int) + k * 0 < 50 ∧ 0 ≤ (0 : Int) + k * 1 ∧
          (0 : Int) + k * 1 < 50
        omega)⟩

/-- C11. With the pen down, for all `row` and `col` in the range of `int` and every state,
the command `hyper row col` returns with Myrtle in the clamped destination
`(min (max row 0) 49, min (max col 0) 49)`.  That cell of the world holds the pen character
afterwards, and every other cell - so every cell between the old and the new position -
is as it was before. -/
theorem hyper_draws_one_cell (s : State) (row col : Int) (tl : List String)
    (hpen : s.pendown = true)
    (hrow : INT_MIN ≤ row ∧ row ≤ INT_MAX) (hcol : INT_MIN ≤ col ∧ col ≤ INT_MAX) :
    ∃ t, _myrtle_cmd_perform "hyper" { s with fin := toString row :: toString col :: tl } =
        .ok t ∧
      t.row = min (max row 0) 49 ∧ t.col = min (max col 0) 49 ∧
      t.world.cell (min (max row 0) 49) (min (max col 0) 49) = s.penchar ∧
      ∀ r c : Int, ¬ (r = min (max row 0) 49 ∧ c = min (max col 0) 49) →
        t.world.cell r c = s.world.cell r c := by
  rw [perform_hyper, @hyper_eq { s with fin := toString row :: toString col :: tl } _ _ _ rfl,
    atoi_int hrow, atoi_int hcol]
  refine ⟨_, rfl, rfl, rfl, ?_, ?_⟩
  · show (if s.pendown = true then
        world_store s.world (min (max row 0) 49) (min (max col 0) 49) s.penchar
      else s.world).cell (min (max row 0) 49) (min (max col 0) 49) = s.penchar
    rw [if_pos hpen]
    simp [world_store]
  · intro r c hrc
    show (if s.pendown = true then
        world_store s.world (min (max row 0) 49) (min (max col 0) 49) s.penchar
      else s.world).cell r c = s.world.cell r c
    rw [if_pos hpen]
    show (if r = min (max row 0) 49 ∧ c = min (max col 0) 49 then s.penchar
      else s.world.cell r c) = s.world.cell r c
    rw [if_neg hrc]

theorem hyper_draws_one_cell_witness :
    (_myrtle_pen_char_set '#' (_myrtle_pen_down (initial []))).pendown = true ∧
    (INT_MIN ≤ (7 : Int) ∧ (7 : Int) ≤ INT_MAX) ∧ (INT_MIN ≤ (60 : Int) ∧ (60 : Int) ≤ INT_MAX) ∧
    ∃ t, _myrtle_cmd_perform "hyper"
        { _myrtle_pen_char_set '#' (_myrtle_pen_down (initial [])) with
          fin := toString (7 : Int) :: toString (60 : Int) :: [] } = .ok t ∧
      t.row = min (max 7 0) 49 ∧ t.col = min (max 60 0) 49 ∧
      t.world.cell (min (max 7 0) 49) (min (max 60 0) 49) = '#' ∧
      ∀ r c : Int, ¬ (r = min (max 7 0) 49 ∧ c = min (max 60 0) 49) →
        t.world.cell r c = (initial []).world.cell r c :=
  ⟨rfl, by decide, by decide,
    hyper_draws_one_cell (_myrtle_pen_char_set '#' (_myrtle_pen_down (initial []))) 7 60 []
      rfl (by decide) (by decide)⟩

/-- C12. With the pen up, for every state and all integers `n`, `row` and `col`, the
commands `forward n`, `backward n` and `hyper row col` return with the world they started
with, and `_myrtle_world_draw_char` returns the state it was called in. -/
theorem penup_keeps_world (s : State) (n row col : Int) (tl : List String)
    (hpen : s.pendown = false) :
    (∃ t, _myrtle_cmd_perform "forward" { s with fin := toString n :: tl } = .ok t ∧
      t.world = s.world) ∧
    (∃ t, _myrtle_cmd_perform "backward" { s with fin := toString n :: tl } = .ok t ∧
      t.world = s.world) ∧
    (∃ t, _myrtle_cmd_perform "hyper" { s with fin := toString row :: toString col :: tl } =
      .ok t ∧ t.world = s.world) ∧
    _myrtle_world_draw_char s = .ok s := by
  refine ⟨?_, ?_, ?_, draw_penup hpen⟩
  · obtain ⟨t, ht, hw, -, -⟩ := for_down_penup 1 n.toNat { s with fin := tl } hpen
    refine ⟨t, ?_, hw⟩
    rw [perform_forward, @forward_eq { s with fin := toString n :: tl } _ _ rfl,
      atoi_toString, ht]
  · obtain ⟨t, ht, hw, -, -⟩ := for_down_penup (-1) n.toNat { s with fin := tl } hpen
    refine ⟨t, ?_, hw⟩
    rw [perform_backward, @backward_eq { s with fin := toString n :: tl } _ _ rfl,
      atoi_toString, ht]
  · rw [perform_hyper, @hyper_eq { s with fin := toString row :: toString col :: tl } _ _ _ rfl]
    refine ⟨_, rfl, ?_⟩
    show (if s.pendown = true then _ else s.world) = s.world
    rw [if_neg (by rw [hpen]; decide)]

theorem penup_keeps_world_witness :
    (initial []).pendown = false ∧
    (∃ t, _myrtle_cmd_perform "forward" { initial [] with fin := toString (5 : Int) :: [] } =
      .ok t ∧ t.world = (initial []).world) ∧
    (∃ t, _myrtle_cmd_perform "backward" { initial [] with fin := toString (5 : Int) :: [] } =
      .ok t ∧ t.world = (initial []).world) ∧
    (∃ t, _myrtle_cmd_perform "hyper"
        { initial [] with fin := toString (3 : Int) :: toString (4 : Int) :: [] } =
      .ok t ∧ t.world = (initial []).world) ∧
    _myrtle_world_draw_char (initial []) = .ok (initial []) :=
  ⟨rfl, penup_keeps_world (initial []) 5 3 4 [] rfl⟩

/-- C13. From every state whose heading is one of the four directions, four `left` commands
in a row return the state they started from, and so do four `right` commands; after one,
two or three of them the heading differs from the one at the start. -/
theorem rotation_period_four (s : State) (h0 : 0 ≤ s.dir) (h4 : s.dir < 4) :
    repeated 4 (_myrtle_cmd_perform "left") s = .ok s ∧
    repeated 4 (_myrtle_cmd_perform "right") s = .ok s ∧
    ∀ k : Nat, 0 < k → k < 4 →
      (∃ t, repeated k (_myrtle_cmd_perform "left") s = .ok t ∧ t.dir ≠ s.dir) ∧
      (∃ t, repeated k (_myrtle_cmd_perform "right") s = .ok t ∧ t.dir ≠ s.dir) := by
  refine ⟨?_, ?_, ?_⟩
  · rw [repeated_left 4 s h0 h4]
    have e : (s.dir + 3 * ((4 : Nat) : Int)) % 4 = s.dir := by omega
    rw [e]
  · rw [repeated_right 4 s h0 h4]
    have e : (s.dir + ((4 : Nat) : Int)) % 4 = s.dir := by omega
    rw [e]
  · intro k hk0 hk4
    refine ⟨⟨_, repeated_left k s h0 h4, ?_⟩, ⟨_, repeated_right k s h0 h4, ?_⟩⟩
    · show (s.dir + 3 * (k : Int)) % 4 ≠ s.dir
      omega
    · show (s.dir + (k : Int)) % 4 ≠ s.dir
      omega

theorem rotation_period_four_witness :
    (0 : Int) ≤ (initial []).dir ∧ (initial []).dir < 4 ∧
    repeated 4 (_myrtle_cmd_perform "left") (initial []) = .ok (initial []) ∧
    repeated 4 (_myrtle_cmd_perform "right") (initial []) = .ok (initial []) ∧
    ∀ k : Nat, 0 < k → k < 4 →
      (∃ t, repeated k (_myrtle_cmd_perform "left") (initial []) = .ok t ∧
        t.dir ≠ (initial []).dir) ∧
      (∃ t, repeated k (_myrtle_cmd_perform "right") (initial []) = .ok t ∧
        t.dir ≠ (initial []).dir) :=
  ⟨by decide, by decide, rotation_period_four (initial []) (by decide) (by decide)⟩

/-- C14. The command `right` turns the heading north to east, east to south, south to west
and west to north, and changes nothing else. -/
theorem right_turns_clockwise (s : State) :
    _myrtle_cmd_perform "right" { s with dir := DIR_NORTH } = .ok { s with dir := DIR_EAST } ∧
    _myrtle_cmd_perform "right" { s with dir := DIR_EAST } = .ok { s with dir := DIR_SOUTH } ∧
    _myrtle_cmd_perform "right" { s with dir := DIR_SOUTH } = .ok { s with dir := DIR_WEST } ∧
    _myrtle_cmd_perform "right" { s with dir := DIR_WEST } = .ok { s with dir := DIR_NORTH } :=
  ⟨rfl, rfl, rfl, rfl⟩

/-- C15. The command `left` turns the heading west to south, south to east, east to north
and north to west, and changes nothing else. -/
theorem left_turns_counter_clockwise (s : State) :
    _myrtle_cmd_perform "left" { s with dir := DIR_WEST } = .ok { s with dir := DIR_SOUTH } ∧
    _myrtle_cmd_perform "left" { s with dir := DIR_SOUTH } = .ok { s with dir := DIR_EAST } ∧
    _myrtle_cmd_perform "left" { s with dir := DIR_EAST } = .ok { s with dir := DIR_NORTH } ∧
    _myrtle_cmd_perform "left" { s with dir := DIR_NORTH } = .ok { s with dir := DIR_WEST } :=
  ⟨rfl, rfl, rfl, rfl⟩

/-- C16. For every state and every integer `n`, the state in which `backward n` returns or
ends has the heading of the state before it; from a position inside the world the
command returns. -/
theorem backward_keeps_heading (s : State) (n : Int) (tl : List String) :
    (stateOf (_myrtle_cmd_perform "backward" { s with fin := toString n :: tl })).dir = s.dir ∧
    (InBounds s →
      ∃ t, _myrtle_cmd_perform "backward" { s with fin := toString n :: tl } = .ok t ∧
        t.dir = s.dir) := by
  rw [perform_backward, @backward_eq { s with fin := toString n :: tl } _ _ rfl, atoi_toString]
  refine ⟨for_down_dir (-1) n.toNat { s with fin := tl }, ?_⟩
  intro hin
  obtain ⟨t, ht, R, C, W, rfl, -⟩ := @for_down_moved (-1) n.toNat { s with fin := tl } hin
  exact ⟨_, ht, rfl⟩

theorem backward_keeps_heading_witness :
    InBounds (_myrtle_pen_down (initial [])) ∧
    ∃ t, _myrtle_cmd_perform "backward"
        { _myrtle_pen_down (initial []) with fin := toString (4 : Int) :: [] } = .ok t ∧
      t.dir = (_myrtle_pen_down (initial [])).dir :=
  have hin : InBounds (_myrtle_pen_down (initial [])) := by
    refine ⟨le_refl _, ?_, le_refl _, ?_⟩
    · show (0 : Int) < MAX_WORLD_ROWS
      decide
    · show (0 : Int) < MAX_WORLD_COLS
      decide
  ⟨hin, (backward_keeps_heading (_myrtle_pen_down (initial [])) 4 []).2 hin⟩

/-- C17. From a position inside the world and with a heading among the four directions, for
every integer `n`, `backward n` returns, and the sequence `right`, `right`, `forward n`,
`right`, `right` returns the very same state: the same position and the same world (and
the same heading). -/
theorem backward_is_turned_forward (s : State) (n : Int) (tl : List String)
    (hin : InBounds s) (h0 : 0 ≤ s.dir) (h4 : s.dir < 4) :
    ∃ t, _myrtle_cmd_perform "backward" { s with fin := toString n :: tl } = .ok t ∧
      (_myrtle_cmd_perform "right" { s with fin := toString n :: tl } >>=
        _myrtle_cmd_perform "right" >>= _myrtle_cmd_perform "forward" >>=
        _myrtle_cmd_perform "right" >>= _myrtle_cmd_perform "right") = .ok t := by
  obtain ⟨t, h1, h2, R, C, W, rfl, hb⟩ := for_down_opposite n.toNat { s with fin := tl } hin h0 h4
  refine ⟨{ s with fin := tl, row := R, col := C, world := W }, ?_, ?_⟩
  · rw [perform_backward, @backward_eq { s with fin := toString n :: tl } _ _ rfl,
      atoi_toString]
    exact h1
  · rw [right_right { s with fin := toString n :: tl } h0 h4, bind_ok, perform_forward,
      @forward_eq { s with fin := toString n :: tl, dir := (s.dir + 2) % 4 } _ _ rfl,
      atoi_toString]
    have h2' : for_down n.toNat (move_and_draw 1)
        { s with fin := tl, dir := (s.dir + 2) % 4 } =
        .ok { s with fin := tl, row := R, col := C, world := W, dir := (s.dir + 2) % 4 } := h2
    rw [h2', bind_ok]
    have hr := right_right
      { s with fin := tl, row := R, col := C, world := W, dir := (s.dir + 2) % 4 }
      (by show 0 ≤ (s.dir + 2) % 4; omega) (by show (s.dir + 2) % 4 < 4; omega)
    have e : ((s.dir + 2) % 4 + 2) % 4 = s.dir := by omega
    have hr' : (_myrtle_cmd_perform "right"
        { s with fin := tl, row := R, col := C, world := W, dir := (s.dir + 2) % 4 } >>=
        _myrtle_cmd_perform "right") =
        .ok { s with fin := tl, row := R, col := C, world := W,
                     dir := ((s.dir + 2) % 4 + 2) % 4 } := hr
    rw [e] at hr'
    exact hr'

theorem backward_is_turned_forward_witness :
    InBounds (_myrtle_pen_down (initial [])) ∧ (0 : Int) ≤ (_myrtle_pen_down (initial [])).dir ∧
    (_myrtle_pen_down (initial [])).dir < 4 ∧
    ∃ t, _myrtle_cmd_perform "backward"
        { _myrtle_pen_down (initial []) with fin := toString (2 : Int) :: [] } = .ok t ∧
      (_myrtle_cmd_perform "right"
          { _myrtle_pen_down (initial []) with fin := toString (2 : Int) :: [] } >>=
        _myrtle_cmd_perform "right" >>= _myrtle_cmd_perform "forward" >>=
        _myrtle_cmd_perform "right" >>= _myrtle_cmd_perform "right") = .ok t :=
  have hin : InBounds (_myrtle_pen_down (initial [])) := by
    refine ⟨le_refl _, ?_, le_refl _, ?_⟩
    · show (0 : Int) < MAX_WORLD_ROWS
      decide
    · show (0 : Int) < MAX_WORLD_COLS
      decide
  ⟨hin, by decide, by decide,
    backward_is_turned_forward (_myrtle_pen_down (initial [])) 2 [] hin (by decide) (by decide)⟩

/-- C18. For every state, `_myrtle_world_write` appends to the output a sequence of
`50 * 51` characters, in which the character at index `r * 51 + c` is the cell `(r, c)` of
the world, for all rows `r` and columns `c` below 50, and the character at index
`r * 51 + 50` is a newline. -/
theorem world_write_row_major (s : State) :
    ∃ out, _myrtle_world_write s = { s with fout := s.fout ++ out } ∧
      out.length = 50 * 51 ∧
      (∀ r c : Fin 50, out[r.val * 51 + c.val]? = some (s.world.cell r.val c.val)) ∧
      (∀ r : Fin 50, out[r.val * 51 + 50]? = some '\n') :=
  ⟨render s.world, world_write_eq s, render_length s.world, render_cell s.world,
    render_newline s.world⟩

/-- C19. On every input, the interpreter enters its loop heading east, at position `(0, 0)`,
with the pen up, the pen character a space, the line counter 1 and a space in every cell
of the world.  On the empty input `myrtle_interp`, and `main` without arguments, return 0
after writing 50 lines of 50 spaces. -/
theorem interp_starts_from_defaults (stdin : List String)
    (readable : String → Option (List String)) (writable : String → Bool) :
    (∃ e, e = stateOf (interp_upto 0 (globals stdin readable writable)) ∧
      e.dir = DIR_EAST ∧ e.row = 0 ∧ e.col = 0 ∧ e.pendown = false ∧ e.penchar = ' ' ∧
      e.line = 1 ∧ ∀ r c : Fin 50, e.world.cell r.val c.val = ' ') ∧
    (∃ s, myrtle_interp (globals [] readable writable) = .ok (0, s) ∧
      main [] (globals [] readable writable) = .ok (0, s) ∧
      s.fout = (List.replicate 50 (List.replicate 50 ' ' ++ ['\n'])).flatten) := by
  have hcell : ∀ (toks : List String) (r c : Nat), r < 50 → c < 50 →
      (loop_entry (globals toks readable writable)).world.cell r c = ' ' := by
    intro toks r c hr hc
    show (if (0 : Int) ≤ r ∧ (r : Int) < MAX_WORLD_ROWS ∧ (0 : Int) ≤ c ∧
        (c : Int) < MAX_WORLD_COLS then ' ' else _) = ' '
    rw [if_pos]
    rw [MAX_WORLD_ROWS_eq, MAX_WORLD_COLS_eq]
    omega
  constructor
  · refine ⟨loop_entry (globals stdin readable writable), ?_, rfl, rfl, rfl, rfl, rfl, rfl, ?_⟩
    · unfold interp_upto
      rw [open_files_default rfl rfl, bind_ok]
      exact (stateOf_interp_loop_zero _).symm
    · intro r c
      exact hcell stdin r.val c.val r.isLt c.isLt
  · have h := @interp_of_loop (globals [] readable writable)
      (loop_entry (globals [] readable writable)) rfl rfl (interp_loop_nil 0 rfl)
    refine ⟨_, h, h, ?_⟩
    show [] ++ render (loop_entry (globals [] readable writable)).world = _
    rw [List.nil_append]
    exact render_blank _ (hcell [])

/-- C24. For every state, `_myrtle_world_draw_char` performed twice in a row gives exactly
what it gives performed once; with the pen down inside the world it returns a state that
a second draw returns unchanged. -/
theorem draw_is_idempotent (s : State) :
    (_myrtle_world_draw_char s >>= _myrtle_world_draw_char) = _myrtle_world_draw_char s ∧
    (s.pendown = true → InBounds s →
      ∃ t, _myrtle_world_draw_char s = .ok t ∧ _myrtle_world_draw_char t = .ok t) := by
  have hin : ∀ hp : s.pendown = true, ∀ hb : InBounds s,
      _myrtle_world_draw_char { s with world := world_store s.world s.row s.col s.penchar } =
        .ok { s with world := world_store s.world s.row s.col s.penchar } := by
    intro hp hb
    have e : world_store (world_store s.world s.row s.col s.penchar) s.row s.col s.penchar =
        world_store s.world s.row s.col s.penchar := world_store_twice _ _ _ _
    rw [@draw_eq { s with world := world_store s.world s.row s.col s.penchar } hb hp]
    exact congrArg (fun w => Except.ok { s with world := w }) e
  constructor
  · by_cases hp : s.pendown = true
    · by_cases hb : InBounds s
      · rw [draw_eq hb hp, bind_ok]
        exact hin hp hb
      · have he : _myrtle_world_draw_char s = .error (.undefined s) := by
          unfold _myrtle_world_draw_char
          have hb' : ¬ (0 ≤ _myrtle_row_get s ∧ _myrtle_row_get s < MAX_WORLD_ROWS ∧
              0 ≤ _myrtle_col_get s ∧ _myrtle_col_get s < MAX_WORLD_COLS) := hb
          rw [if_neg (by show ¬ ((!s.pendown) = true); rw [hp]; decide), if_neg hb']
        rw [he, bind_error]
    · have hp' : s.pendown = false := by
        cases h : s.pendown
        · rfl
        · exact absurd h hp
      rw [draw_penup hp', bind_ok, draw_penup hp']
  · intro hp hb
    exact ⟨_, draw_eq hb hp, hin hp hb⟩

theorem draw_is_idempotent_witness :
    (_myrtle_pen_down (initial [])).pendown = true ∧ InBounds (_myrtle_pen_down (initial [])) ∧
    ∃ t, _myrtle_world_draw_char (_myrtle_pen_down (initial [])) = .ok t ∧
      _myrtle_world_draw_char t = .ok t :=
  ⟨rfl, in_bounds_initial [],
    (draw_is_idempotent (_myrtle_pen_down (initial []))).2 rfl (in_bounds_initial [])⟩

/-- C25, at the inputs where it fails.  When the file named with `-o` cannot be opened for
writing, the program ends with `exit(TERM_ERR_INPUT)`, that is `exit(-1)`, the very code
with which it ends when the file named with `-i` cannot be opened for reading, and not
with `exit(TERM_ERR_OUTPUT)`; the four error codes themselves are -1, -2, -3 and -4. -/
theorem output_failure_uses_input_code (f : String) (stdin : List String)
    (readable : String → Option (List String)) (writable : String → Bool)
    (hf : f ≠ "") (hw : writable f = false) (hr : readable f = none) :
    (∃ t, main ["-o", f] (globals stdin readable writable) = .error (.exit TERM_ERR_INPUT t) ∧
      t.stdout = ["Cannot open outut file '" ++ f ++ "'" ++ ". Terminating.\n"]) ∧
    (∃ t, main ["-i", f] (globals stdin readable writable) = .error (.exit TERM_ERR_INPUT t) ∧
      t.stdout = ["Cannot open input file '" ++ f ++ "'" ++ ". Terminating.\n"]) ∧
    TERM_ERR_INPUT = -1 ∧ TERM_ERR_CMD_LINE = -2 ∧ TERM_ERR_OUTPUT = -3 ∧
    TERM_ERR_UNK_CMD = -4 := by
  refine ⟨?_, ?_, rfl, rfl, rfl, rfl⟩
  · have h1 : main ["-o", f] (globals stdin readable writable) =
        myrtle_interp (file_set_out_fname f (globals stdin readable writable)) := rfl
    have h2 : file_open_files (file_set_out_fname f (globals stdin readable writable)) =
        _file_open_out { file_set_out_fname f (globals stdin readable writable) with
          fin := stdin } := rfl
    rw [h1]
    unfold myrtle_interp
    rw [h2, @open_out_fails { file_set_out_fname f (globals stdin readable writable) with
          fin := stdin } hf hw, bind_error]
    exact ⟨_, rfl, rfl⟩
  · have h1 : main ["-i", f] (globals stdin readable writable) =
        myrtle_interp (file_set_in_fname f (globals stdin readable writable)) := rfl
    rw [h1]
    unfold myrtle_interp file_open_files
    rw [@open_in_fails (file_set_in_fname f (globals stdin readable writable)) hf hr,
      bind_error, bind_error]
    exact ⟨_, rfl, rfl⟩

theorem output_failure_uses_input_code_witness :
    "out.txt" ≠ "" ∧
    (∃ t, main ["-o", "out.txt"] (globals [] (fun _ => none) (fun _ => false)) =
        .error (.exit TERM_ERR_INPUT t) ∧
      t.stdout = ["Cannot open outut file '" ++ "out.txt" ++ "'" ++ ". Terminating.\n"]) ∧
    (∃ t, main ["-i", "out.txt"] (globals [] (fun _ => none) (fun _ => false)) =
        .error (.exit TERM_ERR_INPUT t) ∧
      t.stdout = ["Cannot open input file '" ++ "out.txt" ++ "'" ++ ". Terminating.\n"]) ∧
    TERM_ERR_INPUT = -1 ∧ TERM_ERR_CMD_LINE = -2 ∧ TERM_ERR_OUTPUT = -3 ∧
    TERM_ERR_UNK_CMD = -4 :=
  ⟨by decide, output_failure_uses_input_code "out.txt" [] (fun _ => none) (fun _ => false)
    (by decide) rfl rfl⟩

/-- C27. Heading validity invariant.  Start from the initial state (with any verbose flag
and any file names) on any input: the state reached after the first `k` commands, or the
one in which the run ended before that, has a heading among `DIR_NORTH` (0), `DIR_EAST`
(1), `DIR_SOUTH` (2) and `DIR_WEST` (3).  And no command leaves these four: whatever the
token `cmd`, performing it in a state with one of the four headings ends in a state with
one of the four headings. -/
theorem heading_validity_invariant (stdin : List String)
    (readable : String → Option (List String)) (writable : String → Bool)
    (v : Bool) (fi fo : String) (k : Nat) (cmd : String) (s : State)
    (hs : s.dir = DIR_NORTH ∨ s.dir = DIR_EAST ∨ s.dir = DIR_SOUTH ∨ s.dir = DIR_WEST) :
    (∃ e, e = stateOf (interp_upto k (myrtle_verbose_set v (file_set_out_fname fo
        (file_set_in_fname fi (globals stdin readable writable))))) ∧
      (e.dir = DIR_NORTH ∨ e.dir = DIR_EAST ∨ e.dir = DIR_SOUTH ∨ e.dir = DIR_WEST)) ∧
    (∃ t, t = stateOf (_myrtle_cmd_perform cmd s) ∧
      (t.dir = DIR_NORTH ∨ t.dir = DIR_EAST ∨ t.dir = DIR_SOUTH ∨ t.dir = DIR_WEST)) ∧
    DIR_NORTH = 0 ∧ DIR_EAST = 1 ∧ DIR_SOUTH = 2 ∧ DIR_WEST = 3 := by
  have four : ∀ d : Int, 0 ≤ d ∧ d < 4 →
      d = DIR_NORTH ∨ d = DIR_EAST ∨ d = DIR_SOUTH ∨ d = DIR_WEST := by
    intro d hd
    show d = 0 ∨ d = 1 ∨ d = 2 ∨ d = 3
    omega
  have hs' : 0 ≤ s.dir ∧ s.dir < 4 := by
    have h : s.dir = 0 ∨ s.dir = 1 ∨ s.dir = 2 ∨ s.dir = 3 := hs
    omega
  refine ⟨⟨_, rfl, four _ ?_⟩, ⟨_, rfl, four _ (perform_dir_valid cmd hs')⟩, rfl, rfl, rfl, rfl⟩
  exact @interp_upto_dir_valid k (myrtle_verbose_set v (file_set_out_fname fo
    (file_set_in_fname fi (globals stdin readable writable))))
    (by show (0 : Int) ≤ DIR_EAST ∧ DIR_EAST < 4; decide)

theorem heading_validity_invariant_witness :
    ((initial []).dir = DIR_NORTH ∨ (initial []).dir = DIR_EAST ∨
      (initial []).dir = DIR_SOUTH ∨ (initial []).dir = DIR_WEST) ∧
    (∃ e, e = stateOf (interp_upto 2 (myrtle_verbose_set false (file_set_out_fname ""
        (file_set_in_fname "" (globals ["left", "left"] (fun _ => none) (fun _ => false)))))) ∧
      (e.dir = DIR_NORTH ∨ e.dir = DIR_EAST ∨ e.dir = DIR_SOUTH ∨ e.dir = DIR_WEST)) ∧
    (∃ t, t = stateOf (_myrtle_cmd_perform "left" (initial [])) ∧
      (t.dir = DIR_NORTH ∨ t.dir = DIR_EAST ∨ t.dir = DIR_SOUTH ∨ t.dir = DIR_WEST)) ∧
    DIR_NORTH = 0 ∧ DIR_EAST = 1 ∧ DIR_SOUTH = 2 ∧ DIR_WEST = 3 :=
  ⟨Or.inr (Or.inl rfl),
    heading_validity_invariant ["left", "left"] (fun _ => none) (fun _ => false) false "" "" 2
      "left" (initial []) (Or.inr (Or.inl rfl))⟩

/-- C28. From a position `(r, c)` inside the world, `_myrtle_move 1` leads to
`(max (r - 1) 0, c)` when heading north, to `(min (r + 1) 49, c)` when heading south, to
`(r, min (c + 1) 49)` when heading east and to `(r, max (c - 1) 0)` when heading west;
nothing else of the state changes, so the coordinate on the other axis is as before. -/
theorem single_step_positions (s : State) (hin : InBounds s) :
    _myrtle_move 1 { s with dir := DIR_NORTH } =
      { s with dir := DIR_NORTH, row := max (s.row - 1) 0 } ∧
    _myrtle_move 1 { s with dir := DIR_SOUTH } =
      { s with dir := DIR_SOUTH, row := min (s.row + 1) 49 } ∧
    _myrtle_move 1 { s with dir := DIR_EAST } =
      { s with dir := DIR_EAST, col := min (s.col + 1) 49 } ∧
    _myrtle_move 1 { s with dir := DIR_WEST } =
      { s with dir := DIR_WEST, col := max (s.col - 1) 0 } := by
  obtain ⟨h1, h2, h3, h4⟩ := hin
  rw [MAX_WORLD_ROWS_eq] at h2
  rw [MAX_WORLD_COLS_eq] at h4
  have e1 : min (max (s.row - 1) 0) 49 = max (s.row - 1) 0 := by omega
  have e2 : min (max (s.row + 1) 0) 49 = min (s.row + 1) 49 := by omega
  have e3 : min (max (s.col + 1) 0) 49 = min (s.col + 1) 49 := by omega
  have e4 : min (max (s.col - 1) 0) 49 = max (s.col - 1) 0 := by omega
  refine ⟨?_, ?_, ?_, ?_⟩
  · show _myrtle_row_set (s.row - 1) { s with dir := DIR_NORTH } = _
    rw [row_set_eq, e1]
  · show _myrtle_row_set (s.row + 1) { s with dir := DIR_SOUTH } = _
    rw [row_set_eq, e2]
  · show _myrtle_col_set (s.col + 1) { s with dir := DIR_EAST } = _
    rw [col_set_eq, e3]
  · show _myrtle_col_set (s.col - 1) { s with dir := DIR_WEST } = _
    rw [col_set_eq, e4]

theorem single_step_positions_witness :
    InBounds (initial []) ∧
    _myrtle_move 1 { initial [] with dir := DIR_NORTH } =
      { initial [] with dir := DIR_NORTH, row := max ((initial []).row - 1) 0 } ∧
    _myrtle_move 1 { initial [] with dir := DIR_SOUTH } =
      { initial [] with dir := DIR_SOUTH, row := min ((initial []).row + 1) 49 } ∧
    _myrtle_move 1 { initial [] with dir := DIR_EAST } =
      { initial [] with dir := DIR_EAST, col := min ((initial []).col + 1) 49 } ∧
    _myrtle_move 1 { initial [] with dir := DIR_WEST } =
      { initial [] with dir := DIR_WEST, col := max ((initial []).col - 1) 0 } :=
  ⟨in_bounds_initial [], single_step_positions (initial []) (in_bounds_initial [])⟩

/-- C29. From a position `(r, c)` inside the world, with `(dr, dc)` the unit step of the
heading, and for every `n ≥ 0` in the range of `int`: `forward n` returns at
`(min (max (r + n * dr) 0) 49, min (max (c + n * dc) 0) 49)` and `backward n` returns at
`(min (max (r - n * dr) 0) 49, min (max (c - n * dc) 0) 49)`.  The walk saturates at the
walls, does not wrap around, and the command is not aborted. -/
theorem clamped_walk (s : State) (n : Int) (tl : List String) (hn : 0 ≤ n)
    (hmax : n ≤ INT_MAX) (hin : InBounds s) :
    (∃ W, _myrtle_cmd_perform "forward" { s with fin := toString n :: tl } =
      .ok { s with fin := tl,
                   row := min (max (s.row + n * (heading_delta s.dir).1) 0) 49,
                   col := min (max (s.col + n * (heading_delta s.dir).2) 0) 49,
                   world := W }) ∧
    (∃ W, _myrtle_cmd_perform "backward" { s with fin := toString n :: tl } =
      .ok { s with fin := tl,
                   row := min (max (s.row - n * (heading_delta s.dir).1) 0) 49,
                   col := min (max (s.col - n * (heading_delta s.dir).2) 0) 49,
                   world := W }) := by
  have hj : ((n.toNat : Nat) : Int) = n := Int.toNat_of_nonneg hn
  have hint : INT_MIN ≤ n ∧ n ≤ INT_MAX := ⟨le_trans (by decide) hn, hmax⟩
  obtain ⟨u1, u2⟩ := heading_delta_unit s.dir
  constructor
  · obtain ⟨W, hW⟩ := walk_clamped (heading_delta s.dir).1 (heading_delta s.dir).2 1 n.toNat
      { s with fin := tl } hin (by simp) (by simp) u1 u2
    rw [hj] at hW
    refine ⟨W, ?_⟩
    rw [perform_forward, @forward_eq { s with fin := toString n :: tl } _ _ rfl,
      atoi_int hint]
    exact hW
  · obtain ⟨W, hW⟩ := walk_clamped (-(heading_delta s.dir).1) (-(heading_delta s.dir).2) (-1)
      n.toNat { s with fin := tl } hin (by simp) (by simp) (by omega) (by omega)
    rw [hj] at hW
    refine ⟨W, ?_⟩
    rw [perform_backward, @backward_eq { s with fin := toString n :: tl } _ _ rfl,
      atoi_int hint, hW]
    have e1 : s.row + n * -(heading_delta s.dir).1 = s.row - n * (heading_delta s.dir).1 := by
      ring
    have e2 : s.col + n * -(heading_delta s.dir).2 = s.col - n * (heading_delta s.dir).2 := by
      ring
    show Except.ok { s with fin := tl,
                            row := min (max (s.row + n * -(heading_delta s.dir).1) 0) 49,
                            col := min (max (s.col + n * -(heading_delta s.dir).2) 0) 49,
                            world := W } = _
    rw [e1, e2]

theorem clamped_walk_witness :
    (0 : Int) ≤ 60 ∧ (60 : Int) ≤ INT_MAX ∧ InBounds (initial []) ∧
    (∃ W, _myrtle_cmd_perform "forward" { initial [] with fin := toString (60 : Int) :: [] } =
      .ok { initial [] with
        fin := [],
        row := min (max ((initial []).row + 60 * (heading_delta (initial []).dir).1) 0) 49,
        col := min (max ((initial []).col + 60 * (heading_delta (initial []).dir).2) 0) 49,
        world := W }) ∧
    (∃ W, _myrtle_cmd_perform "backward" { initial [] with fin := toString (60 : Int) :: [] } =
      .ok { initial [] with
        fin := [],
        row := min (max ((initial []).row - 60 * (heading_delta (initial []).dir).1) 0) 49,
        col := min (max ((initial []).col - 60 * (heading_delta (initial []).dir).2) 0) 49,
        world := W }) :=
  ⟨by decide, by decide, in_bounds_initial [],
    clamped_walk (initial []) 60 [] (by decide) (by decide) (in_bounds_initial [])⟩

/-- C30. From a position inside the world and for all `a ≥ 0` and `b ≥ 0` whose sum is in
the range of `int`, `forward a` followed by `forward b` returns the very state that `forward (a + b)` returns: the same
position, heading, pen and world.  The same holds for `backward`. -/
theorem movement_is_additive (s : State) (a b : Int) (tl : List String) (ha : 0 ≤ a)
    (hb : 0 ≤ b) (hmax : a + b ≤ INT_MAX) (hin : InBounds s) :
    (∃ t, _myrtle_cmd_perform "forward" { s with fin := toString (a + b) :: tl } = .ok t ∧
      (_myrtle_cmd_perform "forward" { s with fin := toString a :: toString b :: tl } >>=
        _myrtle_cmd_perform "forward") = .ok t) ∧
    (∃ t, _myrtle_cmd_perform "backward" { s with fin := toString (a + b) :: tl } = .ok t ∧
      (_myrtle_cmd_perform "backward" { s with fin := toString a :: toString b :: tl } >>=
        _myrtle_cmd_perform "backward") = .ok t) := by
  have hab : (a + b).toNat = a.toNat + b.toNat := Int.toNat_add ha hb
  have hia : INT_MIN ≤ a ∧ a ≤ INT_MAX := ⟨le_trans (by decide) ha, by omega⟩
  have hib : INT_MIN ≤ b ∧ b ≤ INT_MAX := ⟨le_trans (by decide) hb, by omega⟩
  have hab0 : 0 ≤ a + b := by omega
  have hiab : INT_MIN ≤ a + b ∧ a + b ≤ INT_MAX := ⟨le_trans (by decide) hab0, hmax⟩
  have key : ∀ d : Int, ∃ t,
      for_down (a + b).toNat (move_and_draw d) { s with fin := tl } = .ok t ∧
      ∃ R C W, for_down a.toNat (move_and_draw d) { s with fin := toString b :: tl } =
          .ok { s with fin := toString b :: tl, row := R, col := C, world := W } ∧
        for_down b.toNat (move_and_draw d) { s with fin := tl, row := R, col := C, world := W }
          = .ok t := by
    intro d
    obtain ⟨R, C, W, hbnd, h1⟩ := walk_frame d a.toNat s hin
    obtain ⟨R2, C2, W2, -, h2⟩ := walk_frame d b.toNat
      { s with row := R, col := C, world := W } hbnd
    refine ⟨{ s with fin := tl, row := R2, col := C2, world := W2 }, ?_, R, C, W,
      h1 (toString b :: tl), h2 tl⟩
    rw [hab, for_down_add, h1 tl, bind_ok]
    exact h2 tl
  constructor
  · obtain ⟨t, ht, R, C, W, h1, h2⟩ := key 1
    refine ⟨t, ?_, ?_⟩
    · rw [perform_forward, @forward_eq { s with fin := toString (a + b) :: tl } _ _ rfl,
        atoi_int hiab]
      exact ht
    · rw [perform_forward,
        @forward_eq { s with fin := toString a :: toString b :: tl } _ _ rfl, atoi_int hia,
        h1, bind_ok, perform_forward,
        @forward_eq { s with fin := toString b :: tl, row := R, col := C, world := W } _ _ rfl,
        atoi_int hib]
      exact h2
  · obtain ⟨t, ht, R, C, W, h1, h2⟩ := key (-1)
    refine ⟨t, ?_, ?_⟩
    · rw [perform_backward, @backward_eq { s with fin := toString (a + b) :: tl } _ _ rfl,
        atoi_int hiab]
      exact ht
    · rw [perform_backward,
        @backward_eq { s with fin := toString a :: toString b :: tl } _ _ rfl, atoi_int hia,
        h1, bind_ok, perform_backward,
        @backward_eq { s with fin := toString b :: tl, row := R, col := C, world := W } _ _ rfl,
        atoi_int hib]
      exact h2

theorem movement_is_additive_witness :
    (0 : Int) ≤ 2 ∧ (0 : Int) ≤ 3 ∧ (2 : Int) + 3 ≤ INT_MAX ∧ InBounds (_myrtle_pen_down (initial [])) ∧
    (∃ t, _myrtle_cmd_perform "forward"
        { _myrtle_pen_down (initial []) with fin := toString ((2 : Int) + 3) :: [] } = .ok t ∧
      (_myrtle_cmd_perform "forward"
          { _myrtle_pen_down (initial []) with
            fin := toString (2 : Int) :: toString (3 : Int) :: [] } >>=
        _myrtle_cmd_perform "forward") = .ok t) ∧
    (∃ t, _myrtle_cmd_perform "backward"
        { _myrtle_pen_down (initial []) with fin := toString ((2 : Int) + 3) :: [] } = .ok t ∧
      (_myrtle_cmd_perform "backward"
          { _myrtle_pen_down (initial []) with
            fin := toString (2 : Int) :: toString (3 : Int) :: [] } >>=
        _myrtle_cmd_perform "backward") = .ok t) :=
  ⟨by decide, by decide, by decide, in_bounds_initial [],
    movement_is_additive (_myrtle_pen_down (initial [])) 2 3 [] (by decide) (by decide)
      (by decide) (in_bounds_initial [])⟩

/-- C31. For every state and every `n ≤ 0` in the range of `int`, `forward n` and `backward n` return the state
they started from but for the consumed token: position, heading, pen and world are
unchanged.  A negative count does not reverse the direction: from column 5 heading east,
`forward -3` stays in column 5 while `backward 3` leads to column 2. -/
theorem non_positive_count_is_no_op (s : State) (n : Int) (tl : List String) (hn : n ≤ 0)
    (hmin : INT_MIN ≤ n) :
    _myrtle_cmd_perform "forward" { s with fin := toString n :: tl } = .ok { s with fin := tl } ∧
    _myrtle_cmd_perform "backward" { s with fin := toString n :: tl } =
      .ok { s with fin := tl } ∧
    _myrtle_cmd_perform "forward" { _myrtle_col_set 5 (initial []) with fin := ["-3"] } =
      .ok { _myrtle_col_set 5 (initial []) with fin := [] } ∧
    _myrtle_cmd_perform "backward" { _myrtle_col_set 5 (initial []) with fin := ["3"] } =
      .ok { _myrtle_col_set 2 (initial []) with fin := [] } := by
  have h0 : n.toNat = 0 := Int.toNat_eq_zero.mpr hn
  have hint : INT_MIN ≤ n ∧ n ≤ INT_MAX := ⟨hmin, le_trans hn (by decide)⟩
  refine ⟨?_, ?_, rfl, rfl⟩
  · rw [perform_forward, @forward_eq { s with fin := toString n :: tl } _ _ rfl,
      atoi_int hint, h0]
    rfl
  · rw [perform_backward, @backward_eq { s with fin := toString n :: tl } _ _ rfl,
      atoi_int hint, h0]
    rfl

theorem non_positive_count_is_no_op_witness :
    (-3 : Int) ≤ 0 ∧ INT_MIN ≤ (-3 : Int) ∧
    _myrtle_cmd_perform "forward" { initial [] with fin := toString (-3 : Int) :: [] } =
      .ok { initial [] with fin := [] } ∧
    _myrtle_cmd_perform "backward" { initial [] with fin := toString (-3 : Int) :: [] } =
      .ok { initial [] with fin := [] } ∧
    _myrtle_cmd_perform "forward" { _myrtle_col_set 5 (initial []) with fin := ["-3"] } =
      .ok { _myrtle_col_set 5 (initial []) with fin := [] } ∧
    _myrtle_cmd_perform "backward" { _myrtle_col_set 5 (initial []) with fin := ["3"] } =
      .ok { _myrtle_col_set 2 (initial []) with fin := [] } :=
  ⟨by decide, by decide,
    non_positive_count_is_no_op (initial []) (-3) [] (by decide) (by decide)⟩

/-- C32. Let Myrtle stand inside the world on a border square, heading out of the world
(north in row 0, east in column 49, south in row 49 or west in column 0), with the pen
down.  For every `n ≥ 1` in the range of `int`, `forward n` returns with the position unchanged and the pen
character stored in the square Myrtle stands on; every other cell of the world is as
before. -/
theorem blocked_steps_still_draw (s : State) (n : Int) (tl : List String) (hn : 1 ≤ n)
    (hmax : n ≤ INT_MAX) (hin : InBounds s) (hpen : s.pendown = true)
    (hwall : (s.dir = DIR_NORTH ∧ s.row = 0) ∨ (s.dir = DIR_EAST ∧ s.col = 49) ∨
      (s.dir = DIR_SOUTH ∧ s.row = 49) ∨ (s.dir = DIR_WEST ∧ s.col = 0)) :
    _myrtle_cmd_perform "forward" { s with fin := toString n :: tl } =
      .ok { s with fin := tl, world := world_store s.world s.row s.col s.penchar } ∧
    (world_store s.world s.row s.col s.penchar).cell s.row s.col = s.penchar ∧
    ∀ r c : Int, ¬ (r = s.row ∧ c = s.col) →
      (world_store s.world s.row s.col s.penchar).cell r c = s.world.cell r c := by
  obtain ⟨j, hj⟩ : ∃ j : Nat, n.toNat = j + 1 := ⟨n.toNat - 1, by omega⟩
  have hint : INT_MIN ≤ n ∧ n ≤ INT_MAX := ⟨le_trans (by decide) hn, hmax⟩
  obtain ⟨h1, h2, h3, h4⟩ := hin
  rw [MAX_WORLD_ROWS_eq] at h2
  rw [MAX_WORLD_COLS_eq] at h4
  have hrc : min (max (s.row + 1 * (heading_delta s.dir).1) 0) 49 = s.row ∧
      min (max (s.col + 1 * (heading_delta s.dir).2) 0) 49 = s.col := by
    rcases hwall with ⟨hd, hp⟩ | ⟨hd, hp⟩ | ⟨hd, hp⟩ | ⟨hd, hp⟩
    · rw [hd]
      show min (max (s.row + 1 * (-1)) 0) 49 = s.row ∧ min (max (s.col + 1 * 0) 0) 49 = s.col
      omega
    · rw [hd]
      show min (max (s.row + 1 * 0) 0) 49 = s.row ∧ min (max (s.col + 1 * 1) 0) 49 = s.col
      omega
    · rw [hd]
      show min (max (s.row + 1 * 1) 0) 49 = s.row ∧ min (max (s.col + 1 * 0) 0) 49 = s.col
      omega
    · rw [hd]
      show min (max (s.row + 1 * 0) 0) 49 = s.row ∧ min (max (s.col + 1 * (-1)) 0) 49 = s.col
      omega
  refine ⟨?_, ?_, ?_⟩
  · rw [perform_forward, @forward_eq { s with fin := toString n :: tl } _ _ rfl,
      atoi_int hint, hj]
    exact blocked_walk j { s with fin := tl }
      ⟨h1, by rw [MAX_WORLD_ROWS_eq]; exact h2, h3, by rw [MAX_WORLD_COLS_eq]; exact h4⟩
      hpen hrc.1 hrc.2
  · show (if s.row = s.row ∧ s.col = s.col then s.penchar else s.world.cell s.row s.col) = _
    rw [if_pos ⟨rfl, rfl⟩]
  · intro r c h
    show (if r = s.row ∧ c = s.col then s.penchar else s.world.cell r c) = _
    rw [if_neg h]

theorem blocked_steps_still_draw_witness :
    (1 : Int) ≤ 4 ∧ (4 : Int) ≤ INT_MAX ∧
    InBounds (_myrtle_pen_char_set '#' (_myrtle_pen_down (_myrtle_dir_set DIR_WEST (initial [])))) ∧
    _myrtle_cmd_perform "forward"
        { _myrtle_pen_char_set '#' (_myrtle_pen_down (_myrtle_dir_set DIR_WEST (initial []))) with
          fin := toString (4 : Int) :: [] } =
      .ok { _myrtle_pen_char_set '#' (_myrtle_pen_down (_myrtle_dir_set DIR_WEST (initial []))) with
        fin := [],
        world := world_store (initial []).world 0 0 '#' } ∧
    (world_store (initial []).world 0 0 '#').cell 0 0 = '#' ∧
    ∀ r c : Int, ¬ (r = 0 ∧ c = 0) →
      (world_store (initial []).world 0 0 '#').cell r c = (initial []).world.cell r c :=
  ⟨by decide, by decide, in_bounds_initial [],
    blocked_steps_still_draw
      (_myrtle_pen_char_set '#' (_myrtle_pen_down (_myrtle_dir_set DIR_WEST (initial [])))) 4 []
      (by decide) (by decide) (in_bounds_initial []) rfl (Or.inr (Or.inr (Or.inr ⟨rfl, rfl⟩)))⟩

/-- C33. Let the world go to a file named with `-o` that can be opened, or to the standard
output with the verbose flag off.  On an input that is a sequence `cs` of commands, each
with its arguments, the run returns 0 and the output written is, for each position `i` of
a `stop` in `cs` and in this order, the text of the world as it was after the first `i`
commands, followed by the text of the final world: `cs.count stop + 1` texts of 2550
characters.  The standard output has received one `Performing command` line for each
command when the verbose flag is on and nothing otherwise, so that without an output file
nothing else has been written to it.  The command `stop` changes nothing of the state but
the output. -/
theorem output_is_snapshots (cs : List Cmd) (v : Bool) (fo : String)
    (readable : String → Option (List String)) (writable : String → Bool) (u : State)
    (hsink : (fo = "" ∧ v = false) ∨ (fo ≠ "" ∧ writable fo = true)) :
    (∃ s, myrtle_interp (myrtle_verbose_set v (file_set_out_fname fo
          (globals (Cmd.stream cs) readable writable))) = .ok (0, s) ∧
      s.fout = (stop_positions cs).flatMap (fun i => render (stateOf (interp_upto i
          (myrtle_verbose_set v (file_set_out_fname fo
            (globals (Cmd.stream cs) readable writable))))).world) ++
        render s.world ∧
      s.fout.length = (cs.count Cmd.stop + 1) * 2550 ∧
      s.stdout = (if v = true then
        cs.map (fun c => "Performing command: " ++ c.name ++ "\n") else []) ∧
      (fo = "" → s.stdout = [])) ∧
    (∀ i : Nat, i ∈ stop_positions cs ↔ cs[i]? = some Cmd.stop) ∧
    (stop_positions cs).length = cs.count Cmd.stop ∧
    _myrtle_cmd_perform "stop" u = .ok { u with fout := u.fout ++ render u.world } := by
  have hfo : fo = "" ∨ writable fo = true := by
    rcases hsink with ⟨h, -⟩ | ⟨-, h⟩
    · exact Or.inl h
    · exact Or.inr h
  have hin : InBounds (loop_entry (myrtle_verbose_set v (file_set_out_fname fo
      (globals (Cmd.stream cs) readable writable)))) := by
    rw [loop_entry_eq]
    refine ⟨le_refl _, ?_, le_refl _, ?_⟩
    · show (0 : Int) < MAX_WORLD_ROWS
      decide
    · show (0 : Int) < MAX_WORLD_COLS
      decide
  obtain ⟨t, ht, -, htf, -, -, -, hts, hto⟩ := loop_full [] cs
    (loop_entry (myrtle_verbose_set v (file_set_out_fname fo
      (globals (Cmd.stream cs) readable writable))))
    hin (by rw [loop_entry_eq]; exact Int.one_nonneg)
    (by rw [loop_entry_eq, List.append_nil]; rfl)
  have hlen : cs.length + ((Cmd.stream cs).length - cs.length) = (Cmd.stream cs).length := by
    have := stream_length cs
    omega
  have hrun : interp_loop (myrtle_verbose_set v (file_set_out_fname fo
      (globals (Cmd.stream cs) readable writable))).stdin.length
      (loop_entry (myrtle_verbose_set v (file_set_out_fname fo
        (globals (Cmd.stream cs) readable writable)))) = .ok t := by
    show interp_loop (Cmd.stream cs).length _ = _
    rw [← hlen, ht, interp_loop_nil _ htf]
  have hsnap : t.fout = (stop_positions cs).flatMap (fun i => render (stateOf (interp_upto i
      (myrtle_verbose_set v (file_set_out_fname fo
        (globals (Cmd.stream cs) readable writable))))).world) := by
    rw [hto]
    have e : ∀ i, interp_upto i (myrtle_verbose_set v (file_set_out_fname fo
        (globals (Cmd.stream cs) readable writable))) =
        interp_loop i (loop_entry (myrtle_verbose_set v (file_set_out_fname fo
          (globals (Cmd.stream cs) readable writable)))) :=
      fun i => interp_upto_stdin i rfl hfo
    simp only [e]
    exact List.nil_append _
  have hout : t.stdout = (if v = true then
      cs.map (fun c => "Performing command: " ++ c.name ++ "\n") else []) := by
    rw [hts, loop_entry_eq]
    exact List.nil_append _
  refine ⟨⟨{ t with fout := t.fout ++ render t.world }, ?_, ?_, ?_, hout, ?_⟩,
    mem_stop_positions cs, stop_positions_length cs, (perform_stop u).trans (stop_eq u)⟩
  · rw [myrtle_interp_stdin rfl hfo, hrun, bind_ok]
  · show t.fout ++ render t.world = _
    rw [hsnap]
  · show (t.fout ++ render t.world).length = _
    rw [hsnap, List.length_append, flatMap_render_length, render_length,
      stop_positions_length]
    ring
  · intro he
    have hv : v = false := by
      rcases hsink with ⟨-, h⟩ | ⟨h, -⟩
      · exact h
      · exact absurd he h
    show t.stdout = []
    rw [hout, hv]
    rfl

theorem output_is_snapshots_witness :
    (("" = "" ∧ false = false) ∨ ("" ≠ "" ∧ (fun _ : String => false) "" = true)) ∧
    (∃ s, myrtle_interp (myrtle_verbose_set false (file_set_out_fname ""
          (globals (Cmd.stream [Cmd.pendown, Cmd.stop, Cmd.forward "2"])
            (fun _ => none) (fun _ => false)))) = .ok (0, s) ∧
      s.fout = (stop_positions [Cmd.pendown, Cmd.stop, Cmd.forward "2"]).flatMap
          (fun i => render (stateOf (interp_upto i
            (myrtle_verbose_set false (file_set_out_fname ""
              (globals (Cmd.stream [Cmd.pendown, Cmd.stop, Cmd.forward "2"])
                (fun _ => none) (fun _ => false)))))).world) ++
        render s.world ∧
      s.fout.length = ([Cmd.pendown, Cmd.stop, Cmd.forward "2"].count Cmd.stop + 1) * 2550 ∧
      s.stdout = (if false = true then
        [Cmd.pendown, Cmd.stop, Cmd.forward "2"].map
          (fun c => "Performing command: " ++ c.name ++ "\n") else []) ∧
      ("" = "" → s.stdout = [])) ∧
    (∀ i : Nat, i ∈ stop_positions [Cmd.pendown, Cmd.stop, Cmd.forward "2"] ↔
      [Cmd.pendown, Cmd.stop, Cmd.forward "2"][i]? = some Cmd.stop) ∧
    (stop_positions [Cmd.pendown, Cmd.stop, Cmd.forward "2"]).length =
      [Cmd.pendown, Cmd.stop, Cmd.forward "2"].count Cmd.stop ∧
    _myrtle_cmd_perform "stop" (initial []) =
      .ok { initial [] with fout := (initial []).fout ++ render (initial []).world } :=
  ⟨Or.inl ⟨rfl, rfl⟩,
    output_is_snapshots [Cmd.pendown, Cmd.stop, Cmd.forward "2"] false ""
      (fun _ => none) (fun _ => false) (initial []) (Or.inl ⟨rfl, rfl⟩)⟩

/-- C34. From every state whose heading is one of the four directions, `left` followed by
`right` returns the state it started from, and so does `right` followed by `left`. -/
theorem left_right_inverse (s : State) (h0 : 0 ≤ s.dir) (h4 : s.dir < 4) :
    (_myrtle_cmd_perform "left" s >>= _myrtle_cmd_perform "right") = .ok s ∧
    (_myrtle_cmd_perform "right" s >>= _myrtle_cmd_perform "left") = .ok s := by
  constructor
  · rw [perform_left, left_valid s h0 h4, bind_ok, perform_right,
      right_valid { s with dir := (s.dir + 3) % 4 } (by show 0 ≤ (s.dir + 3) % 4; omega)
        (by show (s.dir + 3) % 4 < 4; omega)]
    have e : ((s.dir + 3) % 4 + 1) % 4 = s.dir := by omega
    exact congrArg (fun d => Except.ok { s with dir := d }) e
  · rw [perform_right, right_valid s h0 h4, bind_ok, perform_left,
      left_valid { s with dir := (s.dir + 1) % 4 } (by show 0 ≤ (s.dir + 1) % 4; omega)
        (by show (s.dir + 1) % 4 < 4; omega)]
    have e : ((s.dir + 1) % 4 + 3) % 4 = s.dir := by omega
    exact congrArg (fun d => Except.ok { s with dir := d }) e

theorem left_right_inverse_witness :
    (0 : Int) ≤ (initial []).dir ∧ (initial []).dir < 4 ∧
    (_myrtle_cmd_perform "left" (initial []) >>= _myrtle_cmd_perform "right") =
      .ok (initial []) ∧
    (_myrtle_cmd_perform "right" (initial []) >>= _myrtle_cmd_perform "left") =
      .ok (initial []) :=
  ⟨by decide, by decide, left_right_inverse (initial []) (by decide) (by decide)⟩

/-- C35. In every state reached from the initial state (with any verbose flag and any file
names), on any input and after any number `k` of commands, the row and the column are in
`0..49`, so `_myrtle_world_draw_char` returns, and so do the loop of `forward` and
`backward`, for any number of rounds, and the command `hyper` with any two arguments: the
write outside the world is never reached.  The run on a sequence of commands, each with
its arguments, returns 0. -/
theorem canvas_writes_in_bounds (stdin : List String)
    (readable : String → Option (List String)) (writable : String → Bool)
    (v : Bool) (fi fo : String) (k j : Nat) (d : Int) (n m : String) (tl : List String)
    (cs : List Cmd) :
    (∃ e, e = stateOf (interp_upto k (myrtle_verbose_set v (file_set_out_fname fo
        (file_set_in_fname fi (globals stdin readable writable))))) ∧
      (0 ≤ e.row ∧ e.row < 50 ∧ 0 ≤ e.col ∧ e.col < 50) ∧
      (∃ t, _myrtle_world_draw_char e = .ok t) ∧
      (∃ t, for_down j (move_and_draw d) e = .ok t) ∧
      (∃ t, _myrtle_cmd_perform "hyper" { e with fin := n :: m :: tl } = .ok t)) ∧
    (∃ s, myrtle_interp (myrtle_verbose_set v (globals (Cmd.stream cs) readable writable)) =
      .ok (0, s)) := by
  have h0 : InBounds (myrtle_verbose_set v (file_set_out_fname fo
      (file_set_in_fname fi (globals stdin readable writable)))) := by
    refine ⟨le_refl _, ?_, le_refl _, ?_⟩
    · show (0 : Int) < MAX_WORLD_ROWS
      decide
    · show (0 : Int) < MAX_WORLD_COLS
      decide
  have h := interp_upto_inBounds k h0
  constructor
  · refine ⟨_, rfl, h, ?_, ?_, ?_⟩
    · obtain ⟨t, ht, -⟩ := draw_moved h
      exact ⟨t, ht⟩
    · obtain ⟨t, ht, -⟩ := for_down_moved d j h
      exact ⟨t, ht⟩
    · exact ⟨_, (perform_hyper _).trans (hyper_eq rfl)⟩
  · obtain ⟨t, ht, -⟩ := run_snapshots cs v readable writable
    exact ⟨_, ht⟩

/-- C36. For every state: `left` and `right` return the state with at most the heading
changed; `penup` and `pendown` return the state with the pen flag set to up and to down
and nothing else changed - so `pendown` draws nothing - and performing either of them
twice is the same as performing it once. -/
theorem non_movement_commands_frame (s : State) :
    (∃ D, _myrtle_cmd_perform "left" s = .ok { s with dir := D }) ∧
    (∃ D, _myrtle_cmd_perform "right" s = .ok { s with dir := D }) ∧
    _myrtle_cmd_perform "penup" s = .ok { s with pendown := false } ∧
    _myrtle_cmd_perform "pendown" s = .ok { s with pendown := true } ∧
    (_myrtle_cmd_perform "penup" s >>= _myrtle_cmd_perform "penup") =
      _myrtle_cmd_perform "penup" s ∧
    (_myrtle_cmd_perform "pendown" s >>= _myrtle_cmd_perform "pendown") =
      _myrtle_cmd_perform "pendown" s :=
  ⟨⟨_, (perform_left s).trans (left_eq s)⟩, ⟨_, (perform_right s).trans (right_eq s)⟩,
    rfl, rfl, rfl, rfl⟩

end Myrtle
